import Mathlib

/-!
Verification of the script-weaver deterministic task-graph engine.

The definitions below are shallow embeddings of the Go sources:
  * `internal/graph` (parse / normalize / hash),
  * `internal/incremental` (invalidation analysis and plan building),
  * the `dag` executor (serial and parallel modes),
  * the CLI resume planner and resume gate.

Go maps are modelled as association lists or as total functions with the
zero-value default (Go map reads of a missing key yield the zero value);
Go `int` is modelled as `Int` where negative values matter and as `Nat`
elsewhere; fallible Go code returns `Option` or `Except`.
-/

namespace SW

/-! ## Generic list machinery: insertion sort by a boolean comparator,
adjacent deduplication, and the determinism lemmas used throughout.
These model Go's `sort.Strings` / `sort.Slice` on deterministic
comparators together with the source's adjacent-dedup loops. -/

/-- Insert `x` into `l` before the first element `y` with `le x y`. -/
def insertLe (le : α → α → Bool) (x : α) : List α → List α
  | [] => [x]
  | y :: ys => if le x y then x :: y :: ys else y :: insertLe le x ys

/-- Insertion sort by a boolean comparator. -/
def sortLe (le : α → α → Bool) : List α → List α
  | [] => []
  | x :: xs => insertLe le x (sortLe le xs)

/-- Drop adjacent duplicates, keeping the first element of each run
(the source's `j`-indexed dedup loops). -/
def dedupAdj [DecidableEq α] : List α → List α
  | [] => []
  | [x] => [x]
  | x :: y :: t => if x = y then dedupAdj (y :: t) else x :: dedupAdj (y :: t)

theorem insertLe_perm (le : α → α → Bool) (x : α) (l : List α) :
    List.Perm (insertLe le x l) (x :: l) := by
  induction l with
  | nil => simp [insertLe]
  | cons y ys ih =>
    by_cases h : le x y
    · simp [insertLe, h]
    · simp only [insertLe, if_neg h]
      exact (ih.cons y).trans (List.Perm.swap x y ys)

theorem sortLe_perm (le : α → α → Bool) (l : List α) :
    List.Perm (sortLe le l) l := by
  induction l with
  | nil => simp [sortLe]
  | cons x xs ih => exact (insertLe_perm le x (sortLe le xs)).trans (ih.cons x)

theorem mem_sortLe (le : α → α → Bool) (l : List α) (x : α) :
    x ∈ sortLe le l ↔ x ∈ l := (sortLe_perm le l).mem_iff

theorem length_sortLe (le : α → α → Bool) (l : List α) :
    (sortLe le l).length = l.length := (sortLe_perm le l).length_eq

theorem pairwise_insertLe (le : α → α → Bool)
    (htot : ∀ a b, le a b = true ∨ le b a = true)
    (htrans : ∀ a b c, le a b = true → le b c = true → le a c = true)
    (x : α) (l : List α) (hl : l.Pairwise (fun a b => le a b = true)) :
    (insertLe le x l).Pairwise (fun a b => le a b = true) := by
  induction l with
  | nil => simp [insertLe]
  | cons y ys ih =>
    rcases List.pairwise_cons.mp hl with ⟨hy, hys⟩
    by_cases h : le x y
    · simp only [insertLe, if_pos h]
      refine List.pairwise_cons.mpr ⟨?_, hl⟩
      intro z hz
      rcases List.mem_cons.mp hz with hz | hz
      · exact hz ▸ h
      · exact htrans _ _ _ h (hy _ hz)
    · simp only [insertLe, if_neg h]
      refine List.pairwise_cons.mpr ⟨?_, ih hys⟩
      intro z hz
      have hz' := (insertLe_perm le x ys).mem_iff.mp hz
      rcases List.mem_cons.mp hz' with hz' | hz'
      · rw [hz']
        rcases htot x y with h' | h'
        · exact absurd h' h
        · exact h'
      · exact hy _ hz'

theorem pairwise_sortLe (le : α → α → Bool)
    (htot : ∀ a b, le a b = true ∨ le b a = true)
    (htrans : ∀ a b c, le a b = true → le b c = true → le a c = true)
    (l : List α) : (sortLe le l).Pairwise (fun a b => le a b = true) := by
  induction l with
  | nil => simp [sortLe]
  | cons x xs ih => exact pairwise_insertLe le htot htrans x _ ih

/-- Two sorted permutations are equal when the comparator is antisymmetric. -/
theorem eq_of_perm_of_pairwise_anti (le : α → α → Bool)
    (hanti : ∀ a b, le a b = true → le b a = true → a = b) :
    ∀ (l₁ l₂ : List α), List.Perm l₁ l₂ →
      l₁.Pairwise (fun a b => le a b = true) →
      l₂.Pairwise (fun a b => le a b = true) → l₁ = l₂ := by
  intro l₁
  induction l₁ with
  | nil =>
    intro l₂ hp _ _
    cases l₂ with
    | nil => rfl
    | cons b t => exact absurd hp.length_eq (by simp)
  | cons a t₁ ih =>
    intro l₂ hp hs₁ hs₂
    cases l₂ with
    | nil => exact absurd hp.length_eq (by simp)
    | cons b t₂ =>
      rcases List.pairwise_cons.mp hs₁ with ⟨ha, ht₁⟩
      rcases List.pairwise_cons.mp hs₂ with ⟨hb, ht₂⟩
      have hab : a = b := by
        have hmem_a : a ∈ b :: t₂ := hp.mem_iff.mp (by simp)
        have hmem_b : b ∈ a :: t₁ := hp.mem_iff.mpr (by simp)
        rcases List.mem_cons.mp hmem_a with h | h
        · exact h
        · rcases List.mem_cons.mp hmem_b with h' | h'
          · exact h'.symm
          · exact hanti a b (ha _ h') (hb _ h)
      subst hab
      rw [ih t₂ hp.cons_inv ht₁ ht₂]

/-- Two sorted permutations with pairwise-distinct keys are equal when the
comparator only consults the key and the key order is antisymmetric. -/
theorem eq_of_perm_of_pairwise_key (key : α → κ) (kle : κ → κ → Bool)
    (hanti : ∀ x y, kle x y = true → kle y x = true → x = y) :
    ∀ (l₁ l₂ : List α), List.Perm l₁ l₂ →
      l₁.Pairwise (fun a b => kle (key a) (key b) = true) →
      l₂.Pairwise (fun a b => kle (key a) (key b) = true) →
      (l₁.map key).Nodup → l₁ = l₂ := by
  intro l₁
  induction l₁ with
  | nil =>
    intro l₂ hp _ _ _
    cases l₂ with
    | nil => rfl
    | cons b t => exact absurd hp.length_eq (by simp)
  | cons a t₁ ih =>
    intro l₂ hp hs₁ hs₂ hnd
    cases l₂ with
    | nil => exact absurd hp.length_eq (by simp)
    | cons b t₂ =>
      rcases List.pairwise_cons.mp hs₁ with ⟨ha, ht₁⟩
      rcases List.pairwise_cons.mp hs₂ with ⟨hb, ht₂⟩
      rw [List.map_cons] at hnd
      rcases List.nodup_cons.mp hnd with ⟨hka, hnd'⟩
      have hab : a = b := by
        have hmem_a : a ∈ b :: t₂ := hp.mem_iff.mp (by simp)
        have hmem_b : b ∈ a :: t₁ := hp.mem_iff.mpr (by simp)
        rcases List.mem_cons.mp hmem_a with h | h
        · exact h
        · rcases List.mem_cons.mp hmem_b with h' | h'
          · exact h'.symm
          · exfalso
            have hk : key a = key b := hanti _ _ (ha _ h') (hb _ h)
            exact hka (hk ▸ List.mem_map_of_mem key h')
      subst hab
      rw [ih t₂ hp.cons_inv ht₁ ht₂ hnd']

theorem dedupAdj_cons_cons [DecidableEq α] (a b : α) (t : List α) :
    dedupAdj (a :: b :: t) =
      if a = b then dedupAdj (b :: t) else a :: dedupAdj (b :: t) := rfl

theorem mem_dedupAdj [DecidableEq α] (l : List α) (x : α) :
    x ∈ dedupAdj l ↔ x ∈ l := by
  induction l with
  | nil => simp [dedupAdj]
  | cons a t ih =>
    cases t with
    | nil => simp [dedupAdj]
    | cons b t' =>
      by_cases h : a = b
      · subst h
        rw [dedupAdj_cons_cons, if_pos rfl]
        rw [ih]
        constructor
        · intro hx; exact List.mem_cons_of_mem _ hx
        · intro hx
          rcases List.mem_cons.mp hx with hx | hx
          · exact hx ▸ List.mem_cons_self _ _
          · exact hx
      · rw [dedupAdj_cons_cons, if_neg h]
        constructor
        · intro hx
          rcases List.mem_cons.mp hx with hx | hx
          · exact hx ▸ List.mem_cons_self _ _
          · exact List.mem_cons_of_mem _ (ih.mp hx)
        · intro hx
          rcases List.mem_cons.mp hx with hx | hx
          · exact hx ▸ List.mem_cons_self _ _
          · exact List.mem_cons_of_mem _ (ih.mpr hx)

theorem sublist_dedupAdj [DecidableEq α] (l : List α) :
    List.Sublist (dedupAdj l) l := by
  induction l with
  | nil => simp [dedupAdj]
  | cons a t ih =>
    cases t with
    | nil => simp [dedupAdj]
    | cons b t' =>
      by_cases h : a = b
      · subst h
        rw [dedupAdj_cons_cons, if_pos rfl]
        exact ih.cons _
      · rw [dedupAdj_cons_cons, if_neg h]
        exact ih.cons₂ _

theorem pairwise_dedupAdj [DecidableEq α] (r : α → α → Prop) (l : List α)
    (hl : l.Pairwise r) : (dedupAdj l).Pairwise r :=
  hl.sublist (sublist_dedupAdj l)

theorem nodup_dedupAdj [DecidableEq α] (le : α → α → Bool)
    (hanti : ∀ a b, le a b = true → le b a = true → a = b) (l : List α)
    (hl : l.Pairwise (fun a b => le a b = true)) : (dedupAdj l).Nodup := by
  induction l with
  | nil => simp [dedupAdj]
  | cons a t ih =>
    cases t with
    | nil => simp [dedupAdj]
    | cons b t' =>
      rcases List.pairwise_cons.mp hl with ⟨ha, ht⟩
      by_cases h : a = b
      · subst h
        rw [dedupAdj_cons_cons, if_pos rfl]
        exact ih ht
      · rw [dedupAdj_cons_cons, if_neg h]
        refine List.nodup_cons.mpr ⟨?_, ih ht⟩
        intro hmem
        have hmem' : a ∈ b :: t' := (mem_dedupAdj _ _).mp hmem
        rcases List.mem_cons.mp hmem' with h' | h'
        · exact h h'
        · rcases List.pairwise_cons.mp ht with ⟨hb, _⟩
          exact h (hanti a b (ha _ (by simp)) (hb _ h'))

/-- Two sorted lists without duplicates that have the same members are
equal, given an antisymmetric comparator. -/
theorem eq_of_mem_of_pairwise_nodup (le : α → α → Bool)
    (hanti : ∀ a b, le a b = true → le b a = true → a = b) :
    ∀ (l₁ l₂ : List α),
      (∀ x, x ∈ l₁ ↔ x ∈ l₂) →
      l₁.Pairwise (fun a b => le a b = true) →
      l₂.Pairwise (fun a b => le a b = true) →
      l₁.Nodup → l₂.Nodup → l₁ = l₂ := by
  intro l₁
  induction l₁ with
  | nil =>
    intro l₂ hm _ _ _ _
    cases l₂ with
    | nil => rfl
    | cons b t₂ => exact absurd ((hm b).mpr (by simp)) (by simp)
  | cons a t₁ ih =>
    intro l₂ hm hs₁ hs₂ hn₁ hn₂
    cases l₂ with
    | nil => exact absurd ((hm a).mp (by simp)) (by simp)
    | cons b t₂ =>
      rcases List.pairwise_cons.mp hs₁ with ⟨ha, ht₁⟩
      rcases List.pairwise_cons.mp hs₂ with ⟨hb, ht₂⟩
      rcases List.nodup_cons.mp hn₁ with ⟨hna, hn₁'⟩
      rcases List.nodup_cons.mp hn₂ with ⟨hnb, hn₂'⟩
      have hab : a = b := by
        have hmem_a : a ∈ b :: t₂ := (hm a).mp (by simp)
        have hmem_b : b ∈ a :: t₁ := (hm b).mpr (by simp)
        rcases List.mem_cons.mp hmem_a with h | h
        · exact h
        · rcases List.mem_cons.mp hmem_b with h' | h'
          · exact h'.symm
          · exact hanti a b (ha _ h') (hb _ h)
      subst hab
      have hm' : ∀ x, x ∈ t₁ ↔ x ∈ t₂ := by
        intro x
        constructor
        · intro hx
          have hx' : x ∈ a :: t₂ := (hm x).mp (List.mem_cons_of_mem _ hx)
          rcases List.mem_cons.mp hx' with h | h
          · exact absurd (h ▸ hx) hna
          · exact h
        · intro hx
          have hx' : x ∈ a :: t₁ := (hm x).mpr (List.mem_cons_of_mem _ hx)
          rcases List.mem_cons.mp hx' with h | h
          · exact absurd (h ▸ hx) hnb
          · exact h
      rw [ih t₂ hm' ht₁ ht₂ hn₁' hn₂']

end SW

namespace SW

/-! ## String ordering and the set/map helpers of
`internal/incremental/invalidation.go`. -/

/-- Lexicographic (non-strict) comparison of character lists. -/
def charListLe : List Char → List Char → Bool
  | [], _ => true
  | _ :: _, [] => false
  | a :: as, b :: bs =>
    if a < b then true else if b < a then false else charListLe as bs

/-- Lexicographic (strict) comparison of character lists (Go `<` on
strings). -/
def charListLt : List Char → List Char → Bool
  | [], [] => false
  | [], _ :: _ => true
  | _ :: _, [] => false
  | a :: as, b :: bs =>
    if a < b then true else if b < a then false else charListLt as bs

theorem charListLe_total : ∀ a b : List Char,
    charListLe a b = true ∨ charListLe b a = true
  | [], _ => Or.inl rfl
  | _ :: _, [] => Or.inr rfl
  | x :: as, y :: bs => by
    rcases lt_trichotomy x y with h | h | h
    · exact Or.inl (by simp [charListLe, h])
    · subst h
      rcases charListLe_total as bs with h' | h'
      · exact Or.inl (by simp [charListLe, lt_irrefl, h'])
      · exact Or.inr (by simp [charListLe, lt_irrefl, h'])
    · exact Or.inr (by simp [charListLe, h])

theorem charListLe_trans : ∀ a b c : List Char,
    charListLe a b = true → charListLe b c = true → charListLe a c = true
  | [], _, _, _, _ => rfl
  | _ :: _, [], _, h1, _ => by simp [charListLe] at h1
  | _ :: _, _ :: _, [], _, h2 => by simp [charListLe] at h2
  | x :: as, y :: bs, z :: cs, h1, h2 => by
    simp only [charListLe] at h1 h2 ⊢
    by_cases hxy : x < y
    · by_cases hyz : y < z
      · simp [lt_trans hxy hyz]
      · by_cases hzy : z < y
        · simp [hyz, hzy] at h2
        · have he : y = z := le_antisymm (not_lt.mp hzy) (not_lt.mp hyz)
          subst he
          simp [hxy]
    · by_cases hyx : y < x
      · simp [hxy, hyx] at h1
      · have he : x = y := le_antisymm (not_lt.mp hyx) (not_lt.mp hxy)
        subst he
        simp only [lt_irrefl, if_neg (lt_irrefl x)] at h1
        by_cases hyz : x < z
        · simp [hyz]
        · by_cases hzy : z < x
          · simp [hyz, hzy] at h2
          · have he' : x = z := le_antisymm (not_lt.mp hzy) (not_lt.mp hyz)
            subst he'
            simp only [lt_irrefl, if_neg (lt_irrefl x)] at h2 ⊢
            exact charListLe_trans as bs cs h1 h2

theorem charListLe_anti : ∀ a b : List Char,
    charListLe a b = true → charListLe b a = true → a = b
  | [], [], _, _ => rfl
  | [], _ :: _, _, h2 => by simp [charListLe] at h2
  | _ :: _, [], h1, _ => by simp [charListLe] at h1
  | x :: as, y :: bs, h1, h2 => by
    simp only [charListLe] at h1 h2
    by_cases hxy : x < y
    · simp [asymm hxy, hxy] at h2
    · by_cases hyx : y < x
      · simp [hxy, hyx] at h1
      · have he : x = y := le_antisymm (not_lt.mp hyx) (not_lt.mp hxy)
        subst he
        simp only [lt_irrefl, if_neg (lt_irrefl x)] at h1 h2
        rw [charListLe_anti as bs h1 h2]

theorem charListLt_iff : ∀ a b : List Char,
    charListLt a b = true ↔ (charListLe a b = true ∧ a ≠ b)
  | [], [] => by simp [charListLt, charListLe]
  | [], _ :: _ => by simp [charListLt, charListLe]
  | _ :: _, [] => by simp [charListLt, charListLe]
  | x :: as, y :: bs => by
    simp only [charListLt, charListLe]
    by_cases hxy : x < y
    · rw [if_pos hxy, if_pos hxy]
      constructor
      · intro _
        refine ⟨rfl, ?_⟩
        intro he
        injection he with he1 _
        exact absurd he1 (ne_of_lt hxy)
      · intro _
        rfl
    · by_cases hyx : y < x
      · rw [if_neg hxy, if_pos hyx, if_neg hxy, if_pos hyx]
        constructor
        · intro hc
          exact absurd hc (by simp)
        · intro hc
          exact absurd hc.1 (by simp)
      · have he : x = y := le_antisymm (not_lt.mp hyx) (not_lt.mp hxy)
        subst he
        rw [if_neg hxy, if_neg hxy, if_neg hxy, if_neg hxy]
        rw [charListLt_iff as bs]
        constructor
        · intro hc
          refine ⟨hc.1, ?_⟩
          intro he'
          injection he' with _ he2
          exact hc.2 he2
        · intro hc
          refine ⟨hc.1, ?_⟩
          intro he'
          exact hc.2 (by rw [he'])

/-- The comparator of Go `sort.Strings` (lexicographic order on the
characters). -/
def strLe (a b : String) : Bool := charListLe a.data b.data

/-- Go `<` on strings. -/
def strLt (a b : String) : Bool := charListLt a.data b.data

theorem strLe_total : ∀ a b : String, strLe a b = true ∨ strLe b a = true :=
  fun a b => charListLe_total a.data b.data

theorem strLe_trans : ∀ a b c : String,
    strLe a b = true → strLe b c = true → strLe a c = true :=
  fun a b c => charListLe_trans a.data b.data c.data

theorem strLe_anti : ∀ a b : String,
    strLe a b = true → strLe b a = true → a = b := by
  intro a b h1 h2
  have h := charListLe_anti a.data b.data h1 h2
  exact congrArg String.mk h

theorem strLt_iff (a b : String) :
    strLt a b = true ↔ (strLe a b = true ∧ a ≠ b) := by
  rw [strLt, strLe, charListLt_iff]
  constructor
  · intro h
    refine ⟨h.1, ?_⟩
    intro he
    exact h.2 (by rw [he])
  · intro h
    refine ⟨h.1, ?_⟩
    intro he
    exact h.2 (congrArg String.mk he)

/-- Go `sort.Strings`. -/
def sortStrings (l : List String) : List String := sortLe strLe l

theorem mem_sortStrings (l : List String) (x : String) :
    x ∈ sortStrings l ↔ x ∈ l := mem_sortLe _ l x

theorem pairwise_sortStrings (l : List String) :
    (sortStrings l).Pairwise (fun a b => strLe a b = true) :=
  pairwise_sortLe strLe strLe_total strLe_trans l

theorem sortStrings_eq_of_perm (l₁ l₂ : List String) (h : List.Perm l₁ l₂) :
    sortStrings l₁ = sortStrings l₂ :=
  eq_of_perm_of_pairwise_anti strLe strLe_anti _ _
    (((sortLe_perm strLe l₁).trans h).trans (sortLe_perm strLe l₂).symm)
    (pairwise_sortStrings l₁) (pairwise_sortStrings l₂)

/-- `normalizeStringSet`: sort and deduplicate (treat a slice as a set). -/
def normalizeStringSet (l : List String) : List String :=
  dedupAdj (sortStrings l)

theorem mem_normalizeStringSet (l : List String) (x : String) :
    x ∈ normalizeStringSet l ↔ x ∈ l := by
  rw [normalizeStringSet, mem_dedupAdj, mem_sortStrings]

theorem pairwise_normalizeStringSet (l : List String) :
    (normalizeStringSet l).Pairwise (fun a b => strLe a b = true) :=
  pairwise_dedupAdj _ _ (pairwise_sortStrings l)

theorem nodup_normalizeStringSet (l : List String) :
    (normalizeStringSet l).Nodup :=
  nodup_dedupAdj strLe strLe_anti _ (pairwise_sortStrings l)

theorem normalizeStringSet_eq_of_mem_iff (a b : List String)
    (h : ∀ x, x ∈ a ↔ x ∈ b) :
    normalizeStringSet a = normalizeStringSet b :=
  eq_of_mem_of_pairwise_nodup strLe strLe_anti _ _
    (by intro x; rw [mem_normalizeStringSet, mem_normalizeStringSet]; exact h x)
    (pairwise_normalizeStringSet a) (pairwise_normalizeStringSet b)
    (nodup_normalizeStringSet a) (nodup_normalizeStringSet b)

/-- `equalStringSet`: equality of the normalized forms. -/
def equalStringSet (a b : List String) : Bool :=
  decide (normalizeStringSet a = normalizeStringSet b)

/-- `symmetricSetDiff`: elements in exactly one of the two sets, sorted. -/
def symmetricSetDiff (a b : List String) : List String :=
  let aa := normalizeStringSet a
  let bb := normalizeStringSet b
  sortStrings (aa.filter (fun v => !bb.contains v) ++
    bb.filter (fun v => !aa.contains v))

theorem mem_symmetricSetDiff (a b : List String) (x : String) :
    x ∈ symmetricSetDiff a b ↔ (x ∈ a ∧ x ∉ b) ∨ (x ∈ b ∧ x ∉ a) := by
  simp [symmetricSetDiff, mem_sortStrings, List.mem_filter,
    mem_normalizeStringSet]

/-- If two string sets are unequal, their symmetric difference is nonempty
(the bare fall-back reasons in `directReasonsFor` are dead code). -/
theorem symmetricSetDiff_ne_nil_of_not_equal (a b : List String)
    (h : equalStringSet a b = false) : symmetricSetDiff a b ≠ [] := by
  intro hnil
  have hmem : ∀ x, x ∈ a ↔ x ∈ b := by
    intro x
    have h1 : x ∉ symmetricSetDiff a b := by rw [hnil]; simp
    rw [mem_symmetricSetDiff] at h1
    push_neg at h1
    exact ⟨h1.1, h1.2⟩
  have := normalizeStringSet_eq_of_mem_iff a b hmem
  rw [equalStringSet, this] at h
  simp at h

/-- Association-list model of a Go map read: first binding of the key,
`none` when absent (keys are unique in a real map). -/
def lookupA (m : List (String × β)) (k : String) : Option β :=
  match m with
  | [] => none
  | (k', v) :: t => if k' = k then some v else lookupA t k

theorem lookupA_cons (k' : String) (v : β) (t : List (String × β))
    (k : String) :
    lookupA ((k', v) :: t) k =
      if k' = k then some v else lookupA t k := rfl

theorem lookupA_isSome_iff_mem_keys (m : List (String × β))
    (k : String) : (lookupA m k).isSome ↔ k ∈ m.map Prod.fst := by
  induction m with
  | nil => simp [lookupA]
  | cons kv t ih =>
    obtain ⟨k', v⟩ := kv
    by_cases h : k' = k
    · subst h
      simp [lookupA_cons]
    · rw [lookupA_cons, if_neg h]
      simp only [List.map_cons, List.mem_cons]
      rw [ih]
      constructor
      · intro hx; exact Or.inr hx
      · intro hx
        rcases hx with hx | hx
        · exact absurd hx.symm h
        · exact hx

theorem lookupA_eq_of_mem_of_nodup (m : List (String × β))
    (k : String) (v : β) (hnd : (m.map Prod.fst).Nodup)
    (hmem : (k, v) ∈ m) : lookupA m k = some v := by
  induction m with
  | nil => simp at hmem
  | cons kv t ih =>
    obtain ⟨k', v'⟩ := kv
    rw [List.map_cons] at hnd
    rcases List.nodup_cons.mp hnd with ⟨hk', hnd'⟩
    rcases List.mem_cons.mp hmem with h | h
    · have h1 : k = k' := congrArg Prod.fst h
      have h2 : v = v' := congrArg Prod.snd h
      subst h1; subst h2
      rw [lookupA_cons, if_pos rfl]
    · have hne : k' ≠ k := by
        intro he
        subst he
        exact hk'
          (show k' ∈ List.map Prod.fst t from List.mem_map_of_mem Prod.fst h)
      rw [lookupA_cons, if_neg hne]
      exact ih hnd' h

theorem mem_of_lookupA_eq (m : List (String × β)) (k : String) (v : β)
    (h : lookupA m k = some v) : (k, v) ∈ m := by
  induction m with
  | nil => simp [lookupA] at h
  | cons kv t ih =>
    obtain ⟨k', v'⟩ := kv
    by_cases he : k' = k
    · subst he
      rw [lookupA_cons, if_pos rfl] at h
      have h' : v' = v := Option.some.inj h
      subst h'
      simp
    · rw [lookupA_cons, if_neg he] at h
      exact List.mem_cons_of_mem _ (ih h)

/-- `equalStringMap`: length check plus key-by-key lookup. -/
def equalStringMap (a b : List (String × String)) : Bool :=
  a.length == b.length &&
    a.all (fun kv => lookupA b kv.1 == some kv.2)

/-- `changedMapKeys`: sorted union of keys, filtered to those whose value
(present/absent/different) differs between the two maps. -/
def changedMapKeys (a b : List (String × String)) : List String :=
  (dedupAdj (sortStrings (a.map Prod.fst ++ b.map Prod.fst))).filter
    (fun k => lookupA a k != lookupA b k)

/-- If two string maps (with unique keys) are unequal, some key changed
(the bare `EnvChanged` branch in `directReasonsFor` is dead code). -/
theorem changedMapKeys_ne_nil_of_not_equal (a b : List (String × String))
    (hna : (a.map Prod.fst).Nodup) (hnb : (b.map Prod.fst).Nodup)
    (h : equalStringMap a b = false) : changedMapKeys a b ≠ [] := by
  intro hnil
  have hlk : ∀ k, k ∈ a.map Prod.fst ∨ k ∈ b.map Prod.fst →
      lookupA a k = lookupA b k := by
    intro k hk
    by_contra hne
    have hkmem : k ∈ dedupAdj (sortStrings (a.map Prod.fst ++ b.map Prod.fst)) := by
      rw [mem_dedupAdj, mem_sortStrings, List.mem_append]
      exact hk
    have : k ∈ changedMapKeys a b := by
      rw [changedMapKeys, List.mem_filter]
      exact ⟨hkmem, by simp [bne, hne]⟩
    rw [hnil] at this
    simp at this
  have hkeys : ∀ k, k ∈ a.map Prod.fst ↔ k ∈ b.map Prod.fst := by
    intro k
    constructor
    · intro hk
      have h1 : (lookupA a k).isSome :=
        (lookupA_isSome_iff_mem_keys a k).mpr hk
      rw [hlk k (Or.inl hk)] at h1
      exact (lookupA_isSome_iff_mem_keys b k).mp h1
    · intro hk
      have h1 : (lookupA b k).isSome :=
        (lookupA_isSome_iff_mem_keys b k).mpr hk
      rw [← hlk k (Or.inr hk)] at h1
      exact (lookupA_isSome_iff_mem_keys a k).mp h1
  have hlen : a.length = b.length := by
    have hperm : List.Perm (a.map Prod.fst) (b.map Prod.fst) :=
      (List.perm_ext_iff_of_nodup hna hnb).mpr hkeys
    have := hperm.length_eq
    simpa using this
  have hall : a.all (fun kv => lookupA b kv.1 == some kv.2) = true := by
    rw [List.all_eq_true]
    intro kv hkv
    obtain ⟨k, v⟩ := kv
    have hk : k ∈ a.map Prod.fst := List.mem_map_of_mem Prod.fst hkv
    have h1 : lookupA a k = some v :=
      lookupA_eq_of_mem_of_nodup a k v hna hkv
    simp only [beq_iff_eq]
    rw [← hlk k (Or.inl hk)]
    exact h1
  have : equalStringMap a b = true := by
    rw [equalStringMap, hall]
    simp [hlen]
  rw [this] at h
  exact Bool.true_eq_false.mp h

end SW

namespace SW

/-! ## JSON values, UTF-8 bytes, and SHA-256.

`Json` models the Go `any` values stored in a node's `inputs` map as well
as serialized documents.  SHA-256 is implemented over byte lists with all
words reduced modulo `2^32` (Go `crypto/sha256`). -/

/-- JSON value. -/
inductive Json where
  | null : Json
  | bool (b : Bool) : Json
  | num (n : Int) : Json
  | str (s : String) : Json
  | arr (xs : List Json) : Json
  | obj (fields : List (String × Json)) : Json

/-- Lower-case hexadecimal digit. -/
def hexDigit (n : Nat) : Char :=
  if n < 10 then Char.ofNat (48 + n) else Char.ofNat (87 + (n % 16))

/-- Escape one character the way Go `encoding/json` does (HTML-escaping
`<`, `>`, `&`, and control characters). -/
def escapeChar (c : Char) : String :=
  if c = '"' then "\\\""
  else if c = '\\' then "\\\\"
  else if c = '\n' then "\\n"
  else if c = '\r' then "\\r"
  else if c = '\t' then "\\t"
  else if c.toNat < 32 then
    String.mk ['\\', 'u', '0', '0', hexDigit (c.toNat / 16), hexDigit (c.toNat % 16)]
  else if c = '<' then "\\u003c"
  else if c = '>' then "\\u003e"
  else if c = '&' then "\\u0026"
  else if c.toNat = 8232 then "\\u2028"
  else if c.toNat = 8233 then "\\u2029"
  else String.mk [c]

/-- Quote a string as a JSON string literal. -/
def quoteStr (s : String) : String :=
  "\"" ++ String.join (s.data.map escapeChar) ++ "\""

/-- Standard UTF-8 encoding of one character. -/
def utf8Char (c : Char) : List Nat :=
  let n := c.toNat
  if n < 128 then [n]
  else if n < 2048 then [192 + n / 64, 128 + n % 64]
  else if n < 65536 then [224 + n / 4096, 128 + (n / 64) % 64, 128 + n % 64]
  else [240 + n / 262144, 128 + (n / 4096) % 64, 128 + (n / 64) % 64,
    128 + n % 64]

/-- UTF-8 bytes of a string. -/
def utf8Bytes (s : String) : List Nat := (s.data.map utf8Char).flatten

/-- 32-bit rotate right. -/
def rotr32 (x n : Nat) : Nat :=
  ((x >>> n) ||| (x <<< (32 - n))) % 4294967296

/-- Addition modulo `2^32`. -/
def add32 (x y : Nat) : Nat := (x + y) % 4294967296

/-- The SHA-256 round constants. -/
def sha256k : List Nat :=
  [1116352408, 1899447441, 3049323471, 3921009573, 961987163, 1508970993,
   2453635748, 2870763221, 3624381080, 310598401, 607225278, 1426881987,
   1925078388, 2162078206, 2614888103, 3248222580, 3835390401, 4022224774,
   264347078, 604807628, 770255983, 1249150122, 1555081692, 1996064986,
   2554220882, 2821834349, 2952996808, 3210313671, 3336571891, 3584528711,
   113926993, 338241895, 666307205, 773529912, 1294757372, 1396182291,
   1695183700, 1986661051, 2177026350, 2456956037, 2730485921, 2820302411,
   3259730800, 3345764771, 3516065817, 3600352804, 4094571909, 275423344,
   430227734, 506948616, 659060556, 883997877, 958139571, 1322822218,
   1537002063, 1747873779, 1955562222, 2024104815, 2227730452, 2361852424,
   2428436474, 2756734187, 3204031479, 3329325298]

/-- Pad a byte message to a multiple of 64 bytes (128, zeros,
64-bit big-endian bit length). -/
def sha256pad (msg : List Nat) : List Nat :=
  let l := msg.length
  let z := (120 - ((l + 1) % 64)) % 64
  let bits := 8 * l
  msg ++ [128] ++ List.replicate z 0 ++
    [56, 48, 40, 32, 24, 16, 8, 0].map (fun s => (bits >>> s) % 256)

/-- Split a list into chunks of `n` elements. -/
def chunksOf (n : Nat) (l : List α) (h : 0 < n := by decide) :
    List (List α) :=
  match l with
  | [] => []
  | x :: t => (x :: t).take n :: chunksOf n ((x :: t).drop n) h
termination_by l.length
decreasing_by
  simp only [List.length_drop, List.length_cons]
  omega

/-- Combine four bytes into one big-endian 32-bit word. -/
def word32 (bs : List Nat) : Nat :=
  bs.foldl (fun acc b => acc * 256 + b % 256) 0 % 4294967296

/-- Extend the 16-word block to the 64-word message schedule. -/
def sha256extend : Nat → List Nat → List Nat
  | 0, w => w
  | n + 1, w =>
    let i := w.length
    let w15 := w.getD (i - 15) 0
    let w2 := w.getD (i - 2) 0
    let s0 := rotr32 w15 7 ^^^ rotr32 w15 18 ^^^ (w15 >>> 3)
    let s1 := rotr32 w2 17 ^^^ rotr32 w2 19 ^^^ (w2 >>> 10)
    sha256extend n
      (w ++ [add32 (add32 (w.getD (i - 16) 0) s0) (add32 (w.getD (i - 7) 0) s1)])

/-- One SHA-256 compression step. -/
def sha256round (st : List Nat) (kw : Nat × Nat) : List Nat :=
  match st with
  | [a, b, c, d, e, f, g, h] =>
    let s1 := rotr32 e 6 ^^^ rotr32 e 11 ^^^ rotr32 e 25
    let ch := (e &&& f) ^^^ ((e ^^^ 4294967295) &&& g)
    let t1 := add32 (add32 (add32 h s1) (add32 ch kw.1)) kw.2
    let s0 := rotr32 a 2 ^^^ rotr32 a 13 ^^^ rotr32 a 22
    let mj := (a &&& b) ^^^ (a &&& c) ^^^ (b &&& c)
    let t2 := add32 s0 mj
    [add32 t1 t2, a, b, c, add32 d t1, e, f, g]
  | other => other

/-- Process one 64-byte block. -/
def sha256block (hs : List Nat) (block : List Nat) : List Nat :=
  let w := sha256extend 48 ((chunksOf 4 block).map word32)
  let st := (sha256k.zip w).foldl (fun s kw => sha256round s (kw.1, kw.2)) hs
  (hs.zip st).map (fun p => add32 p.1 p.2)

/-- SHA-256 digest of a byte message, as eight 32-bit words. -/
def sha256words (msg : List Nat) : List Nat :=
  (chunksOf 64 (sha256pad msg)).foldl sha256block
    [1779033703, 3144134277, 1013904242, 2773480762,
     1359893119, 2600822924, 528734635, 1541459225]

/-- Eight lower-case hex digits of a 32-bit word. -/
def hex8 (w : Nat) : String :=
  String.mk ([28, 24, 20, 16, 12, 8, 4, 0].map fun s => hexDigit ((w >>> s) % 16))

/-- SHA-256 hex digest (Go `hex.EncodeToString(sha256.Sum256(data))`). -/
def sha256Hex (msg : List Nat) : String :=
  String.join ((sha256words msg).map hex8)

end SW

namespace SW

/-! ## The graph data model of `internal/graph` (types.go, normalize.go,
parse.go).  Field names `type`, `from`, `to` are Go identifiers that are
reserved in Lean; they are written `type'`, `from'`, `to'`. -/

/-- A node of a graph definition. -/
structure Node where
  id : String
  type' : String
  inputs : List (String × Json)
  outputs : List String

/-- A directed dependency between two nodes. -/
structure Edge where
  from' : String
  to' : String
deriving DecidableEq

/-- The execution structure: nodes and edges. -/
structure Graph where
  nodes : List Node
  edges : List Edge

/-- Non-execution information about the graph (all fields optional). -/
structure Metadata where
  name : String
  description : String
  labels : List String
deriving DecidableEq

/-- Top-level structure of a graph definition file. -/
structure Document where
  schemaVersion : String
  graph : Graph
  metadata : Metadata

/-- Comparator of `Normalize`'s node sort: by id. -/
def nodeLe (a b : Node) : Bool := strLe a.id b.id

/-- Comparator of `Normalize`'s edge sort: by from, then to. -/
def edgeLe (a b : Edge) : Bool :=
  strLt a.from' b.from' || (decide (a.from' = b.from') && strLe a.to' b.to')

/-- Sort a node's outputs lexicographically. -/
def sortNodeOutputs (n : Node) : Node :=
  { n with outputs := sortStrings n.outputs }

/-- `Graph.Normalized`: a normalized copy — nodes sorted by id, outputs
sorted within each node, edges sorted by (from, to). -/
def Graph.Normalized (g : Graph) : Graph :=
  { nodes := (sortLe nodeLe g.nodes).map sortNodeOutputs,
    edges := sortLe edgeLe g.edges }

mutual

/-- Compact JSON rendering of a `Json` value; object keys are sorted,
as Go `encoding/json` does for maps. -/
def marshalJson : Json → String
  | .null => "null"
  | .bool b => if b then "true" else "false"
  | .num n => toString n
  | .str s => quoteStr s
  | .arr xs => "[" ++ String.intercalate "," (marshalJsonList xs) ++ "]"
  | .obj fs =>
    "\x7b" ++ String.intercalate ","
      ((sortLe (fun a b => strLe a.1 b.1) (marshalJsonFields fs)).map
        (fun kv => quoteStr kv.1 ++ ":" ++ kv.2)) ++ "\x7d"

/-- Render every element of a JSON array. -/
def marshalJsonList : List Json → List String
  | [] => []
  | x :: t => marshalJson x :: marshalJsonList t

/-- Render every field value of a JSON object. -/
def marshalJsonFields : List (String × Json) → List (String × String)
  | [] => []
  | kv :: t => (kv.1, marshalJson kv.2) :: marshalJsonFields t

end

/-- Compact JSON of a node (struct field order: id, type, inputs, outputs). -/
def marshalNode (n : Node) : String :=
  "\x7b\"id\":" ++ quoteStr n.id ++ ",\"type\":" ++ quoteStr n.type' ++
    ",\"inputs\":" ++ marshalJson (.obj n.inputs) ++
    ",\"outputs\":[" ++ String.intercalate "," (n.outputs.map quoteStr) ++
    "]\x7d"

/-- Compact JSON of an edge (struct field order: from, to). -/
def marshalEdge (e : Edge) : String :=
  "\x7b\"from\":" ++ quoteStr e.from' ++ ",\"to\":" ++ quoteStr e.to' ++ "\x7d"

/-- Compact JSON of a graph body (struct field order: nodes, edges). -/
def marshalGraph (g : Graph) : String :=
  "\x7b\"nodes\":[" ++ String.intercalate "," (g.nodes.map marshalNode) ++
    "],\"edges\":[" ++ String.intercalate "," (g.edges.map marshalEdge) ++
    "]\x7d"

/-- `ComputeHash`: SHA-256 hex digest of the compact JSON of the
normalized graph (nodes and edges only). -/
def ComputeHash (g : Graph) : String :=
  sha256Hex (utf8Bytes (marshalGraph g.Normalized))

/-- The graph hash of a parsed document, as its callers compute it:
the hash reads only the `graph` field, never metadata or schema_version. -/
def documentHash (d : Document) : String := ComputeHash d.graph

end SW

namespace SW

/-! ## Serialization to and parsing from the JSON value level.

`Parse` (parse.go) decodes with `DisallowUnknownFields`, checks required
fields (`validateRequired`) and the supported schema version.  The model
works at the level of `Json` values; the distinct Parse/Schema/Semantic
error kinds are collapsed into `Option` failure (a required field that Go
would decode to a zero value and then reject in `validateRequired` is
rejected here directly — both pipelines fail on the same inputs). -/

/-- The only supported schema version. -/
def SupportedSchemaVersion : String := "1.0.0"

/-- First binding of a key in a JSON object. -/
def jField (fs : List (String × Json)) (k : String) : Option Json :=
  match fs with
  | [] => none
  | kv :: t => if kv.1 = k then some kv.2 else jField t k

/-- `DisallowUnknownFields`: every present key must be a known one. -/
def knownKeys (fs : List (String × Json)) (ks : List String) : Bool :=
  fs.all (fun kv => ks.contains kv.1)

/-- Decode a JSON string. -/
def jStr : Json → Option String
  | .str s => some s
  | _ => none

/-- Traverse a list under `Option`. -/
def mapOpt (f : α → Option β) : List α → Option (List β)
  | [] => some []
  | x :: t =>
    match f x, mapOpt f t with
    | some y, some ys => some (y :: ys)
    | _, _ => none

/-- Decode a JSON string array. -/
def parseStrList : Json → Option (List String)
  | .arr xs => mapOpt jStr xs
  | _ => none

/-- JSON encoding of a node. -/
def Node.toJson (n : Node) : Json :=
  .obj [("id", .str n.id), ("type", .str n.type'), ("inputs", .obj n.inputs),
    ("outputs", .arr (n.outputs.map .str))]

/-- JSON encoding of an edge. -/
def Edge.toJson (e : Edge) : Json :=
  .obj [("from", .str e.from'), ("to", .str e.to')]

/-- JSON encoding of metadata; empty optional fields are omitted
(`omitempty`). -/
def Metadata.toJson (m : Metadata) : Json :=
  .obj ((if m.name = "" then [] else [("name", Json.str m.name)]) ++
    (if m.description = "" then []
     else [("description", Json.str m.description)]) ++
    (if m.labels = [] then [] else [("labels", Json.arr (m.labels.map .str))]))

/-- JSON encoding of a document (field order: schema_version, graph,
metadata). -/
def serializeDoc (d : Document) : Json :=
  .obj [("schema_version", .str d.schemaVersion),
    ("graph", .obj [("nodes", .arr (d.graph.nodes.map Node.toJson)),
      ("edges", .arr (d.graph.edges.map Edge.toJson))]),
    ("metadata", d.metadata.toJson)]

/-- Decode one node: strict keys, required id/type/inputs/outputs. -/
def parseNode : Json → Option Node
  | .obj fs =>
    if knownKeys fs ["id", "type", "inputs", "outputs"] then
      match jField fs "id", jField fs "type", jField fs "inputs",
          jField fs "outputs" with
      | some (.str i), some (.str ty), some (.obj ins), some outs =>
        (parseStrList outs).map (fun os => ⟨i, ty, ins, os⟩)
      | _, _, _, _ => none
    else none
  | _ => none

/-- Decode one edge: strict keys, required from/to. -/
def parseEdge : Json → Option Edge
  | .obj fs =>
    if knownKeys fs ["from", "to"] then
      match jField fs "from", jField fs "to" with
      | some (.str f), some (.str t) => some ⟨f, t⟩
      | _, _ => none
    else none
  | _ => none

/-- Optional string field: absent decodes to the zero value. -/
def optStrField (fs : List (String × Json)) (k : String) : Option String :=
  match jField fs k with
  | none => some ""
  | some (.str s) => some s
  | some _ => none

/-- Optional string-array field: absent decodes to the zero value. -/
def optStrListField (fs : List (String × Json)) (k : String) :
    Option (List String) :=
  match jField fs k with
  | none => some []
  | some j => parseStrList j

/-- Decode metadata: strict keys, all fields optional. -/
def parseMetadata : Json → Option Metadata
  | .obj fs =>
    if knownKeys fs ["name", "description", "labels"] then
      match optStrField fs "name", optStrField fs "description",
          optStrListField fs "labels" with
      | some nm, some ds, some ls => some ⟨nm, ds, ls⟩
      | _, _, _ => none
    else none
  | _ => none

/-- `validateRequired` on the decoded document: non-empty schema version,
node ids and types, and edge endpoints. -/
def validateRequiredB (d : Document) : Bool :=
  d.schemaVersion ≠ "" &&
    d.graph.nodes.all (fun n => n.id ≠ "" && n.type' ≠ "") &&
    d.graph.edges.all (fun e => e.from' ≠ "" && e.to' ≠ "")

/-- `Parse`: strict decode, required-field validation, schema version
check. -/
def parseDoc (j : Json) : Option Document :=
  match j with
  | .obj fs =>
    if knownKeys fs ["schema_version", "graph", "metadata"] then
      match jField fs "schema_version", jField fs "graph",
          jField fs "metadata" with
      | some (.str sv), some (.obj gfs), some mj =>
        if knownKeys gfs ["nodes", "edges"] then
          match jField gfs "nodes", jField gfs "edges" with
          | some (.arr njs), some (.arr ejs) =>
            match mapOpt parseNode njs, mapOpt parseEdge ejs,
                parseMetadata mj with
            | some ns, some es, some md =>
              let d : Document := ⟨sv, ⟨ns, es⟩, md⟩
              if validateRequiredB d && (sv = SupportedSchemaVersion) then
                some d
              else none
            | _, _, _ => none
          | _, _ => none
        else none
      | _, _, _ => none
    else none
  | _ => none

/-- A well-formed document: supported schema version and all required
fields non-empty. -/
def wellFormedDoc (d : Document) : Bool :=
  validateRequiredB d && (d.schemaVersion = SupportedSchemaVersion)

end SW

namespace SW

/-! ## Lemmas for C1: hash stability under reordering and round-trips. -/

theorem sortLe_eq_of_perm (le : α → α → Bool)
    (htot : ∀ a b, le a b = true ∨ le b a = true)
    (htrans : ∀ a b c, le a b = true → le b c = true → le a c = true)
    (hanti : ∀ a b, le a b = true → le b a = true → a = b)
    (l₁ l₂ : List α) (h : List.Perm l₁ l₂) : sortLe le l₁ = sortLe le l₂ :=
  eq_of_perm_of_pairwise_anti le hanti _ _
    (((sortLe_perm le l₁).trans h).trans (sortLe_perm le l₂).symm)
    (pairwise_sortLe le htot htrans l₁) (pairwise_sortLe le htot htrans l₂)

theorem map_insertLe (f : α → β) (le : α → α → Bool) (le' : β → β → Bool)
    (hle : ∀ a b, le a b = le' (f a) (f b)) (x : α) (l : List α) :
    (insertLe le x l).map f = insertLe le' (f x) (l.map f) := by
  induction l with
  | nil => simp [insertLe]
  | cons y ys ih =>
    by_cases h : le x y
    · have h' : le' (f x) (f y) = true := hle x y ▸ h
      simp [insertLe, h, h']
    · have h' : ¬ le' (f x) (f y) = true := by
        rw [← hle x y]; exact h
      simp [insertLe, h, h', ih]

theorem map_sortLe (f : α → β) (le : α → α → Bool) (le' : β → β → Bool)
    (hle : ∀ a b, le a b = le' (f a) (f b)) (l : List α) :
    (sortLe le l).map f = sortLe le' (l.map f) := by
  induction l with
  | nil => simp [sortLe]
  | cons x xs ih =>
    simp only [sortLe, List.map_cons]
    rw [map_insertLe f le le' hle, ih]

theorem edgeLe_iff (a b : Edge) :
    edgeLe a b = true ↔
      (strLe a.from' b.from' = true ∧ a.from' ≠ b.from') ∨
        (a.from' = b.from' ∧ strLe a.to' b.to' = true) := by
  rw [edgeLe]
  simp only [Bool.or_eq_true, Bool.and_eq_true, decide_eq_true_eq]
  rw [strLt_iff]

theorem edgeLe_total : ∀ a b : Edge, edgeLe a b = true ∨ edgeLe b a = true := by
  intro a b
  rw [edgeLe_iff, edgeLe_iff]
  by_cases he : a.from' = b.from'
  · rcases strLe_total a.to' b.to' with h | h
    · exact Or.inl (Or.inr ⟨he, h⟩)
    · exact Or.inr (Or.inr ⟨he.symm, h⟩)
  · rcases strLe_total a.from' b.from' with h | h
    · exact Or.inl (Or.inl ⟨h, he⟩)
    · exact Or.inr (Or.inl ⟨h, fun h' => he h'.symm⟩)

theorem edgeLe_trans : ∀ a b c : Edge,
    edgeLe a b = true → edgeLe b c = true → edgeLe a c = true := by
  intro a b c hab hbc
  rw [edgeLe_iff] at hab hbc ⊢
  rcases hab with ⟨h1, h2⟩ | ⟨h1, h2⟩
  · rcases hbc with ⟨h1', h2'⟩ | ⟨h1', h2'⟩
    · refine Or.inl ⟨strLe_trans _ _ _ h1 h1', ?_⟩
      intro he
      exact h2' (strLe_anti _ _ h1' (he ▸ h1))
    · exact Or.inl ⟨h1' ▸ h1, h1' ▸ h2⟩
  · rcases hbc with ⟨h1', h2'⟩ | ⟨h1', h2'⟩
    · refine Or.inl ⟨h1 ▸ h1', ?_⟩
      intro he
      apply h2'
      rw [← h1, he]
    · exact Or.inr ⟨h1.trans h1', strLe_trans _ _ _ h2 h2'⟩

theorem edgeLe_anti : ∀ a b : Edge,
    edgeLe a b = true → edgeLe b a = true → a = b := by
  intro a b hab hba
  rw [edgeLe_iff] at hab hba
  rcases hab with ⟨h1, h2⟩ | ⟨h1, h2⟩
  · rcases hba with ⟨h1', h2'⟩ | ⟨h1', h2'⟩
    · exact absurd (strLe_anti _ _ h1 h1') h2
    · exact absurd h1'.symm h2
  · rcases hba with ⟨h1', h2'⟩ | ⟨h1', h2'⟩
    · exact absurd h1.symm h2'
    · obtain ⟨af, at'⟩ := a
      obtain ⟨bf, bt⟩ := b
      simp only at h1 h2 h2'
      rw [h1, strLe_anti _ _ h2 h2']

theorem nodeLe_total : ∀ a b : Node, nodeLe a b = true ∨ nodeLe b a = true :=
  fun a b => strLe_total a.id b.id

theorem nodeLe_trans : ∀ a b c : Node,
    nodeLe a b = true → nodeLe b c = true → nodeLe a c = true :=
  fun a b c => strLe_trans a.id b.id c.id

/-- Reordering of nodes, of edges, and of per-node outputs: the node lists
agree up to permutation once outputs are put in sorted form, and the edge
lists agree up to permutation. -/
def GraphReorder (g g' : Graph) : Prop :=
  List.Perm (g.nodes.map sortNodeOutputs) (g'.nodes.map sortNodeOutputs) ∧
    List.Perm g.edges g'.edges

theorem sortNodeOutputs_id (n : Node) : (sortNodeOutputs n).id = n.id := rfl

theorem normalized_eq_of_reorder (g g' : Graph)
    (hnd : (g.nodes.map Node.id).Nodup) (h : GraphReorder g g') :
    Graph.Normalized g' = Graph.Normalized g := by
  obtain ⟨hn, he⟩ := h
  have hmapsort : ∀ (l : List Node),
      (sortLe nodeLe l).map sortNodeOutputs =
        sortLe nodeLe (l.map sortNodeOutputs) :=
    fun l => map_sortLe sortNodeOutputs nodeLe nodeLe (fun _ _ => rfl) l
  have hids : ∀ (l : List Node),
      (l.map sortNodeOutputs).map Node.id = l.map Node.id := by
    intro l
    rw [List.map_map]
    rfl
  have hnodes : sortLe nodeLe (g'.nodes.map sortNodeOutputs) =
      sortLe nodeLe (g.nodes.map sortNodeOutputs) := by
    refine eq_of_perm_of_pairwise_key Node.id strLe strLe_anti _ _
      ?_ ?_ ?_ ?_
    · exact ((sortLe_perm nodeLe _).trans hn.symm).trans
        (sortLe_perm nodeLe _).symm
    · exact pairwise_sortLe nodeLe nodeLe_total nodeLe_trans _
    · exact pairwise_sortLe nodeLe nodeLe_total nodeLe_trans _
    · have hp1 : List.Perm
          ((sortLe nodeLe (g'.nodes.map sortNodeOutputs)).map Node.id)
          ((g'.nodes.map sortNodeOutputs).map Node.id) :=
        (sortLe_perm nodeLe _).map Node.id
      have hp2 : List.Perm ((g'.nodes.map sortNodeOutputs).map Node.id)
          ((g.nodes.map sortNodeOutputs).map Node.id) := hn.symm.map Node.id
      have hall : List.Perm
          ((sortLe nodeLe (g'.nodes.map sortNodeOutputs)).map Node.id)
          (g.nodes.map Node.id) := by
        have h12 := hp1.trans hp2
        rwa [hids g.nodes] at h12
      exact hall.nodup_iff.mpr hnd
  simp only [Graph.Normalized]
  rw [hmapsort g.nodes, hmapsort g'.nodes, hnodes,
    sortLe_eq_of_perm edgeLe edgeLe_total edgeLe_trans edgeLe_anti _ _ he.symm]

theorem mapOpt_jStr_map_str (l : List String) :
    mapOpt jStr (l.map Json.str) = some l := by
  induction l with
  | nil => simp [mapOpt]
  | cons x t ih => simp [mapOpt, jStr, ih]

theorem mapOpt_some_of_all (f : β → Option α) (g : α → β) (l : List α)
    (h : ∀ x ∈ l, f (g x) = some x) : mapOpt f (l.map g) = some l := by
  induction l with
  | nil => simp [mapOpt]
  | cons x t ih =>
    simp only [List.map_cons, mapOpt, h x (by simp)]
    rw [ih (fun y hy => h y (List.mem_cons_of_mem _ hy))]

theorem parseNode_toJson (n : Node) : parseNode n.toJson = some n := by
  obtain ⟨i, ty, ins, os⟩ := n
  simp +decide [parseNode, Node.toJson, knownKeys, jField, parseStrList,
    mapOpt_jStr_map_str]

theorem parseEdge_toJson (e : Edge) : parseEdge e.toJson = some e := by
  obtain ⟨f, t⟩ := e
  simp +decide [parseEdge, Edge.toJson, knownKeys, jField]

theorem parseMetadata_toJson (m : Metadata) :
    parseMetadata m.toJson = some m := by
  obtain ⟨nm, ds, ls⟩ := m
  by_cases h1 : nm = "" <;> by_cases h2 : ds = "" <;> by_cases h3 : ls = [] <;>
    simp +decide [parseMetadata, Metadata.toJson, knownKeys, jField,
      optStrField, optStrListField, parseStrList, mapOpt_jStr_map_str,
      h1, h2, h3]

theorem parseDoc_serializeDoc (d : Document) (h : wellFormedDoc d = true) :
    parseDoc (serializeDoc d) = some d := by
  obtain ⟨sv, ⟨ns, es⟩, md⟩ := d
  have hn : mapOpt parseNode (ns.map Node.toJson) = some ns :=
    mapOpt_some_of_all _ _ _ (fun x _ => parseNode_toJson x)
  have he : mapOpt parseEdge (es.map Edge.toJson) = some es :=
    mapOpt_some_of_all _ _ _ (fun x _ => parseEdge_toJson x)
  have hm := parseMetadata_toJson md
  rw [wellFormedDoc] at h
  simp +decide [parseDoc, serializeDoc, knownKeys, jField, hn, he, hm, h]

end SW

namespace SW

/-- C1: for every graph document, the graph hash is unchanged by
serialize-parse-normalize round-trips, by reordering of nodes, edges or
per-node outputs (given the graph invariant of pairwise-distinct node
ids), and by any change to metadata or schema_version; `ComputeHash` is
the SHA-256 hex digest of the compact JSON of the normalized graph body
(nodes and edges only), so any two graphs with equal normalized bodies
have equal hashes. -/
theorem c1_graph_hash_stability :
    (∀ d : Document, wellFormedDoc d = true →
      ∃ d', parseDoc (serializeDoc d) = some d' ∧
        ComputeHash d'.graph = ComputeHash d.graph) ∧
    (∀ g g' : Graph, (g.nodes.map Node.id).Nodup → GraphReorder g g' →
      ComputeHash g' = ComputeHash g) ∧
    (∀ d d' : Document, d.graph = d'.graph →
      documentHash d = documentHash d') ∧
    (∀ g : Graph,
      ComputeHash g = sha256Hex (utf8Bytes (marshalGraph g.Normalized))) ∧
    (∀ g g' : Graph, g.Normalized = g'.Normalized →
      ComputeHash g = ComputeHash g') := by
  refine ⟨?_, ?_, ?_, ?_, ?_⟩
  · intro d h
    exact ⟨d, parseDoc_serializeDoc d h, rfl⟩
  · intro g g' hnd hr
    show sha256Hex _ = sha256Hex _
    rw [normalized_eq_of_reorder g g' hnd hr]
  · intro d d' h
    show ComputeHash d.graph = ComputeHash d'.graph
    rw [h]
  · intro g
    rfl
  · intro g g' h
    show sha256Hex _ = sha256Hex _
    rw [h]

/-- Concrete witness data for C1. -/
def nW1 : Node := ⟨"a", "task", [], ["o2", "o1"]⟩

/-- Concrete witness data for C1. -/
def nW2 : Node := ⟨"b", "task", [("k", Json.str "v")], []⟩

/-- `nW1` with its outputs reordered. -/
def nW1r : Node := ⟨"a", "task", [], ["o1", "o2"]⟩

/-- Concrete witness graph for C1. -/
def gW : Graph := ⟨[nW1, nW2], [⟨"a", "b"⟩, ⟨"b", "c"⟩]⟩

/-- `gW` with nodes, edges and outputs reordered. -/
def gWr : Graph := ⟨[nW2, nW1r], [⟨"b", "c"⟩, ⟨"a", "b"⟩]⟩

/-- Concrete witness document for C1. -/
def docW : Document := ⟨"1.0.0", gW, ⟨"nm", "", ["lbl"]⟩⟩

/-- Witness for C1 at concrete inputs. -/
theorem c1_graph_hash_stability_witness :
    wellFormedDoc docW = true ∧
    (∃ d', parseDoc (serializeDoc docW) = some d' ∧
      ComputeHash d'.graph = ComputeHash docW.graph) ∧
    (gW.nodes.map Node.id).Nodup ∧ GraphReorder gW gWr ∧
    ComputeHash gWr = ComputeHash gW := by
  have hre : GraphReorder gW gWr := by
    constructor
    · show List.Perm
        [sortNodeOutputs nW1, sortNodeOutputs nW2]
        [sortNodeOutputs nW2, sortNodeOutputs nW1r]
      have h1 : sortNodeOutputs nW1r = sortNodeOutputs nW1 := rfl
      rw [h1]
      exact List.Perm.swap _ _ _
    · show List.Perm [Edge.mk "a" "b", Edge.mk "b" "c"]
        [Edge.mk "b" "c", Edge.mk "a" "b"]
      exact List.Perm.swap _ _ _
  exact ⟨by decide, c1_graph_hash_stability.1 docW (by decide), by decide,
    hre, c1_graph_hash_stability.2.1 gW gWr (by decide) hre⟩

end SW

namespace SW

/-! ## `internal/incremental/invalidation.go`: reason model and
canonicalization. -/

/-- The closed set of invalidation reason types. -/
inductive ReasonType where
  | inputChanged
  | envChanged
  | dependencyInvalidated
  | graphStructureChanged
  | commandChanged
  | outputChanged
deriving DecidableEq

/-- `reasonTypeOrder`: the type-precedence table. -/
def reasonTypeOrder : ReasonType → Nat
  | .inputChanged => 10
  | .envChanged => 20
  | .dependencyInvalidated => 30
  | .graphStructureChanged => 40
  | .commandChanged => 50
  | .outputChanged => 60

/-- An optional key/value pair providing context specific to a reason. -/
structure InvalidationDetail where
  key : String
  value : String
deriving DecidableEq

/-- A single atomic cause for task invalidation. -/
structure InvalidationReason where
  type' : ReasonType
  sourceTaskID : String
  details : List InvalidationDetail
deriving DecidableEq

/-- Non-strict comparator induced by a strict one (`sort.Slice` takes a
strict `less`; ascending order means no later element is less). -/
def leOfLt (lt : α → α → Bool) (a b : α) : Bool := !(lt b a)

/-- Strict lexicographic comparison of lists with shorter-is-less
tiebreak (`compareDetails`). -/
def lexListLt (lt : α → α → Bool) : List α → List α → Bool
  | [], [] => false
  | [], _ :: _ => true
  | _ :: _, [] => false
  | x :: xs, y :: ys =>
    if lt x y then true else if lt y x then false else lexListLt lt xs ys

/-- Strict comparison of details by (key, value). -/
def detailLt (a b : InvalidationDetail) : Bool :=
  strLt a.key b.key || (decide (a.key = b.key) && strLt a.value b.value)

/-- `Canonicalize`'s strict comparison of reasons:
(type precedence, source id, detail-list comparison). -/
def reasonLt (a b : InvalidationReason) : Bool :=
  if reasonTypeOrder a.type' ≠ reasonTypeOrder b.type' then
    decide (reasonTypeOrder a.type' < reasonTypeOrder b.type')
  else if a.sourceTaskID ≠ b.sourceTaskID then
    strLt a.sourceTaskID b.sourceTaskID
  else lexListLt detailLt a.details b.details

/-- `InvalidationReason.canonical`: details sorted by (key, value) and
deduplicated. -/
def InvalidationReason.canonical (r : InvalidationReason) :
    InvalidationReason :=
  { r with details := dedupAdj (sortLe (leOfLt detailLt) r.details) }

/-- `InvalidationReasons.Canonicalize`: canonicalize each reason, sort by
(type precedence, source, details), deduplicate. -/
def Canonicalize (rs : List InvalidationReason) : List InvalidationReason :=
  dedupAdj (sortLe (leOfLt reasonLt) (rs.map InvalidationReason.canonical))

/-- Per-node identity snapshot (`NodeSnapshot`). -/
structure NodeSnapshot where
  name : String
  taskHash : String
  declaredInputs : List String
  inputHash : String
  env : List (String × String)
  command : String
  outputs : List String
  upstream : List String
deriving DecidableEq

/-- The Go zero value of `NodeSnapshot` (what a map read of a missing
key yields). -/
def NodeSnapshot.zero : NodeSnapshot := ⟨"", "", [], "", [], "", [], []⟩

instance : Inhabited NodeSnapshot := ⟨NodeSnapshot.zero⟩

/-- `GraphSnapshot`: name-addressed node snapshots. -/
structure GraphSnapshot where
  nodes : List (String × NodeSnapshot)
deriving DecidableEq

/-- Per-node invalidation decision. -/
structure InvalidationEntry where
  invalidated : Bool
  reasons : List InvalidationReason
deriving DecidableEq

/-- The Go zero value of `InvalidationEntry`. -/
def InvalidationEntry.zero : InvalidationEntry := ⟨false, []⟩

/-- `InvalidationMap`: one entry per node of the new snapshot, modelled
as the association list produced in processing order. -/
abbrev InvalidationMap := List (String × InvalidationEntry)

end SW

namespace SW

/-! ## `topoOrder` and the graph traversal of `CalculateInvalidation`.

The adjacency/indegree builders collapse the source's append loops into
direct comprehensions: `outgoing[parent]` collects (then sorts) exactly
the nodes whose normalized upstream set contains an existing `parent`,
and `indeg[name]` counts the node's existing upstream parents.  The
indegree is an `Int` because Go decrements below zero. -/

/-- `outgoing[parent]`, sorted. -/
def outgoingOf (g : GraphSnapshot) (names : List String) (parent : String) :
    List String :=
  sortStrings (names.filter (fun name =>
    (lookupA g.nodes parent).isSome &&
      (normalizeStringSet ((lookupA g.nodes name).getD default).upstream).contains
        parent))

/-- `indeg[name]`: number of existing parents in the normalized upstream
set. -/
def indegOf (g : GraphSnapshot) (name : String) : Int :=
  ((normalizeStringSet ((lookupA g.nodes name).getD default).upstream).filter
    (fun p => (lookupA g.nodes p).isSome)).length

/-- Kahn's loop: pop the least ready name, decrement the indegrees of its
(sorted) successors, pushing any that reach zero into the sorted ready
list.  One name is popped per iteration and a name enters the ready list
at most once (its indegree only decreases), so `fuel = names.length`
covers every run that the fallback does not. -/
def topoAux (outgoing : String → List String) :
    Nat → (String → Int) → List String → List String → List String
  | 0, _, _, order => order
  | _ + 1, _, [], order => order
  | fuel + 1, ind, n :: rest, order =>
    let step := (outgoing n).foldl
      (fun (acc : (String → Int) × List String) m =>
        let v := acc.1 m - 1
        let ind' := fun k => if k = m then v else acc.1 k
        if v = 0 then (ind', insertLe strLe m acc.2) else (ind', acc.2))
      (ind, rest)
    topoAux outgoing fuel step.1 step.2 (order ++ [n])

/-- `topoOrder`: deterministic topological order with lexical tie-break;
falls back to the lexically sorted name list when the order is
incomplete (cycle or malformed upstream). -/
def topoOrder (names : List String) (outgoing : String → List String)
    (ind : String → Int) : List String :=
  let ready := sortStrings (names.filter (fun n => ind n = 0))
  let order := topoAux outgoing names.length ind ready []
  if order.length ≠ names.length then sortStrings names else order

/-- `directReasonsFor`: the per-node direct (non-dependency) reasons. -/
def directReasonsFor (newG : GraphSnapshot) (_taskID : String)
    (old? : Option NodeSnapshot) (newNode : NodeSnapshot) :
    List InvalidationReason :=
  match old? with
  | none => Canonicalize [⟨.graphStructureChanged, "", []⟩]
  | some oldNode =>
    let d1 : List InvalidationReason :=
      if newNode.inputHash ≠ oldNode.inputHash then [⟨.inputChanged, "", []⟩]
      else []
    let d2 :=
      if equalStringSet newNode.declaredInputs oldNode.declaredInputs then d1
      else
        let diff := symmetricSetDiff oldNode.declaredInputs
          newNode.declaredInputs
        let d1' := d1 ++ diff.map (fun nm =>
          (⟨.graphStructureChanged, "", [⟨"InputName", nm⟩]⟩ :
            InvalidationReason))
        if d1'.length = 0 then
          d1' ++ [⟨.graphStructureChanged, "", [⟨"DeclaredInputs", "changed"⟩]⟩]
        else d1'
    let d3 :=
      if equalStringMap newNode.env oldNode.env then d2
      else
        let keys := changedMapKeys oldNode.env newNode.env
        if keys.length = 0 then d2 ++ [⟨.envChanged, "", []⟩]
        else d2 ++ [⟨.envChanged, "",
          keys.map (fun k => (⟨"EnvName", k⟩ : InvalidationDetail))⟩]
    let d4 :=
      if newNode.command ≠ oldNode.command then
        d3 ++ [⟨.commandChanged, "", []⟩]
      else d3
    let d5 :=
      if equalStringSet newNode.outputs oldNode.outputs then d4
      else
        let outs := symmetricSetDiff oldNode.outputs newNode.outputs
        if outs.length = 0 then d4 ++ [⟨.outputChanged, "", []⟩]
        else d4 ++ [⟨.outputChanged, "",
          outs.map (fun o => (⟨"OutputName", o⟩ : InvalidationDetail))⟩]
    let d6 :=
      if equalStringSet newNode.upstream oldNode.upstream then d5
      else d5 ++ [⟨.graphStructureChanged, "", [⟨"Upstream", "changed"⟩]⟩]
    let d7 := d6 ++ (normalizeStringSet newNode.upstream).filterMap
      (fun parent =>
        if (lookupA newG.nodes parent).isSome then none
        else some (⟨.graphStructureChanged, "",
          [⟨"UpstreamTaskID", parent⟩, ⟨"Upstream", "missing"⟩]⟩ :
            InvalidationReason))
    Canonicalize d7

/-- One processing step of `CalculateInvalidation`: compute the node's
entry from its direct reasons and the root sources of its already
processed invalidated parents, and record its own root-cause set. -/
def calcStep (newG : GraphSnapshot) (oldNodes : List (String × NodeSnapshot))
    (acc : InvalidationMap × (String → List String)) (name : String) :
    InvalidationMap × (String → List String) :=
  let newNode := (lookupA newG.nodes name).getD default
  let direct := directReasonsFor newG name (lookupA oldNodes name) newNode
  let collected := (normalizeStringSet newNode.upstream).foldl
    (fun s parent =>
      match lookupA acc.1 parent with
      | some pEntry => if pEntry.invalidated then s ++ acc.2 parent else s
      | none => s) []
  let depSources := normalizeStringSet collected
  let dep := depSources.map (fun src =>
    (⟨.dependencyInvalidated, src, []⟩ : InvalidationReason))
  let reasons := Canonicalize (direct ++ dep)
  let entry : InvalidationEntry := ⟨!reasons.isEmpty, reasons⟩
  let roots :=
    if entry.invalidated then
      normalizeStringSet
        ((if direct.length > 0 then [name] else []) ++ depSources)
    else []
  (acc.1 ++ [(name, entry)], fun k => if k = name then roots else acc.2 k)

/-- The node map of an optional previous snapshot (`oldNodes` in the
source: the empty map when the old graph is absent). -/
def oldNodesOf (oldGraph : Option GraphSnapshot) :
    List (String × NodeSnapshot) :=
  match oldGraph with
  | some og => og.nodes
  | none => []

/-- `CalculateInvalidation`: per-node invalidation of `newGraph` relative
to `oldGraph`, with strictly transitive dependency propagation. -/
def CalculateInvalidation (oldGraph newGraph : Option GraphSnapshot) :
    InvalidationMap :=
  match newGraph with
  | none => []
  | some newG =>
    if newG.nodes.length = 0 then []
    else
      let names := sortStrings (newG.nodes.map Prod.fst)
      let topo := topoOrder names (outgoingOf newG names) (indegOf newG)
      (topo.foldl (calcStep newG (oldNodesOf oldGraph))
        ([], fun _ => [])).1

/-! ## `internal/incremental/plan.go`: `BuildIncrementalPlan`. -/

/-- Plan decision (`Execute` / `ReuseCache`; the Go zero value `""` is
modelled by a missing map entry). -/
inductive NodeExecutionDecision where
  | execute
  | reuseCache
deriving DecidableEq

/-- An incremental plan: deterministic node order plus per-node
decisions. -/
structure IncrementalPlan where
  order : List String
  decisions : List (String × NodeExecutionDecision)
deriving DecidableEq

/-- `BuildIncrementalPlan`: a node is `ReuseCache` iff it is not
invalidated, its task hash is known and present in the cache, and all
its upstream decisions are `ReuseCache`; otherwise `Execute`.  The cache
is modelled from the spec as its capability `has : task_hash → bool`
(the `core.Cache` interface is a collaborator outside the analyzed
sources); with a total `has` the error paths of the source are
unreachable. -/
def BuildIncrementalPlan (graph : Option GraphSnapshot)
    (invalidation : InvalidationMap) (cache : String → Bool) :
    IncrementalPlan :=
  match graph with
  | none => ⟨[], []⟩
  | some g =>
    if g.nodes.length = 0 then ⟨[], []⟩
    else
      let names := sortStrings (g.nodes.map Prod.fst)
      let order := topoOrder names (outgoingOf g names) (indegOf g)
      let decisions := order.foldl
        (fun (dec : List (String × NodeExecutionDecision)) name =>
          let n := (lookupA g.nodes name).getD default
          let inv := (lookupA invalidation name).getD InvalidationEntry.zero
          if inv.invalidated then dec ++ [(name, .execute)]
          else if n.taskHash = "" then dec ++ [(name, .execute)]
          else if cache n.taskHash = false then dec ++ [(name, .execute)]
          else if (normalizeStringSet n.upstream).all
              (fun p => decide (lookupA dec p = some .reuseCache)) then
            dec ++ [(name, .reuseCache)]
          else dec ++ [(name, .execute)]) []
      let decisions2 := names.foldl
        (fun (dec : List (String × NodeExecutionDecision)) name =>
          if (lookupA dec name).isSome then dec
          else dec ++ [(name, .execute)]) decisions
      let order2 := if order.length ≠ names.length then sortStrings names
        else order
      ⟨order2, decisions2⟩

end SW

namespace SW

/-! ## Order facts for the reason comparators. -/

theorem strLt_asym (a b : String) (h : strLt a b = true) :
    strLt b a = false := by
  by_contra hc
  rw [Bool.not_eq_false] at hc
  rcases (strLt_iff a b).mp h with ⟨h1, h2⟩
  rcases (strLt_iff b a).mp hc with ⟨h1', _⟩
  exact h2 (strLe_anti _ _ h1 h1')

theorem strLt_trans (a b c : String) (h1 : strLt a b = true)
    (h2 : strLt b c = true) : strLt a c = true := by
  rcases (strLt_iff a b).mp h1 with ⟨hle1, hne1⟩
  rcases (strLt_iff b c).mp h2 with ⟨hle2, hne2⟩
  refine (strLt_iff a c).mpr ⟨strLe_trans _ _ _ hle1 hle2, ?_⟩
  intro he
  subst he
  exact hne1 (strLe_anti _ _ hle1 hle2)

theorem strLt_conn (a b : String) (h1 : strLt a b = false)
    (h2 : strLt b a = false) : a = b := by
  by_contra hne
  rcases strLe_total a b with h | h
  · have : strLt a b = true := (strLt_iff a b).mpr ⟨h, hne⟩
    rw [this] at h1
    exact Bool.true_eq_false.mp h1
  · have : strLt b a = true := (strLt_iff b a).mpr ⟨h, fun he => hne he.symm⟩
    rw [this] at h2
    exact Bool.true_eq_false.mp h2

theorem strLt_irrefl (s : String) : strLt s s = false := by
  by_contra hc
  rw [Bool.not_eq_false] at hc
  exact ((strLt_iff s s).mp hc).2 rfl

theorem detailLt_asym (a b : InvalidationDetail) (h : detailLt a b = true) :
    detailLt b a = false := by
  by_contra hc
  rw [Bool.not_eq_false] at hc
  simp only [detailLt, Bool.or_eq_true, Bool.and_eq_true,
    decide_eq_true_eq] at h hc
  rcases h with h | ⟨he, hv⟩ <;> rcases hc with h' | ⟨he', hv'⟩
  · exact absurd h' (by rw [strLt_asym _ _ h]; simp)
  · exact absurd he'.symm ((strLt_iff _ _).mp h).2
  · rw [← he] at h'
    exact absurd h' (by rw [strLt_irrefl]; simp)
  · exact absurd hv' (by rw [strLt_asym _ _ hv]; simp)

theorem detailLt_trans (a b c : InvalidationDetail)
    (h1 : detailLt a b = true) (h2 : detailLt b c = true) :
    detailLt a c = true := by
  simp only [detailLt, Bool.or_eq_true, Bool.and_eq_true,
    decide_eq_true_eq] at h1 h2 ⊢
  rcases h1 with h | ⟨he, hv⟩
  · rcases h2 with h' | ⟨he', _⟩
    · exact Or.inl (strLt_trans _ _ _ h h')
    · exact Or.inl (he' ▸ h)
  · rcases h2 with h' | ⟨he', hv'⟩
    · exact Or.inl (he ▸ h')
    · exact Or.inr ⟨he.trans he', strLt_trans _ _ _ hv hv'⟩

theorem detailLt_conn (a b : InvalidationDetail)
    (h1 : detailLt a b = false) (h2 : detailLt b a = false) : a = b := by
  simp only [detailLt, Bool.or_eq_false_iff, Bool.and_eq_false_iff] at h1 h2
  obtain ⟨hk1, hr1⟩ := h1
  obtain ⟨hk2, hr2⟩ := h2
  have hk : a.key = b.key := strLt_conn _ _ hk1 hk2
  have hv : a.value = b.value := by
    rcases hr1 with hr1 | hr1
    · exact absurd hk (by simpa using hr1)
    · rcases hr2 with hr2 | hr2
      · exact absurd hk.symm (by simpa using hr2)
      · exact strLt_conn _ _ hr1 hr2
  obtain ⟨ak, av⟩ := a
  obtain ⟨bk, bv⟩ := b
  simp only at hk hv
  rw [hk, hv]

theorem lexListLt_asym (lt : α → α → Bool)
    (hasym : ∀ a b, lt a b = true → lt b a = false) :
    ∀ a b : List α, lexListLt lt a b = true → lexListLt lt b a = false
  | [], [], h => by simp [lexListLt] at h
  | [], _ :: _, _ => rfl
  | _ :: _, [], h => by simp [lexListLt] at h
  | x :: xs, y :: ys, h => by
    simp only [lexListLt] at h ⊢
    by_cases hxy : lt x y
    · rw [if_neg (by rw [hasym _ _ hxy]; simp), if_pos hxy]
    · by_cases hyx : lt y x
      · simp [hxy, hyx] at h
      · simp only [if_neg hxy, if_neg hyx] at h ⊢
        exact lexListLt_asym lt hasym xs ys h

theorem lexListLt_trans (lt : α → α → Bool)
    (hasym : ∀ a b, lt a b = true → lt b a = false)
    (htrans : ∀ a b c, lt a b = true → lt b c = true → lt a c = true)
    (hconn : ∀ a b, lt a b = false → lt b a = false → a = b) :
    ∀ a b c : List α, lexListLt lt a b = true → lexListLt lt b c = true →
      lexListLt lt a c = true
  | [], _, _ :: _, _, _ => rfl
  | [], _ :: _, [], _, h2 => by simp [lexListLt] at h2
  | [], [], [], h1, _ => by simp [lexListLt] at h1
  | _ :: _, [], _, h1, _ => by simp [lexListLt] at h1
  | _ :: _, _ :: _, [], _, h2 => by simp [lexListLt] at h2
  | x :: xs, y :: ys, z :: zs, h1, h2 => by
    simp only [lexListLt] at h1 h2 ⊢
    by_cases hxy : lt x y
    · by_cases hyz : lt y z
      · simp [htrans _ _ _ hxy hyz]
      · by_cases hzy : lt z y
        · simp [hyz, hzy] at h2
        · have he : y = z := hconn _ _ (by simpa using hyz) (by simpa using hzy)
          subst he
          simp [hxy]
    · by_cases hyx : lt y x
      · simp [hxy, hyx] at h1
      · have he : x = y := hconn _ _ (by simpa using hxy) (by simpa using hyx)
        subst he
        simp only [if_neg hxy] at h1 ⊢
        by_cases hxz : lt x z
        · simp [hxz]
        · by_cases hzx : lt z x
          · simp [hxz, hzx] at h2
          · have he' : x = z := hconn _ _ (by simpa using hxz) (by simpa using hzx)
            subst he'
            simp only [if_neg hxz] at h2 ⊢
            exact lexListLt_trans lt hasym htrans hconn xs ys zs h1 h2

theorem lexListLt_conn (lt : α → α → Bool)
    (hconn : ∀ a b, lt a b = false → lt b a = false → a = b) :
    ∀ a b : List α, lexListLt lt a b = false → lexListLt lt b a = false →
      a = b
  | [], [], _, _ => rfl
  | [], _ :: _, h1, _ => by simp [lexListLt] at h1
  | _ :: _, [], _, h2 => by simp [lexListLt] at h2
  | x :: xs, y :: ys, h1, h2 => by
    simp only [lexListLt] at h1 h2
    by_cases hxy : lt x y
    · simp [hxy] at h1
    · by_cases hyx : lt y x
      · simp [hxy, hyx] at h2
      · have he : x = y := hconn _ _ (by simpa using hxy) (by simpa using hyx)
        subst he
        simp only [if_neg hxy] at h1 h2
        rw [lexListLt_conn lt hconn xs ys h1 h2]

theorem reasonTypeOrder_inj : ∀ a b : ReasonType,
    reasonTypeOrder a = reasonTypeOrder b → a = b := by
  intro a b h
  cases a <;> cases b <;> simp_all [reasonTypeOrder]

theorem reasonLt_asym (a b : InvalidationReason) (h : reasonLt a b = true) :
    reasonLt b a = false := by
  rw [reasonLt] at h
  rw [reasonLt]
  by_cases ht : reasonTypeOrder a.type' = reasonTypeOrder b.type'
  · rw [if_neg (by simp [ht])] at h
    rw [if_neg (by simp [ht])]
    by_cases hs : a.sourceTaskID = b.sourceTaskID
    · rw [if_neg (by simp [hs])] at h
      rw [if_neg (by simp [hs])]
      exact lexListLt_asym detailLt detailLt_asym _ _ h
    · rw [if_pos hs] at h
      rw [if_pos (fun hc => hs hc.symm)]
      exact strLt_asym _ _ h
  · rw [if_pos ht] at h
    rw [if_pos (fun hc => ht hc.symm)]
    simp only [decide_eq_true_eq] at h
    simp only [decide_eq_false_iff_not]
    omega

theorem reasonLt_trans (a b c : InvalidationReason)
    (h1 : reasonLt a b = true) (h2 : reasonLt b c = true) :
    reasonLt a c = true := by
  rw [reasonLt] at h1 h2 ⊢
  by_cases hab : reasonTypeOrder a.type' = reasonTypeOrder b.type' <;>
    by_cases hbc : reasonTypeOrder b.type' = reasonTypeOrder c.type'
  · rw [if_neg (by simp [hab])] at h1
    rw [if_neg (by simp [hbc])] at h2
    rw [if_neg (by simp [hab.trans hbc])]
    by_cases hs1 : a.sourceTaskID = b.sourceTaskID <;>
      by_cases hs2 : b.sourceTaskID = c.sourceTaskID
    · rw [if_neg (by simp [hs1])] at h1
      rw [if_neg (by simp [hs2])] at h2
      rw [if_neg (by simp [hs1.trans hs2])]
      exact lexListLt_trans detailLt detailLt_asym detailLt_trans
        detailLt_conn _ _ _ h1 h2
    · rw [if_neg (by simp [hs1])] at h1
      rw [if_pos (by simp [hs2])] at h2
      rw [if_pos (by simp [hs1 ▸ hs2]), hs1]
      exact h2
    · rw [if_pos (by simp [hs1])] at h1
      rw [if_neg (by simp [hs2])] at h2
      rw [if_pos (fun hc => hs1 (hc.trans hs2.symm)), ← hs2]
      exact h1
    · rw [if_pos (by simp [hs1])] at h1
      rw [if_pos (by simp [hs2])] at h2
      by_cases hs3 : a.sourceTaskID = c.sourceTaskID
      · exfalso
        have h' := strLt_trans _ _ _ h1 h2
        rw [← hs3, strLt_irrefl] at h'
        exact Bool.false_ne_true h'
      · rw [if_pos (by simp [hs3])]
        exact strLt_trans _ _ _ h1 h2
  · rw [if_neg (by simp [hab])] at h1
    rw [if_pos (by simpa using hbc)] at h2
    rw [if_pos (by simpa using (hab ▸ hbc : reasonTypeOrder a.type' ≠ reasonTypeOrder c.type'))]
    rw [hab]
    exact h2
  · rw [if_pos (by simpa using hab)] at h1
    rw [if_neg (by simp [hbc])] at h2
    rw [if_pos (by simpa using (hbc ▸ hab : reasonTypeOrder a.type' ≠ reasonTypeOrder c.type'))]
    rw [← hbc]
    exact h1
  · rw [if_pos (by simpa using hab)] at h1
    rw [if_pos (by simpa using hbc)] at h2
    simp only [decide_eq_true_eq] at h1 h2
    have hlt : reasonTypeOrder a.type' < reasonTypeOrder c.type' :=
      lt_trans h1 h2
    rw [if_pos (by simpa using Nat.ne_of_lt hlt)]
    simpa using hlt

theorem reasonLt_conn (a b : InvalidationReason)
    (h1 : reasonLt a b = false) (h2 : reasonLt b a = false) : a = b := by
  rw [reasonLt] at h1 h2
  by_cases ht : reasonTypeOrder a.type' = reasonTypeOrder b.type'
  · rw [if_neg (by simp [ht])] at h1
    rw [if_neg (by simp [ht.symm])] at h2
    by_cases hs : a.sourceTaskID = b.sourceTaskID
    · rw [if_neg (by simp [hs])] at h1
      rw [if_neg (by simp [hs.symm])] at h2
      have hd := lexListLt_conn detailLt detailLt_conn _ _ h1 h2
      have hty := reasonTypeOrder_inj _ _ ht
      obtain ⟨t1, s1, d1⟩ := a
      obtain ⟨t2, s2, d2⟩ := b
      simp only at hty hs hd
      rw [hty, hs, hd]
    · rw [if_pos (by simp [hs])] at h1
      rw [if_pos (by simp; intro hc; exact hs hc.symm)] at h2
      exact absurd (strLt_conn _ _ h1 h2) hs
  · rw [if_pos (by simpa using ht)] at h1
    rw [if_pos (by simp; intro hc; exact ht hc.symm)] at h2
    simp only [decide_eq_false_iff_not, not_lt] at h1 h2
    exact absurd (le_antisymm h2 h1) ht

end SW

namespace SW

/-! ## Structural lemmas about `Canonicalize`. -/

theorem leOfLt_total (lt : α → α → Bool)
    (hasym : ∀ a b, lt a b = true → lt b a = false) :
    ∀ a b, leOfLt lt a b = true ∨ leOfLt lt b a = true := by
  intro a b
  by_cases h : lt b a = true
  · exact Or.inr (by simp [leOfLt, hasym _ _ h])
  · exact Or.inl (by simp only [leOfLt, Bool.not_eq_true']; simpa using h)

theorem leOfLt_trans (lt : α → α → Bool)
    (htrans : ∀ a b c, lt a b = true → lt b c = true → lt a c = true)
    (hconn : ∀ a b, lt a b = false → lt b a = false → a = b) :
    ∀ a b c, leOfLt lt a b = true → leOfLt lt b c = true →
      leOfLt lt a c = true := by
  intro a b c h1 h2
  simp only [leOfLt, Bool.not_eq_true'] at h1 h2 ⊢
  by_contra hcon
  rw [Bool.not_eq_false] at hcon
  by_cases hab : lt a b = true
  · have h3 := htrans _ _ _ hcon hab
    rw [h3] at h2
    exact Bool.true_eq_false.mp h2
  · have he : a = b := hconn _ _ (by simpa using hab) h1
    subst he
    rw [hcon] at h2
    exact Bool.true_eq_false.mp h2

theorem leOfLt_anti (lt : α → α → Bool)
    (hconn : ∀ a b, lt a b = false → lt b a = false → a = b) :
    ∀ a b, leOfLt lt a b = true → leOfLt lt b a = true → a = b := by
  intro a b h1 h2
  simp only [leOfLt, Bool.not_eq_true'] at h1 h2
  exact hconn _ _ h2 h1

end SW

namespace SW

theorem reasonLe_total : ∀ a b : InvalidationReason,
    leOfLt reasonLt a b = true ∨ leOfLt reasonLt b a = true :=
  leOfLt_total reasonLt reasonLt_asym

theorem reasonLe_trans : ∀ a b c : InvalidationReason,
    leOfLt reasonLt a b = true → leOfLt reasonLt b c = true →
      leOfLt reasonLt a c = true :=
  leOfLt_trans reasonLt reasonLt_trans reasonLt_conn

theorem reasonLe_anti : ∀ a b : InvalidationReason,
    leOfLt reasonLt a b = true → leOfLt reasonLt b a = true → a = b :=
  leOfLt_anti reasonLt reasonLt_conn

theorem detailLe_total : ∀ a b : InvalidationDetail,
    leOfLt detailLt a b = true ∨ leOfLt detailLt b a = true :=
  leOfLt_total detailLt detailLt_asym

theorem detailLe_trans : ∀ a b c : InvalidationDetail,
    leOfLt detailLt a b = true → leOfLt detailLt b c = true →
      leOfLt detailLt a c = true :=
  leOfLt_trans detailLt detailLt_trans detailLt_conn

theorem detailLe_anti : ∀ a b : InvalidationDetail,
    leOfLt detailLt a b = true → leOfLt detailLt b a = true → a = b :=
  leOfLt_anti detailLt detailLt_conn

theorem mem_Canonicalize (rs : List InvalidationReason)
    (x : InvalidationReason) :
    x ∈ Canonicalize rs ↔ x ∈ rs.map InvalidationReason.canonical := by
  rw [Canonicalize, mem_dedupAdj, mem_sortLe]

theorem pairwise_Canonicalize (rs : List InvalidationReason) :
    (Canonicalize rs).Pairwise (fun a b => leOfLt reasonLt a b = true) :=
  pairwise_dedupAdj _ _
    (pairwise_sortLe _ reasonLe_total reasonLe_trans _)

theorem nodup_Canonicalize (rs : List InvalidationReason) :
    (Canonicalize rs).Nodup :=
  nodup_dedupAdj _ reasonLe_anti _
    (pairwise_sortLe _ reasonLe_total reasonLe_trans _)

theorem insertLe_eq_cons (le : α → α → Bool) (x : α) (l : List α)
    (h : ∀ y ∈ l, le x y = true) : insertLe le x l = x :: l := by
  cases l with
  | nil => rfl
  | cons y ys => simp [insertLe, h y (by simp)]

theorem sortLe_eq_self_of_pairwise (le : α → α → Bool) (l : List α)
    (h : l.Pairwise (fun a b => le a b = true)) : sortLe le l = l := by
  induction l with
  | nil => rfl
  | cons x xs ih =>
    rcases List.pairwise_cons.mp h with ⟨hx, hxs⟩
    rw [sortLe, ih hxs, insertLe_eq_cons]
    exact hx

theorem dedupAdj_eq_self_of_nodup [DecidableEq α] (l : List α)
    (h : l.Nodup) : dedupAdj l = l := by
  induction l with
  | nil => rfl
  | cons x xs ih =>
    cases xs with
    | nil => rfl
    | cons y ys =>
      rcases List.nodup_cons.mp h with ⟨hx, h'⟩
      rw [dedupAdj_cons_cons, if_neg (by intro he; exact hx (he ▸ List.mem_cons_self _ _)), ih h']

theorem canonical_idem (r : InvalidationReason) :
    r.canonical.canonical = r.canonical := by
  show InvalidationReason.mk _ _ _ = InvalidationReason.mk _ _ _
  simp only [InvalidationReason.canonical]
  congr 1
  rw [sortLe_eq_self_of_pairwise _ _
    (pairwise_dedupAdj _ _ (pairwise_sortLe _ detailLe_total detailLe_trans _)),
    dedupAdj_eq_self_of_nodup _
    (nodup_dedupAdj _ detailLe_anti _
      (pairwise_sortLe _ detailLe_total detailLe_trans _))]

theorem canonical_fixed_of_mem (rs : List InvalidationReason)
    (x : InvalidationReason) (h : x ∈ Canonicalize rs) :
    x.canonical = x := by
  rw [mem_Canonicalize] at h
  rcases List.mem_map.mp h with ⟨y, _, hy⟩
  rw [← hy]
  exact canonical_idem y

theorem canonical_type (r : InvalidationReason) :
    r.canonical.type' = r.type' := rfl

theorem canonical_source (r : InvalidationReason) :
    r.canonical.sourceTaskID = r.sourceTaskID := rfl

/-- A `Canonicalize` image restricted by a type-reading predicate equals
the `Canonicalize` image of the restriction. -/
theorem filter_Canonicalize (p : InvalidationReason → Bool)
    (hp : ∀ r, p r.canonical = p r) (rs : List InvalidationReason) :
    (Canonicalize rs).filter p = Canonicalize (rs.filter p) := by
  refine eq_of_mem_of_pairwise_nodup (leOfLt reasonLt) reasonLe_anti _ _
    ?_ ?_ ?_ ?_ ?_
  · intro x
    rw [List.mem_filter, mem_Canonicalize, mem_Canonicalize]
    constructor
    · intro ⟨hm, hpx⟩
      rcases List.mem_map.mp hm with ⟨y, hy, hyx⟩
      refine List.mem_map.mpr ⟨y, ?_, hyx⟩
      rw [List.mem_filter]
      refine ⟨hy, ?_⟩
      rw [← hp y, hyx, hpx]
    · intro hm
      rcases List.mem_map.mp hm with ⟨y, hy, hyx⟩
      rw [List.mem_filter] at hy
      constructor
      · exact List.mem_map.mpr ⟨y, hy.1, hyx⟩
      · rw [← hyx, hp y]
        exact hy.2
  · exact List.Pairwise.filter _ (pairwise_Canonicalize rs)
  · exact pairwise_Canonicalize _
  · exact (nodup_Canonicalize rs).filter _
  · exact nodup_Canonicalize _

end SW

namespace SW

/-! ## C2: the spec's rule list for direct reasons. -/

theorem symmetricSetDiff_eq_nil_of_equal (a b : List String)
    (h : equalStringSet b a = true) : symmetricSetDiff a b = [] := by
  rw [equalStringSet, decide_eq_true_eq] at h
  rw [List.eq_nil_iff_forall_not_mem]
  intro x hx
  rw [mem_symmetricSetDiff] at hx
  have hmem : x ∈ a ↔ x ∈ b := by
    rw [← mem_normalizeStringSet a x, ← mem_normalizeStringSet b x, h]
  rcases hx with ⟨h1, h2⟩ | ⟨h1, h2⟩
  · exact h2 (hmem.mp h1)
  · exact h2 (hmem.mpr h1)

/-- The direct reasons exactly as the spec's rule list states them
(written from the claim: absent node gives `GraphStructureChanged` only;
changed input hash gives `InputChanged`; changed declared-input set gives
`GraphStructureChanged` with one `InputName` detail per
symmetric-difference element; changed env gives `EnvChanged` with one
`EnvName` detail per changed key; changed command gives `CommandChanged`;
changed output set gives `OutputChanged` with `OutputName` details;
changed or missing upstream gives `GraphStructureChanged`). -/
def specDirectReasons (newG : GraphSnapshot) (old? : Option NodeSnapshot)
    (newNode : NodeSnapshot) : List InvalidationReason :=
  match old? with
  | none => [⟨.graphStructureChanged, "", []⟩]
  | some oldNode =>
    (if newNode.inputHash ≠ oldNode.inputHash then
      [(⟨.inputChanged, "", []⟩ : InvalidationReason)] else []) ++
    (symmetricSetDiff oldNode.declaredInputs newNode.declaredInputs).map
      (fun nm => (⟨.graphStructureChanged, "", [⟨"InputName", nm⟩]⟩ :
        InvalidationReason)) ++
    (if equalStringMap newNode.env oldNode.env then []
     else [(⟨.envChanged, "",
       (changedMapKeys oldNode.env newNode.env).map
         (fun k => (⟨"EnvName", k⟩ : InvalidationDetail))⟩ :
           InvalidationReason)]) ++
    (if newNode.command ≠ oldNode.command then
      [(⟨.commandChanged, "", []⟩ : InvalidationReason)] else []) ++
    (if equalStringSet newNode.outputs oldNode.outputs then []
     else [(⟨.outputChanged, "",
       (symmetricSetDiff oldNode.outputs newNode.outputs).map
         (fun o => (⟨"OutputName", o⟩ : InvalidationDetail))⟩ :
           InvalidationReason)]) ++
    (if equalStringSet newNode.upstream oldNode.upstream then []
     else [(⟨.graphStructureChanged, "", [⟨"Upstream", "changed"⟩]⟩ :
       InvalidationReason)]) ++
    (normalizeStringSet newNode.upstream).filterMap
      (fun parent =>
        if (lookupA newG.nodes parent).isSome then none
        else some (⟨.graphStructureChanged, "",
          [⟨"UpstreamTaskID", parent⟩, ⟨"Upstream", "missing"⟩]⟩ :
            InvalidationReason))


theorem equalStringSet_symm (a b : List String) :
    equalStringSet a b = equalStringSet b a := by
  simp only [equalStringSet]
  by_cases h : normalizeStringSet a = normalizeStringSet b
  · rw [h]
  · rw [decide_eq_false h, decide_eq_false (fun hc => h hc.symm)]

theorem mem_changedMapKeys (a b : List (String × String)) (k : String) :
    k ∈ changedMapKeys a b ↔
      ((k ∈ a.map Prod.fst ∨ k ∈ b.map Prod.fst) ∧
        lookupA a k ≠ lookupA b k) := by
  rw [changedMapKeys, List.mem_filter, mem_dedupAdj, mem_sortStrings,
    List.mem_append]
  simp [bne]

theorem changedMapKeys_nil_symm (a b : List (String × String))
    (h : changedMapKeys a b = []) : changedMapKeys b a = [] := by
  rw [List.eq_nil_iff_forall_not_mem] at h ⊢
  intro k hk
  rw [mem_changedMapKeys] at hk
  exact h k ((mem_changedMapKeys a b k).mpr
    ⟨hk.1.symm, fun he => hk.2 he.symm⟩)

theorem changedMapKeys_ne_nil_of_not_equal_rev (a b : List (String × String))
    (hna : (a.map Prod.fst).Nodup) (hnb : (b.map Prod.fst).Nodup)
    (h : equalStringMap b a = false) : changedMapKeys a b ≠ [] :=
  fun hnil =>
    changedMapKeys_ne_nil_of_not_equal b a hnb hna h
      (changedMapKeys_nil_symm a b hnil)

theorem ite_append_right (c : Prop) [Decidable c] (d e : List β) :
    (if c then d else d ++ e) = d ++ (if c then [] else e) := by
  split <;> simp

theorem ite_append_left (c : Prop) [Decidable c] (d e : List β) :
    (if c then d ++ e else d) = d ++ (if c then e else []) := by
  split <;> simp

/-- The source's `directReasonsFor` computes exactly the canonicalized
spec rule list; the bare fall-back branches of the source
(`DeclaredInputs=changed`, bare `EnvChanged`, bare `OutputChanged`)
are dead code because an unequal set has a non-empty symmetric
difference and unequal maps have a changed key. -/
theorem directReasonsFor_eq_spec (newG : GraphSnapshot) (t : String)
    (old? : Option NodeSnapshot) (n : NodeSnapshot)
    (hn : (n.env.map Prod.fst).Nodup)
    (ho : ∀ o ∈ old?, ((o.env.map Prod.fst).Nodup)) :
    directReasonsFor newG t old? n =
      Canonicalize (specDirectReasons newG old? n) := by
  match old? with
  | none => rfl
  | some oldNode =>
    have hoe : (oldNode.env.map Prod.fst).Nodup := ho oldNode rfl
    simp only [directReasonsFor, specDirectReasons]
    congr 1
    have hichunk : ∀ d1 : List InvalidationReason,
        (if equalStringSet n.declaredInputs oldNode.declaredInputs then d1
         else
           if (d1 ++ (symmetricSetDiff oldNode.declaredInputs
              n.declaredInputs).map (fun nm =>
                (⟨.graphStructureChanged, "", [⟨"InputName", nm⟩]⟩ :
                  InvalidationReason))).length = 0 then
             (d1 ++ (symmetricSetDiff oldNode.declaredInputs
                n.declaredInputs).map (fun nm =>
                  (⟨.graphStructureChanged, "", [⟨"InputName", nm⟩]⟩ :
                    InvalidationReason))) ++
               [⟨.graphStructureChanged, "",
                 [⟨"DeclaredInputs", "changed"⟩]⟩]
           else d1 ++ (symmetricSetDiff oldNode.declaredInputs
              n.declaredInputs).map (fun nm =>
                (⟨.graphStructureChanged, "", [⟨"InputName", nm⟩]⟩ :
                  InvalidationReason))) =
        d1 ++ (symmetricSetDiff oldNode.declaredInputs
          n.declaredInputs).map (fun nm =>
            (⟨.graphStructureChanged, "", [⟨"InputName", nm⟩]⟩ :
              InvalidationReason)) := by
      intro d1
      by_cases h2 : equalStringSet n.declaredInputs oldNode.declaredInputs = true
      · rw [if_pos h2, symmetricSetDiff_eq_nil_of_equal _ _ h2, List.map_nil,
          List.append_nil]
      · have hd2 : symmetricSetDiff oldNode.declaredInputs
            n.declaredInputs ≠ [] :=
          symmetricSetDiff_ne_nil_of_not_equal _ _
            (by rw [equalStringSet_symm]; simpa using h2)
        rw [if_neg h2, if_neg (fun hc => hd2 (by
          have h0 := List.eq_nil_of_length_eq_zero hc
          rcases List.append_eq_nil.mp h0 with ⟨h01, hmap⟩
          exact List.map_eq_nil_iff.mp hmap))]
    have hechunk : ∀ d : List InvalidationReason,
        (if equalStringMap n.env oldNode.env then d
         else
           if (changedMapKeys oldNode.env n.env).length = 0 then
             d ++ [⟨.envChanged, "", []⟩]
           else d ++ [⟨.envChanged, "",
             (changedMapKeys oldNode.env n.env).map
               (fun k => (⟨"EnvName", k⟩ : InvalidationDetail))⟩]) =
        d ++ (if equalStringMap n.env oldNode.env then []
          else [(⟨.envChanged, "",
            (changedMapKeys oldNode.env n.env).map
              (fun k => (⟨"EnvName", k⟩ : InvalidationDetail))⟩ :
                InvalidationReason)]) := by
      intro d
      by_cases h3 : equalStringMap n.env oldNode.env = true
      · rw [if_pos h3, if_pos h3, List.append_nil]
      · have hd3 : changedMapKeys oldNode.env n.env ≠ [] :=
          changedMapKeys_ne_nil_of_not_equal_rev _ _ hoe hn
            (by simpa using h3)
        rw [if_neg h3, if_neg h3,
          if_neg (fun hc => hd3 (List.eq_nil_of_length_eq_zero hc))]
    have houtchunk : ∀ d : List InvalidationReason,
        (if equalStringSet n.outputs oldNode.outputs then d
         else
           if (symmetricSetDiff oldNode.outputs n.outputs).length = 0 then
             d ++ [⟨.outputChanged, "", []⟩]
           else d ++ [⟨.outputChanged, "",
             (symmetricSetDiff oldNode.outputs n.outputs).map
               (fun o => (⟨"OutputName", o⟩ : InvalidationDetail))⟩]) =
        d ++ (if equalStringSet n.outputs oldNode.outputs then []
          else [(⟨.outputChanged, "",
            (symmetricSetDiff oldNode.outputs n.outputs).map
              (fun o => (⟨"OutputName", o⟩ : InvalidationDetail))⟩ :
                InvalidationReason)]) := by
      intro d
      by_cases h5 : equalStringSet n.outputs oldNode.outputs = true
      · rw [if_pos h5, if_pos h5, List.append_nil]
      · have hd5 : symmetricSetDiff oldNode.outputs n.outputs ≠ [] :=
          symmetricSetDiff_ne_nil_of_not_equal _ _
            (by rw [equalStringSet_symm]; simpa using h5)
        rw [if_neg h5, if_neg h5,
          if_neg (fun hc => hd5 (List.eq_nil_of_length_eq_zero hc))]
    rw [hichunk, hechunk, ite_append_left, houtchunk, ite_append_right]

end SW

namespace SW

/-! ## `topoOrder` produces a permutation of the names. -/

/-- The per-pop decrement step of `topoAux`. -/
def kahnStep (acc : (String → Int) × List String) (m : String) :
    (String → Int) × List String :=
  let v := acc.1 m - 1
  let ind' := fun k => if k = m then v else acc.1 k
  if v = 0 then (ind', insertLe strLe m acc.2) else (ind', acc.2)

theorem topoAux_eq_kahnStep (outgoing : String → List String) (fuel : Nat)
    (ind : String → Int) (n : String) (rest order : List String) :
    topoAux outgoing (fuel + 1) ind (n :: rest) order =
      topoAux outgoing fuel ((outgoing n).foldl kahnStep (ind, rest)).1
        ((outgoing n).foldl kahnStep (ind, rest)).2 (order ++ [n]) := rfl

/-- The fold of `kahnStep` preserves: no duplicates among the emitted and
pending names, non-positive indegree of every emitted or pending name,
and containment in `names`. -/
theorem kahnStep_fold_inv (names : List String) (L : List String)
    (hL : ∀ m ∈ L, m ∈ names) :
    ∀ (acc : (String → Int) × List String) (base : List String),
      (base ++ acc.2).Nodup →
      (∀ m ∈ base ++ acc.2, acc.1 m ≤ 0) →
      (∀ m ∈ base ++ acc.2, m ∈ names) →
      ((base ++ (L.foldl kahnStep acc).2).Nodup ∧
        (∀ m ∈ base ++ (L.foldl kahnStep acc).2,
          (L.foldl kahnStep acc).1 m ≤ 0) ∧
        (∀ m ∈ base ++ (L.foldl kahnStep acc).2, m ∈ names)) := by
  induction L with
  | nil => intro acc base h1 h2 h3; exact ⟨h1, h2, h3⟩
  | cons x t ih =>
    intro acc base h1 h2 h3
    rw [List.foldl_cons]
    have hx : x ∈ names := hL x (by simp)
    have hL' : ∀ m ∈ t, m ∈ names := fun m hm => hL m (by simp [hm])
    by_cases hv : acc.1 x - 1 = 0
    · have hstep : kahnStep acc x =
          ((fun k => if k = x then acc.1 x - 1 else acc.1 k),
            insertLe strLe x acc.2) := by
        simp [kahnStep, hv]
      rw [hstep]
      have hxnot : x ∉ base ++ acc.2 := by
        intro hc
        have := h2 x hc
        omega
      have hperm : List.Perm (base ++ insertLe strLe x acc.2)
          (x :: (base ++ acc.2)) := by
        have p1 : List.Perm (base ++ insertLe strLe x acc.2)
            (base ++ x :: acc.2) :=
          List.Perm.append_left base (insertLe_perm strLe x acc.2)
        exact p1.trans List.perm_middle
      refine ih hL' _ base ?_ ?_ ?_
      · refine hperm.nodup_iff.mpr ?_
        exact List.nodup_cons.mpr ⟨hxnot, h1⟩
      · intro m hm
        have hm' := hperm.mem_iff.mp hm
        rcases List.mem_cons.mp hm' with hm' | hm'
        · subst hm'
          simp [hv]
        · by_cases hmx : m = x
          · subst hmx
            simp [hv]
          · simp only [if_neg hmx]
            exact h2 m hm'
      · intro m hm
        have hm' := hperm.mem_iff.mp hm
        rcases List.mem_cons.mp hm' with hm' | hm'
        · exact hm' ▸ hx
        · exact h3 m hm'
    · have hstep : kahnStep acc x =
          ((fun k => if k = x then acc.1 x - 1 else acc.1 k), acc.2) := by
        simp [kahnStep, hv]
      rw [hstep]
      refine ih hL' _ base h1 ?_ h3
      · intro m hm
        by_cases hmx : m = x
        · subst hmx
          have := h2 m hm
          simp only [if_pos rfl]
          omega
        · simp only [if_neg hmx]
          exact h2 m hm

theorem topoAux_nodup_subset (outgoing : String → List String)
    (names : List String)
    (houts : ∀ n, ∀ m ∈ outgoing n, m ∈ names) :
    ∀ (fuel : Nat) (ind : String → Int) (ready order : List String),
      (order ++ ready).Nodup → (∀ m ∈ order ++ ready, ind m ≤ 0) →
      (∀ m ∈ order ++ ready, m ∈ names) →
      ((topoAux outgoing fuel ind ready order).Nodup ∧
        (∀ m ∈ topoAux outgoing fuel ind ready order, m ∈ names)) := by
  intro fuel
  induction fuel with
  | zero =>
    intro ind ready order h1 h2 h3
    refine ⟨(List.nodup_append.mp (by simpa using h1)).1, ?_⟩
    intro m hm
    exact h3 m (List.mem_append.mpr (Or.inl hm))
  | succ fuel ih =>
    intro ind ready order h1 h2 h3
    cases ready with
    | nil =>
      refine ⟨by simpa using h1, ?_⟩
      intro m hm
      exact h3 m (by simpa using hm)
    | cons n rest =>
      rw [topoAux_eq_kahnStep]
      have hmid : List.Perm (order ++ n :: rest) ((order ++ [n]) ++ rest) := by
        simp [List.append_assoc]
      have h1' : ((order ++ [n]) ++ rest).Nodup :=
        hmid.nodup_iff.mp h1
      have h2' : ∀ m ∈ (order ++ [n]) ++ rest, ind m ≤ 0 := by
        intro m hm
        exact h2 m (hmid.mem_iff.mpr hm)
      have h3' : ∀ m ∈ (order ++ [n]) ++ rest, m ∈ names := by
        intro m hm
        exact h3 m (hmid.mem_iff.mpr hm)
      obtain ⟨k1, k2, k3⟩ := kahnStep_fold_inv names (outgoing n)
        (houts n) (ind, rest) (order ++ [n]) h1' h2' h3'
      exact ih _ _ _ k1 k2 k3

theorem sortStrings_nodup (l : List String) (h : l.Nodup) :
    (sortStrings l).Nodup := (sortLe_perm strLe l).nodup_iff.mpr h

/-- `topoOrder` emits each name exactly once. -/
theorem topoOrder_perm (names : List String)
    (outgoing : String → List String) (ind : String → Int)
    (hnd : names.Nodup)
    (houts : ∀ n, ∀ m ∈ outgoing n, m ∈ names) :
    List.Perm (topoOrder names outgoing ind) names := by
  rw [topoOrder]
  set ready := sortStrings (names.filter (fun n => ind n = 0)) with hready
  have hr1 : (([] : List String) ++ ready).Nodup := by
    rw [List.nil_append, hready]
    exact sortStrings_nodup _ (hnd.filter _)
  have hr2 : ∀ m ∈ ([] : List String) ++ ready, ind m ≤ 0 := by
    intro m hm
    rw [List.nil_append, hready, mem_sortStrings, List.mem_filter] at hm
    have := hm.2
    simp only [decide_eq_true_eq] at this
    omega
  have hr3 : ∀ m ∈ ([] : List String) ++ ready, m ∈ names := by
    intro m hm
    rw [List.nil_append, hready, mem_sortStrings, List.mem_filter] at hm
    exact hm.1
  obtain ⟨ho1, ho2⟩ :=
    topoAux_nodup_subset outgoing names houts names.length ind ready [] hr1
      hr2 hr3
  by_cases hlen : (topoAux outgoing names.length ind ready []).length =
      names.length
  · rw [if_neg (by simpa using hlen)]
    have hsub : topoAux outgoing names.length ind ready [] ⊆ names :=
      fun m hm => ho2 m hm
    have hsp : List.Subperm (topoAux outgoing names.length ind ready [])
        names := List.Nodup.subperm ho1 hsub
    exact hsp.perm_of_length_le (le_of_eq hlen.symm)
  · rw [if_pos hlen]
    exact sortLe_perm strLe names

end SW

namespace SW

/-! ## C2 assembly. -/

theorem Canonicalize_idem (l : List InvalidationReason) :
    Canonicalize (Canonicalize l) = Canonicalize l := by
  have hmap : (Canonicalize l).map InvalidationReason.canonical =
      Canonicalize l := by
    have h1 : (Canonicalize l).map InvalidationReason.canonical =
        (Canonicalize l).map id :=
      List.map_congr_left (fun a ha => canonical_fixed_of_mem l a ha)
    rw [h1, List.map_id]
  show dedupAdj (sortLe (leOfLt reasonLt)
    ((Canonicalize l).map InvalidationReason.canonical)) = Canonicalize l
  rw [hmap, sortLe_eq_self_of_pairwise _ _ (pairwise_Canonicalize l),
    dedupAdj_eq_self_of_nodup _ (nodup_Canonicalize l)]

theorem mem_of_mem_ite_nil {c : Prop} [Decidable c] {L : List α} {x : α}
    (h : x ∈ (if c then L else [])) : x ∈ L := by
  by_cases hc : c
  · rwa [if_pos hc] at h
  · rw [if_neg hc] at h
    exact absurd h (by simp)

theorem mem_of_mem_nil_ite {c : Prop} [Decidable c] {L : List α} {x : α}
    (h : x ∈ (if c then [] else L)) : x ∈ L := by
  by_cases hc : c
  · rw [if_pos hc] at h
    exact absurd h (by simp)
  · rwa [if_neg hc] at h

theorem specDirectReasons_nonDep (newG : GraphSnapshot)
    (old? : Option NodeSnapshot) (n : NodeSnapshot) :
    ∀ r ∈ specDirectReasons newG old? n,
      r.type' ≠ ReasonType.dependencyInvalidated := by
  intro r hr
  match old? with
  | none =>
    rw [specDirectReasons] at hr
    rcases List.mem_singleton.mp hr with rfl
    simp
  | some oldNode =>
    rw [specDirectReasons] at hr
    simp only [List.append_assoc, List.mem_append] at hr
    rcases hr with h | h | h | h | h | h | h
    · rcases List.mem_singleton.mp (mem_of_mem_ite_nil h) with rfl
      simp
    · rcases List.mem_map.mp h with ⟨y, _, rfl⟩
      simp
    · rcases List.mem_singleton.mp (mem_of_mem_nil_ite h) with rfl
      simp
    · rcases List.mem_singleton.mp (mem_of_mem_ite_nil h) with rfl
      simp
    · rcases List.mem_singleton.mp (mem_of_mem_nil_ite h) with rfl
      simp
    · rcases List.mem_singleton.mp (mem_of_mem_nil_ite h) with rfl
      simp
    · rcases List.mem_filterMap.mp h with ⟨y, _, hy⟩
      by_cases hc : (lookupA newG.nodes y).isSome = true
      · rw [if_pos hc] at hy
        exact absurd hy (by simp)
      · rw [if_neg hc] at hy
        rcases Option.some.inj hy with rfl
        simp

end SW

namespace SW

/-! ## C2: domain and per-entry shape of `CalculateInvalidation`. -/

theorem calcStep_fst (newG : GraphSnapshot)
    (oldNodes : List (String × NodeSnapshot))
    (acc : InvalidationMap × (String → List String)) (name : String) :
    (calcStep newG oldNodes acc name).1.map Prod.fst =
      acc.1.map Prod.fst ++ [name] := by
  simp [calcStep]

theorem calcFold_keys (newG : GraphSnapshot)
    (oldNodes : List (String × NodeSnapshot)) (topo : List String) :
    ∀ acc : InvalidationMap × (String → List String),
      (topo.foldl (calcStep newG oldNodes) acc).1.map Prod.fst =
        acc.1.map Prod.fst ++ topo := by
  induction topo with
  | nil => intro acc; simp
  | cons n rest ih =>
    intro acc
    rw [List.foldl_cons, ih, calcStep_fst, List.append_assoc,
      List.singleton_append]

/-- Shape of every entry `calcStep` produces: the reasons are the
canonicalized append of the node direct reasons and some list of
dependency reasons, and the invalidated flag is their non-emptiness. -/
def entryShape (newG : GraphSnapshot)
    (oldNodes : List (String × NodeSnapshot)) (name : String)
    (e : InvalidationEntry) : Prop :=
  (∃ deps : List String,
    e.reasons = Canonicalize
      (directReasonsFor newG name (lookupA oldNodes name)
          ((lookupA newG.nodes name).getD default) ++
        deps.map (fun src =>
          (⟨.dependencyInvalidated, src, []⟩ : InvalidationReason)))) ∧
  e.invalidated = !e.reasons.isEmpty

theorem calcStep_entries (newG : GraphSnapshot)
    (oldNodes : List (String × NodeSnapshot))
    (acc : InvalidationMap × (String → List String)) (name : String)
    (q : String × InvalidationEntry)
    (hq : q ∈ (calcStep newG oldNodes acc name).1) :
    q ∈ acc.1 ∨ entryShape newG oldNodes q.1 q.2 := by
  simp only [calcStep, List.mem_append] at hq
  rcases hq with h | h
  · exact Or.inl h
  · right
    rcases List.mem_singleton.mp h with rfl
    exact ⟨⟨_, rfl⟩, rfl⟩

theorem calcFold_entries (newG : GraphSnapshot)
    (oldNodes : List (String × NodeSnapshot)) (topo : List String) :
    ∀ acc : InvalidationMap × (String → List String),
      (∀ q ∈ acc.1, entryShape newG oldNodes q.1 q.2) →
      ∀ q ∈ (topo.foldl (calcStep newG oldNodes) acc).1,
        entryShape newG oldNodes q.1 q.2 := by
  induction topo with
  | nil => intro acc hacc; simpa using hacc
  | cons n rest ih =>
    intro acc hacc
    rw [List.foldl_cons]
    refine ih _ ?_
    intro q hq
    rcases calcStep_entries newG oldNodes acc n q hq with h | h
    · exact hacc q h
    · exact h

theorem filter_nonDep_of_shape (newG : GraphSnapshot)
    (oldNodes : List (String × NodeSnapshot)) (name : String)
    (e : InvalidationEntry)
    (hs : entryShape newG oldNodes name e)
    (hn : ((((lookupA newG.nodes name).getD default).env.map
      Prod.fst)).Nodup)
    (ho : ∀ o ∈ lookupA oldNodes name, (o.env.map Prod.fst).Nodup) :
    e.reasons.filter
        (fun r => !decide (r.type' = ReasonType.dependencyInvalidated)) =
      Canonicalize (specDirectReasons newG (lookupA oldNodes name)
        ((lookupA newG.nodes name).getD default)) := by
  obtain ⟨⟨deps, hre⟩, _⟩ := hs
  have hp : ∀ r : InvalidationReason,
      (fun r => !decide (r.type' = ReasonType.dependencyInvalidated))
          r.canonical =
        (fun r => !decide (r.type' = ReasonType.dependencyInvalidated)) r :=
    by
    intro r
    simp [canonical_type]
  rw [hre, filter_Canonicalize _ hp, List.filter_append]
  have hdep : (deps.map (fun src =>
      (⟨.dependencyInvalidated, src, []⟩ : InvalidationReason))).filter
        (fun r => !decide (r.type' = ReasonType.dependencyInvalidated)) =
          [] := by
    rw [List.filter_eq_nil_iff]
    intro a ha
    rcases List.mem_map.mp ha with ⟨y, _, rfl⟩
    simp
  have hdir : (directReasonsFor newG name (lookupA oldNodes name)
      ((lookupA newG.nodes name).getD default)).filter
        (fun r => !decide (r.type' = ReasonType.dependencyInvalidated)) =
      directReasonsFor newG name (lookupA oldNodes name)
        ((lookupA newG.nodes name).getD default) := by
    rw [List.filter_eq_self]
    intro a ha
    rw [directReasonsFor_eq_spec newG name _ _ hn ho,
      mem_Canonicalize] at ha
    rcases List.mem_map.mp ha with ⟨y, hy, rfl⟩
    have hty := specDirectReasons_nonDep newG (lookupA oldNodes name) _ y hy
    simp [canonical_type, hty]
  rw [hdep, hdir, List.append_nil,
    directReasonsFor_eq_spec newG name _ _ hn ho, Canonicalize_idem]

end SW

namespace SW

/-- C2: `CalculateInvalidation` yields exactly one entry per node of the
new snapshot (its key list is a permutation of the new node names), each
entry's non-dependency reasons are exactly the canonicalized spec rule
list for that node (absent old node, input hash, declared-input set with
`InputName` details, env with `EnvName` details, command, output set with
`OutputName` details, changed or missing upstream), and the invalidated
flag is true iff the reason list is non-empty.  Hypotheses: the new
snapshot's node keys and every node's env keys are duplicate-free (Go
maps guarantee both). -/
theorem c2_invalidation_map (oldGraph : Option GraphSnapshot)
    (newG : GraphSnapshot)
    (hkeys : (newG.nodes.map Prod.fst).Nodup)
    (henv : ∀ q ∈ newG.nodes, ((q.2.env.map Prod.fst)).Nodup)
    (hoenv : ∀ og ∈ oldGraph, ∀ q ∈ og.nodes,
      ((q.2.env.map Prod.fst)).Nodup) :
    List.Perm ((CalculateInvalidation oldGraph (some newG)).map Prod.fst)
        (newG.nodes.map Prod.fst) ∧
      ∀ q ∈ CalculateInvalidation oldGraph (some newG),
        q.2.reasons.filter
            (fun r =>
              !decide (r.type' = ReasonType.dependencyInvalidated)) =
          Canonicalize (specDirectReasons newG
            (lookupA (oldNodesOf oldGraph) q.1)
            ((lookupA newG.nodes q.1).getD default)) ∧
        q.2.invalidated = !q.2.reasons.isEmpty := by
  have hshape : ∀ q ∈ CalculateInvalidation oldGraph (some newG),
      entryShape newG (oldNodesOf oldGraph) q.1 q.2 := by
    intro q hq
    rw [CalculateInvalidation] at hq
    by_cases hz : newG.nodes.length = 0
    · rw [if_pos hz] at hq
      exact absurd hq (by simp)
    · rw [if_neg hz] at hq
      exact calcFold_entries newG (oldNodesOf oldGraph) _ _
        (by intro q hq; exact absurd hq (by simp)) q hq
  constructor
  · rw [CalculateInvalidation]
    by_cases hz : newG.nodes.length = 0
    · rw [if_pos hz]
      rw [List.length_eq_zero] at hz
      rw [hz]
      exact List.Perm.refl _
    · rw [if_neg hz]
      rw [calcFold_keys, List.map_nil, List.nil_append]
      have hnames : (sortStrings (newG.nodes.map Prod.fst)).Nodup :=
        sortStrings_nodup _ hkeys
      have houts : ∀ n, ∀ m ∈ outgoingOf newG
          (sortStrings (newG.nodes.map Prod.fst)) n,
          m ∈ sortStrings (newG.nodes.map Prod.fst) := by
        intro n m hm
        rw [outgoingOf, mem_sortStrings, List.mem_filter] at hm
        exact hm.1
      exact (topoOrder_perm _ _ _ hnames houts).trans
        (sortLe_perm strLe _)
  · intro q hq
    refine ⟨?_, (hshape q hq).2⟩
    have hn : ((((lookupA newG.nodes q.1).getD default).env.map
        Prod.fst)).Nodup := by
      cases hl : lookupA newG.nodes q.1 with
      | none => simp [NodeSnapshot.zero, default]
      | some n =>
        simp only [Option.getD_some]
        exact henv (q.1, n) (mem_of_lookupA_eq _ _ _ hl)
    have ho : ∀ o ∈ lookupA (oldNodesOf oldGraph) q.1,
        (o.env.map Prod.fst).Nodup := by
      intro o hol
      cases oldGraph with
      | none => simp [oldNodesOf, lookupA] at hol
      | some og =>
        exact hoenv og rfl (q.1, o)
          (mem_of_lookupA_eq _ _ _ (by simpa using hol))
    exact filter_nonDep_of_shape newG (oldNodesOf oldGraph) q.1 q.2
      (hshape q hq) hn ho

/-- A two-node snapshot pair for the C2 witness: node a changed its
command and gained input in2; node b is new. -/
def c2OldW : GraphSnapshot :=
  ⟨[("a", ⟨"a", "th-a", ["in1"], "ih-a", [("K", "v")], "old-cmd",
    ["out1"], []⟩)]⟩

def c2NewW : GraphSnapshot :=
  ⟨[("a", ⟨"a", "th-a2", ["in1", "in2"], "ih-a", [("K", "v")], "new-cmd",
    ["out1"], []⟩),
    ("b", ⟨"b", "th-b", [], "ih-b", [], "cmd-b", [], ["a"]⟩)]⟩

theorem c2_invalidation_map_witness :
    (c2NewW.nodes.map Prod.fst).Nodup ∧
    (List.Perm ((CalculateInvalidation (some c2OldW)
          (some c2NewW)).map Prod.fst)
        (c2NewW.nodes.map Prod.fst) ∧
      ∀ q ∈ CalculateInvalidation (some c2OldW) (some c2NewW),
        q.2.reasons.filter
            (fun r =>
              !decide (r.type' = ReasonType.dependencyInvalidated)) =
          Canonicalize (specDirectReasons c2NewW
            (lookupA (oldNodesOf (some c2OldW)) q.1)
            ((lookupA c2NewW.nodes q.1).getD default)) ∧
        q.2.invalidated = !q.2.reasons.isEmpty) :=
  ⟨by decide,
    c2_invalidation_map (some c2OldW) c2NewW (by decide) (by decide)
      (by decide)⟩

end SW

namespace SW

/-! ## C3: root-cause propagation of `CalculateInvalidation`. -/

theorem lookupA_append (l1 l2 : List (String × β)) (k : String) :
    lookupA (l1 ++ l2) k =
      match lookupA l1 k with
      | some v => some v
      | none => lookupA l2 k := by
  induction l1 with
  | nil => simp [lookupA]
  | cons kv t ih =>
    obtain ⟨k', v'⟩ := kv
    by_cases he : k' = k
    · subst he
      simp [lookupA_cons]
    · rw [List.cons_append, lookupA_cons, if_neg he, ih, lookupA_cons,
        if_neg he]

theorem lookupA_eq_none_of_not_mem_keys (m : List (String × β))
    (k : String) (h : k ∉ m.map Prod.fst) : lookupA m k = none := by
  cases hl : lookupA m k with
  | none => rfl
  | some v =>
    exact absurd ((lookupA_isSome_iff_mem_keys m k).mp (by rw [hl]; rfl)) h

/-- The `invalidated` flag an invalidation map records for a name
(false for an absent name). -/
def invFlagOf (m : InvalidationMap) (name : String) : Bool :=
  match lookupA m name with
  | some e => e.invalidated
  | none => false

/-- The normalized upstream parent set of a node of the snapshot. -/
def parentsOf (newG : GraphSnapshot) (name : String) : List String :=
  normalizeStringSet ((lookupA newG.nodes name).getD default).upstream

/-- The claim's root-cause source set for a node: the union (sorted,
deduplicated) of the root sets of its invalidated upstreams. -/
def specDepSources (newG : GraphSnapshot) (m : InvalidationMap)
    (roots : String → List String) (name : String) : List String :=
  normalizeStringSet (((parentsOf newG name).map
    (fun p => if invFlagOf m p then roots p else [])).flatten)

/-- The lexically sorted node-name list of a snapshot. -/
def namesOf (newG : GraphSnapshot) : List String :=
  sortStrings (newG.nodes.map Prod.fst)

/-- The deterministic processing order `CalculateInvalidation` uses. -/
def topoOf (newG : GraphSnapshot) : List String :=
  topoOrder (namesOf newG) (outgoingOf newG (namesOf newG)) (indegOf newG)

/-- The full fold state of `CalculateInvalidation` (map and per-node
root-cause sets). -/
def calcFoldOf (oldGraph : Option GraphSnapshot) (newG : GraphSnapshot) :
    InvalidationMap × (String → List String) :=
  (topoOf newG).foldl (calcStep newG (oldNodesOf oldGraph))
    ([], fun _ => [])

theorem CalculateInvalidation_eq (oldGraph : Option GraphSnapshot)
    (newG : GraphSnapshot) (hz : newG.nodes.length ≠ 0) :
    CalculateInvalidation oldGraph (some newG) =
      (calcFoldOf oldGraph newG).1 := by
  rw [CalculateInvalidation, if_neg hz]
  rfl

/-- A processing order is prefix-closed when every existing upstream
parent of each node is listed before the node (the defining property of
a topological order of a DAG). -/
def prefixClosedAux (newG : GraphSnapshot) :
    List String → List String → Bool
  | _, [] => true
  | seen, n :: rest =>
    ((parentsOf newG n).all (fun p =>
      !(lookupA newG.nodes p).isSome || seen.contains p)) &&
    prefixClosedAux newG (seen ++ [n]) rest

def planPrefixClosed (newG : GraphSnapshot) : Bool :=
  prefixClosedAux newG [] (topoOf newG)

theorem collect_eq (m : InvalidationMap) (roots : String → List String)
    (l : List String) :
    ∀ s : List String,
      l.foldl (fun s parent =>
        match lookupA m parent with
        | some pEntry =>
          if pEntry.invalidated then s ++ roots parent else s
        | none => s) s =
      s ++ (l.map (fun p => if invFlagOf m p then roots p else [])).flatten :=
  by
  induction l with
  | nil => intro s; simp
  | cons p t ih =>
    intro s
    rw [List.foldl_cons, List.map_cons, List.flatten_cons]
    have hstep : (match lookupA m p with
        | some pEntry =>
          if pEntry.invalidated then s ++ roots p else s
        | none => s) =
        s ++ (if invFlagOf m p then roots p else []) := by
      rw [invFlagOf]
      cases lookupA m p with
      | none => simp
      | some pe =>
        by_cases hinv : pe.invalidated = true
        · simp [hinv]
        · rw [Bool.not_eq_true] at hinv
          simp [hinv]
    rw [hstep, ih, List.append_assoc]

theorem mkDep_inj : Function.Injective (fun src =>
    (⟨.dependencyInvalidated, src, []⟩ : InvalidationReason)) := by
  intro a b h
  simpa using h

/-- A dependency-reason list built from a sorted duplicate-free source
list is already canonical. -/
theorem Canonicalize_depMap (srcs : List String)
    (hs : srcs.Pairwise (fun a b => strLe a b = true)) (hn : srcs.Nodup) :
    Canonicalize (srcs.map (fun src =>
      (⟨.dependencyInvalidated, src, []⟩ : InvalidationReason))) =
    srcs.map (fun src =>
      (⟨.dependencyInvalidated, src, []⟩ : InvalidationReason)) := by
  have hcan : (srcs.map (fun src =>
      (⟨.dependencyInvalidated, src, []⟩ : InvalidationReason))).map
        InvalidationReason.canonical =
      srcs.map (fun src =>
        (⟨.dependencyInvalidated, src, []⟩ : InvalidationReason)) := by
    rw [List.map_map]
    exact List.map_congr_left (fun a _ => rfl)
  have hpw : (srcs.map (fun src =>
      (⟨.dependencyInvalidated, src, []⟩ : InvalidationReason))).Pairwise
        (fun a b => leOfLt reasonLt a b = true) := by
    rw [List.pairwise_map]
    refine (hs.and hn).imp ?_
    intro a b hab
    obtain ⟨hle, hne⟩ := hab
    have hlt : strLt a b = true := (strLt_iff a b).mpr ⟨hle, hne⟩
    have hba : strLt b a = false := strLt_asym a b hlt
    rw [leOfLt, reasonLt]
    simp only [ne_eq]
    rw [if_neg (by simp)]
    rw [if_pos (by simpa using fun he => hne he.symm)]
    rw [hba]
    rfl
  have hnd : (srcs.map (fun src =>
      (⟨.dependencyInvalidated, src, []⟩ : InvalidationReason))).Nodup :=
    hn.map mkDep_inj
  rw [Canonicalize, hcan, sortLe_eq_self_of_pairwise _ _ hpw,
    dedupAdj_eq_self_of_nodup _ hnd]

end SW

namespace SW

theorem invFlagOf_append (m : InvalidationMap) (k : String)
    (e : InvalidationEntry) (p : String) (hp : p ≠ k) :
    invFlagOf (m ++ [(k, e)]) p = invFlagOf m p := by
  rw [invFlagOf, invFlagOf, lookupA_append]
  cases lookupA m p with
  | some v => rfl
  | none =>
    show (match lookupA [(k, e)] p with
      | some e => e.invalidated
      | none => false) = false
    rw [lookupA_cons, if_neg (fun he => hp he.symm)]
    rfl

theorem lookupA_append_self (m : InvalidationMap) (k : String)
    (e : InvalidationEntry) (h : k ∉ m.map Prod.fst) :
    lookupA (m ++ [(k, e)]) k = some e := by
  rw [lookupA_append, lookupA_eq_none_of_not_mem_keys m k h]
  show lookupA [(k, e)] k = some e
  rw [lookupA_cons, if_pos rfl]

theorem lookupA_append_of_isSome (m : List (String × β))
    (l2 : List (String × β)) (k : String)
    (h : (lookupA m k).isSome = true) :
    lookupA (m ++ l2) k = lookupA m k := by
  rw [lookupA_append]
  cases hm : lookupA m k with
  | none => rw [hm] at h; exact absurd h (by simp)
  | some v => rfl

theorem specDepSources_stable (newG : GraphSnapshot)
    (m m' : InvalidationMap) (roots roots' : String → List String)
    (name : String)
    (h : ∀ p ∈ parentsOf newG name,
      invFlagOf m' p = invFlagOf m p ∧
        (invFlagOf m p = true → roots' p = roots p)) :
    specDepSources newG m' roots' name =
      specDepSources newG m roots name := by
  rw [specDepSources, specDepSources]
  congr 1
  congr 1
  apply List.map_congr_left
  intro p hp
  obtain ⟨h1, h2⟩ := h p hp
  rw [h1]
  by_cases hf : invFlagOf m p = true
  · rw [if_pos hf, if_pos hf, h2 hf]
  · rw [Bool.not_eq_true] at hf
    rw [hf]
    simp

theorem envNodup_of (newG : GraphSnapshot)
    (henv : ∀ q ∈ newG.nodes, ((q.2.env.map Prod.fst)).Nodup)
    (name : String) :
    ((((lookupA newG.nodes name).getD default).env.map Prod.fst)).Nodup := by
  cases hl : lookupA newG.nodes name with
  | none => simp [NodeSnapshot.zero, default]
  | some n =>
    simp only [Option.getD_some]
    exact henv (name, n) (mem_of_lookupA_eq _ _ _ hl)

theorem envNodupOld_of (oldNodes : List (String × NodeSnapshot))
    (hoenv : ∀ q ∈ oldNodes, ((q.2.env.map Prod.fst)).Nodup)
    (name : String) :
    ∀ o ∈ lookupA oldNodes name, (o.env.map Prod.fst).Nodup := by
  intro o ho
  exact hoenv (name, o) (mem_of_lookupA_eq _ _ _ (Option.mem_def.mp ho))

theorem directReasonsFor_nonDep (newG : GraphSnapshot) (t : String)
    (old? : Option NodeSnapshot) (n : NodeSnapshot)
    (hn : ((n.env.map Prod.fst)).Nodup)
    (ho : ∀ o ∈ old?, (o.env.map Prod.fst).Nodup) :
    ∀ r ∈ directReasonsFor newG t old? n,
      r.type' ≠ ReasonType.dependencyInvalidated := by
  intro r hr
  rw [directReasonsFor_eq_spec newG t old? n hn ho, mem_Canonicalize] at hr
  rcases List.mem_map.mp hr with ⟨y, hy, rfl⟩
  rw [canonical_type]
  exact specDirectReasons_nonDep newG old? n y hy

/-- Extracting the dependency-typed reasons of a canonicalized
direct-plus-dependency reason list recovers exactly the (sorted,
duplicate-free) source list. -/
theorem filter_dep_reasons (newG : GraphSnapshot) (t : String)
    (old? : Option NodeSnapshot) (n : NodeSnapshot) (srcs : List String)
    (hn : ((n.env.map Prod.fst)).Nodup)
    (ho : ∀ o ∈ old?, (o.env.map Prod.fst).Nodup)
    (hs : srcs.Pairwise (fun a b => strLe a b = true)) (hnd : srcs.Nodup) :
    (Canonicalize (directReasonsFor newG t old? n ++ srcs.map (fun src =>
      (⟨.dependencyInvalidated, src, []⟩ : InvalidationReason)))).filter
        (fun r => decide (r.type' = ReasonType.dependencyInvalidated)) =
    srcs.map (fun src =>
      (⟨.dependencyInvalidated, src, []⟩ : InvalidationReason)) := by
  have hp : ∀ r : InvalidationReason,
      (fun r => decide (r.type' = ReasonType.dependencyInvalidated))
          r.canonical =
      (fun r => decide (r.type' = ReasonType.dependencyInvalidated)) r := by
    intro r
    simp [canonical_type]
  rw [filter_Canonicalize _ hp, List.filter_append]
  have hdir : (directReasonsFor newG t old? n).filter
      (fun r => decide (r.type' = ReasonType.dependencyInvalidated)) = [] :=
    by
    rw [List.filter_eq_nil_iff]
    intro a ha
    have hne := directReasonsFor_nonDep newG t old? n hn ho a ha
    simp [hne]
  have hdep : (srcs.map (fun src =>
      (⟨.dependencyInvalidated, src, []⟩ : InvalidationReason))).filter
        (fun r => decide (r.type' = ReasonType.dependencyInvalidated)) =
      srcs.map (fun src =>
        (⟨.dependencyInvalidated, src, []⟩ : InvalidationReason)) := by
    rw [List.filter_eq_self]
    intro a ha
    rcases List.mem_map.mp ha with ⟨y, _, rfl⟩
    simp
  rw [hdir, hdep, List.nil_append, Canonicalize_depMap srcs hs hnd]

/-- The reasons `calcStep` records for the processed node. -/
def stepReasons (newG : GraphSnapshot)
    (oldNodes : List (String × NodeSnapshot))
    (acc : InvalidationMap × (String → List String)) (name : String) :
    List InvalidationReason :=
  Canonicalize (directReasonsFor newG name (lookupA oldNodes name)
      ((lookupA newG.nodes name).getD default) ++
    (specDepSources newG acc.1 acc.2 name).map (fun src =>
      (⟨.dependencyInvalidated, src, []⟩ : InvalidationReason)))

/-- The root-cause set `calcStep` records for the processed node. -/
def stepRoots (newG : GraphSnapshot)
    (oldNodes : List (String × NodeSnapshot))
    (acc : InvalidationMap × (String → List String)) (name : String) :
    List String :=
  if !(stepReasons newG oldNodes acc name).isEmpty then
    normalizeStringSet
      ((if 0 < (directReasonsFor newG name (lookupA oldNodes name)
          ((lookupA newG.nodes name).getD default)).length
        then [name] else []) ++ specDepSources newG acc.1 acc.2 name)
  else []

theorem calcStep_eq (newG : GraphSnapshot)
    (oldNodes : List (String × NodeSnapshot))
    (acc : InvalidationMap × (String → List String)) (name : String) :
    calcStep newG oldNodes acc name =
      (acc.1 ++ [(name, ⟨!(stepReasons newG oldNodes acc name).isEmpty,
          stepReasons newG oldNodes acc name⟩)],
       fun k => if k = name then stepRoots newG oldNodes acc name
         else acc.2 k) := by
  have hcol := collect_eq acc.1 acc.2
    (normalizeStringSet ((lookupA newG.nodes name).getD default).upstream) []
  rw [List.nil_append] at hcol
  simp only [calcStep]
  rw [hcol]
  simp only [stepReasons, stepRoots, specDepSources, parentsOf]

end SW

namespace SW

/-- The C3 invariant of the processing fold: for every recorded entry,
its dependency-typed reasons are exactly one per root-cause source of
its invalidated upstreams (sorted by source name), and its recorded
root set follows the claim rule (itself when it has direct reasons,
plus the union of the root sets of its invalidated upstreams). -/
def c3Inv (newG : GraphSnapshot) (oldNodes : List (String × NodeSnapshot))
    (acc : InvalidationMap × (String → List String)) : Prop :=
  ∀ name e, lookupA acc.1 name = some e →
    (e.reasons.filter (fun r =>
        decide (r.type' = ReasonType.dependencyInvalidated)) =
      (specDepSources newG acc.1 acc.2 name).map (fun src =>
        (⟨.dependencyInvalidated, src, []⟩ : InvalidationReason)) ∧
     acc.2 name =
      (if e.invalidated = true then
        normalizeStringSet
          ((if 0 < (directReasonsFor newG name (lookupA oldNodes name)
              ((lookupA newG.nodes name).getD default)).length
            then [name] else []) ++ specDepSources newG acc.1 acc.2 name)
       else []))

theorem c3Inv_step (newG : GraphSnapshot)
    (oldNodes : List (String × NodeSnapshot))
    (henv : ∀ q ∈ newG.nodes, ((q.2.env.map Prod.fst)).Nodup)
    (hoenv : ∀ q ∈ oldNodes, ((q.2.env.map Prod.fst)).Nodup)
    (acc : InvalidationMap × (String → List String)) (n : String)
    (hninkeys : n ∉ acc.1.map Prod.fst)
    (hexists : (lookupA newG.nodes n).isSome = true)
    (hchk : ∀ p ∈ parentsOf newG n,
      (lookupA newG.nodes p).isSome = true → p ∈ acc.1.map Prod.fst)
    (hpar : ∀ name ∈ acc.1.map Prod.fst, ∀ p ∈ parentsOf newG name,
      (lookupA newG.nodes p).isSome = true → p ∈ acc.1.map Prod.fst)
    (hinv : c3Inv newG oldNodes acc) :
    c3Inv newG oldNodes (calcStep newG oldNodes acc n) := by
  have hstab : ∀ nm : String,
      (∀ p ∈ parentsOf newG nm, (lookupA newG.nodes p).isSome = true →
        p ∈ acc.1.map Prod.fst) →
      specDepSources newG
          (acc.1 ++ [(n, ⟨!(stepReasons newG oldNodes acc n).isEmpty,
            stepReasons newG oldNodes acc n⟩)])
          (fun k => if k = n then stepRoots newG oldNodes acc n
            else acc.2 k) nm =
        specDepSources newG acc.1 acc.2 nm := by
    intro nm hnm
    apply specDepSources_stable
    intro p hp
    have hpn : p ≠ n := by
      by_cases hex : (lookupA newG.nodes p).isSome = true
      · intro he
        exact hninkeys (he ▸ hnm p hp hex)
      · intro he
        exact hex (he ▸ hexists)
    refine ⟨invFlagOf_append acc.1 n _ p hpn, ?_⟩
    intro _
    rw [if_neg hpn]
  intro name e hlook
  rw [calcStep_eq] at hlook
  dsimp only at hlook
  rw [lookupA_append] at hlook
  rw [calcStep_eq]
  dsimp only
  cases hm : lookupA acc.1 name with
  | some e0 =>
    rw [hm] at hlook
    dsimp only at hlook
    have hee : e = e0 := (Option.some.inj hlook).symm
    subst hee
    have hnamek : name ∈ acc.1.map Prod.fst :=
      (lookupA_isSome_iff_mem_keys _ _).mp (by rw [hm]; rfl)
    have hnamen : name ≠ n := fun he => hninkeys (he ▸ hnamek)
    obtain ⟨hc1, hc2⟩ := hinv name e hm
    rw [hstab name (hpar name hnamek)]
    refine ⟨hc1, ?_⟩
    rw [if_neg hnamen]
    exact hc2
  | none =>
    rw [hm] at hlook
    dsimp only at hlook
    rw [lookupA_cons] at hlook
    by_cases hne : n = name
    · subst hne
      have hee : e = ⟨!(stepReasons newG oldNodes acc n).isEmpty,
          stepReasons newG oldNodes acc n⟩ :=
        (Option.some.inj (by rw [if_pos rfl] at hlook; exact hlook)).symm
      subst hee
      rw [hstab n hchk]
      constructor
      · show (stepReasons newG oldNodes acc n).filter _ = _
        rw [stepReasons]
        refine filter_dep_reasons newG n (lookupA oldNodes n) _ _
          (envNodup_of newG henv n) (envNodupOld_of oldNodes hoenv n)
          ?_ ?_
        · rw [specDepSources]
          exact pairwise_normalizeStringSet _
        · rw [specDepSources]
          exact nodup_normalizeStringSet _
      · rw [if_pos rfl]
        rfl
    · rw [if_neg hne] at hlook
      exact absurd hlook (by simp [lookupA])

theorem calcFold_c3 (newG : GraphSnapshot)
    (oldNodes : List (String × NodeSnapshot))
    (henv : ∀ q ∈ newG.nodes, ((q.2.env.map Prod.fst)).Nodup)
    (hoenv : ∀ q ∈ oldNodes, ((q.2.env.map Prod.fst)).Nodup) :
    ∀ (rest done : List String)
      (acc : InvalidationMap × (String → List String)),
      acc.1.map Prod.fst = done →
      (done ++ rest).Nodup →
      (∀ x ∈ done ++ rest, (lookupA newG.nodes x).isSome = true) →
      (∀ name ∈ done, ∀ p ∈ parentsOf newG name,
        (lookupA newG.nodes p).isSome = true → p ∈ done) →
      prefixClosedAux newG done rest = true →
      c3Inv newG oldNodes acc →
      c3Inv newG oldNodes (rest.foldl (calcStep newG oldNodes) acc) := by
  intro rest
  induction rest with
  | nil =>
    intro done acc _ _ _ _ _ hinv
    simpa using hinv
  | cons n t ih =>
    intro done acc hkeys hnd hmem hpar hpc hinv
    rw [List.foldl_cons]
    simp only [prefixClosedAux, Bool.and_eq_true] at hpc
    obtain ⟨hchk0, hpc'⟩ := hpc
    have hchk : ∀ p ∈ parentsOf newG n,
        (lookupA newG.nodes p).isSome = true → p ∈ done := by
      intro p hp hex
      have hb := List.all_eq_true.mp hchk0 p hp
      rcases (Bool.or_eq_true _ _).mp hb with h | h
      · rw [Bool.not_eq_true'] at h
        rw [hex] at h
        cases h
      · simpa using h
    have hninkeys : n ∉ acc.1.map Prod.fst := by
      rw [hkeys]
      intro hc
      obtain ⟨_, _, hdisj⟩ := List.nodup_append.mp hnd
      exact hdisj hc (List.mem_cons_self n t)
    have hexists : (lookupA newG.nodes n).isSome = true :=
      hmem n (by simp)
    have hstep := c3Inv_step newG oldNodes henv hoenv acc n hninkeys
      hexists (by rw [hkeys]; exact hchk)
      (by rw [hkeys]; exact hpar) hinv
    refine ih (done ++ [n]) (calcStep newG oldNodes acc n) ?_ ?_ ?_ ?_
      hpc' hstep
    · rw [calcStep_fst, hkeys]
    · have : done ++ n :: t = (done ++ [n]) ++ t := by
        simp [List.append_assoc]
      rw [← this]
      exact hnd
    · intro x hx
      apply hmem
      simp only [List.append_assoc, List.singleton_append] at hx
      exact hx
    · intro name hname p hp hex
      rcases List.mem_append.mp hname with h | h
      · exact List.mem_append.mpr (Or.inl (hpar name h p hp hex))
      · rcases List.mem_singleton.mp h with rfl
        exact List.mem_append.mpr (Or.inl (hchk p hp hex))

end SW

namespace SW

/-- C3: in `CalculateInvalidation`, every entry's dependency-typed
reasons are exactly one `DependencyInvalidated(source=X)` per root cause
`X` of its invalidated upstreams, sorted by source name (the map over
the sorted deduplicated `specDepSources`), and the root set recorded for
the node while processing in topological order is: the node itself if
its own direct (non-dependency) reasons are non-empty, plus the union of
the root sets of its invalidated upstreams — exactly the claim's rule.
Hypotheses: duplicate-free node/env keys (Go map invariants) and a
prefix-closed processing order (the defining property of the topological
order on a DAG; on a cyclic input the source falls back to lexical order,
where the rule's recursion is not well defined). -/
theorem c3_root_cause_propagation (oldGraph : Option GraphSnapshot)
    (newG : GraphSnapshot)
    (hkeys : (newG.nodes.map Prod.fst).Nodup)
    (henv : ∀ q ∈ newG.nodes, ((q.2.env.map Prod.fst)).Nodup)
    (hoenv : ∀ og ∈ oldGraph, ∀ q ∈ og.nodes,
      ((q.2.env.map Prod.fst)).Nodup)
    (hpc : planPrefixClosed newG = true)
    (hz : newG.nodes.length ≠ 0) :
    ∀ q ∈ CalculateInvalidation oldGraph (some newG),
      (q.2.reasons.filter (fun r =>
          decide (r.type' = ReasonType.dependencyInvalidated)) =
        (specDepSources newG (CalculateInvalidation oldGraph (some newG))
          (calcFoldOf oldGraph newG).2 q.1).map (fun src =>
            (⟨.dependencyInvalidated, src, []⟩ : InvalidationReason)) ∧
      (calcFoldOf oldGraph newG).2 q.1 =
        (if q.2.invalidated = true then
          normalizeStringSet
            ((if q.2.reasons.filter (fun r =>
                !decide (r.type' = ReasonType.dependencyInvalidated)) ≠ []
              then [q.1] else []) ++
             specDepSources newG
               (CalculateInvalidation oldGraph (some newG))
               (calcFoldOf oldGraph newG).2 q.1)
         else [])) := by
  have hoenv' : ∀ q ∈ oldNodesOf oldGraph,
      ((q.2.env.map Prod.fst)).Nodup := by
    cases oldGraph with
    | none => intro q hq; exact absurd hq (by simp [oldNodesOf])
    | some og => exact hoenv og rfl
  have hCI : CalculateInvalidation oldGraph (some newG) =
      (calcFoldOf oldGraph newG).1 := CalculateInvalidation_eq _ _ hz
  have houts : ∀ n, ∀ m ∈ outgoingOf newG (namesOf newG) n,
      m ∈ namesOf newG := by
    intro n m hm
    rw [outgoingOf, mem_sortStrings, List.mem_filter] at hm
    exact hm.1
  have htopo_perm : List.Perm (topoOf newG) (namesOf newG) :=
    topoOrder_perm _ _ _ (sortStrings_nodup _ hkeys) houts
  have htopo_nodup : (topoOf newG).Nodup :=
    htopo_perm.nodup_iff.mpr (sortStrings_nodup _ hkeys)
  have htopo_mem : ∀ x ∈ topoOf newG,
      (lookupA newG.nodes x).isSome = true := by
    intro x hx
    have : x ∈ newG.nodes.map Prod.fst := by
      have := htopo_perm.mem_iff.mp hx
      rwa [namesOf, mem_sortStrings] at this
    exact (lookupA_isSome_iff_mem_keys _ _).mpr this
  have hc3 : c3Inv newG (oldNodesOf oldGraph) (calcFoldOf oldGraph newG) :=
    calcFold_c3 newG (oldNodesOf oldGraph) henv hoenv' (topoOf newG) []
      ([], fun _ => []) rfl (by simpa using htopo_nodup)
      (by intro x hx; exact htopo_mem x (by simpa using hx))
      (by intro name hname; exact absurd hname (by simp))
      hpc
      (by intro name e h; exact absurd h (by simp [lookupA]))
  intro q hq
  obtain ⟨name, e⟩ := q
  rw [hCI] at hq
  have hkeysfold : (calcFoldOf oldGraph newG).1.map Prod.fst =
      topoOf newG := by
    rw [calcFoldOf, calcFold_keys, List.map_nil, List.nil_append]
  have hlook : lookupA (calcFoldOf oldGraph newG).1 name = some e :=
    lookupA_eq_of_mem_of_nodup _ _ _ (by rw [hkeysfold]; exact htopo_nodup)
      hq
  obtain ⟨hc1, hc2⟩ := hc3 name e hlook
  have hshape : entryShape newG (oldNodesOf oldGraph) name e := by
    have := calcFold_entries newG (oldNodesOf oldGraph) (topoOf newG)
      ([], fun _ => []) (by intro p hp; exact absurd hp (by simp))
      (name, e) hq
    exact this
  have hn := envNodup_of newG henv name
  have ho := envNodupOld_of (oldNodesOf oldGraph) hoenv' name
  have hfd : e.reasons.filter (fun r =>
      !decide (r.type' = ReasonType.dependencyInvalidated)) =
      directReasonsFor newG name (lookupA (oldNodesOf oldGraph) name)
        ((lookupA newG.nodes name).getD default) :=
    (filter_nonDep_of_shape newG (oldNodesOf oldGraph) name e hshape hn
      ho).trans
      (directReasonsFor_eq_spec newG name _ _ hn ho).symm
  rw [hCI]
  refine ⟨hc1, ?_⟩
  have hif : (if e.reasons.filter (fun r =>
        !decide (r.type' = ReasonType.dependencyInvalidated)) ≠ []
      then [name] else []) =
      (if 0 < (directReasonsFor newG name (lookupA (oldNodesOf oldGraph)
          name) ((lookupA newG.nodes name).getD default)).length
        then [name] else []) := by
    rw [hfd]
    exact if_congr List.length_pos.symm rfl rfl
  rw [hif]
  exact hc2

/-- A three-node chain for the C3 witness: only `a` changed (its
command); invalidation must propagate the root cause `a` to both `b`
and `c`. -/
def c3OldW : GraphSnapshot :=
  ⟨[("a", ⟨"a", "th-a", [], "ih-a", [], "cmd-1", [], []⟩),
    ("b", ⟨"b", "th-b", [], "ih-b", [], "cmd-b", [], ["a"]⟩),
    ("c", ⟨"c", "th-c", [], "ih-c", [], "cmd-c", [], ["b"]⟩)]⟩

def c3NewW : GraphSnapshot :=
  ⟨[("a", ⟨"a", "th-a", [], "ih-a", [], "cmd-2", [], []⟩),
    ("b", ⟨"b", "th-b", [], "ih-b", [], "cmd-b", [], ["a"]⟩),
    ("c", ⟨"c", "th-c", [], "ih-c", [], "cmd-c", [], ["b"]⟩)]⟩

theorem c3_root_cause_propagation_witness :
    planPrefixClosed c3NewW = true ∧
    (∀ q ∈ CalculateInvalidation (some c3OldW) (some c3NewW),
      (q.2.reasons.filter (fun r =>
          decide (r.type' = ReasonType.dependencyInvalidated)) =
        (specDepSources c3NewW
          (CalculateInvalidation (some c3OldW) (some c3NewW))
          (calcFoldOf (some c3OldW) c3NewW).2 q.1).map (fun src =>
            (⟨.dependencyInvalidated, src, []⟩ : InvalidationReason)) ∧
      (calcFoldOf (some c3OldW) c3NewW).2 q.1 =
        (if q.2.invalidated = true then
          normalizeStringSet
            ((if q.2.reasons.filter (fun r =>
                !decide (r.type' = ReasonType.dependencyInvalidated)) ≠ []
              then [q.1] else []) ++
             specDepSources c3NewW
               (CalculateInvalidation (some c3OldW) (some c3NewW))
               (calcFoldOf (some c3OldW) c3NewW).2 q.1)
         else []))) :=
  ⟨by decide,
    c3_root_cause_propagation (some c3OldW) c3NewW (by decide) (by decide)
      (by decide) (by decide) (by decide)⟩

end SW

namespace SW

/-! ## C4: decision characterization of `BuildIncrementalPlan`. -/

theorem lookupA_append_single_ne (m : List (String × β)) (k : String)
    (v : β) (p : String) (hp : p ≠ k) :
    lookupA (m ++ [(k, v)]) p = lookupA m p := by
  rw [lookupA_append]
  cases hm : lookupA m p with
  | some w => rfl
  | none =>
    show lookupA [(k, v)] p = none
    rw [lookupA_cons, if_neg (fun he => hp he.symm)]
    rfl

theorem lookupA_snoc_self (m : List (String × β)) (k : String) (v : β)
    (h : k ∉ m.map Prod.fst) : lookupA (m ++ [(k, v)]) k = some v := by
  rw [lookupA_append, lookupA_eq_none_of_not_mem_keys m k h]
  show lookupA [(k, v)] k = some v
  rw [lookupA_cons, if_pos rfl]

/-- The claim's rule for a `ReuseCache` decision: not invalidated, task
hash known and present in the cache, and every direct upstream's looked
up decision is `ReuseCache`. -/
def reuseCond (graph : GraphSnapshot) (invalidation : InvalidationMap)
    (cache : String → Bool) (dec : List (String × NodeExecutionDecision))
    (name : String) : Prop :=
  ((lookupA invalidation name).getD
      InvalidationEntry.zero).invalidated = false ∧
  ((lookupA graph.nodes name).getD default).taskHash ≠ "" ∧
  cache ((lookupA graph.nodes name).getD default).taskHash = true ∧
  ∀ p ∈ parentsOf graph name,
    lookupA dec p = some NodeExecutionDecision.reuseCache

instance (graph : GraphSnapshot) (invalidation : InvalidationMap)
    (cache : String → Bool) (dec : List (String × NodeExecutionDecision))
    (name : String) :
    Decidable (reuseCond graph invalidation cache dec name) := by
  unfold reuseCond
  infer_instance

/-- The per-node step of the decision fold of `BuildIncrementalPlan`. -/
def planStep (graph : GraphSnapshot) (invalidation : InvalidationMap)
    (cache : String → Bool) (dec : List (String × NodeExecutionDecision))
    (name : String) : List (String × NodeExecutionDecision) :=
  let n := (lookupA graph.nodes name).getD default
  let inv := (lookupA invalidation name).getD InvalidationEntry.zero
  if inv.invalidated then dec ++ [(name, .execute)]
  else if n.taskHash = "" then dec ++ [(name, .execute)]
  else if cache n.taskHash = false then dec ++ [(name, .execute)]
  else if (normalizeStringSet n.upstream).all
      (fun p => decide (lookupA dec p = some .reuseCache)) then
    dec ++ [(name, .reuseCache)]
  else dec ++ [(name, .execute)]

theorem BuildIncrementalPlan_eq (graph : GraphSnapshot)
    (invalidation : InvalidationMap) (cache : String → Bool)
    (hz : ¬ graph.nodes.length = 0) :
    BuildIncrementalPlan (some graph) invalidation cache =
      ⟨(if (topoOf graph).length ≠ (namesOf graph).length
          then sortStrings (namesOf graph) else topoOf graph),
       (namesOf graph).foldl
         (fun (dec : List (String × NodeExecutionDecision)) name =>
           if (lookupA dec name).isSome then dec
           else dec ++ [(name, .execute)])
         ((topoOf graph).foldl (planStep graph invalidation cache) [])⟩ := by
  rw [BuildIncrementalPlan, if_neg hz]
  rfl

theorem planStep_eq (graph : GraphSnapshot) (invalidation : InvalidationMap)
    (cache : String → Bool) (dec : List (String × NodeExecutionDecision))
    (name : String) :
    planStep graph invalidation cache dec name =
      dec ++ [(name,
        if reuseCond graph invalidation cache dec name
        then NodeExecutionDecision.reuseCache
        else NodeExecutionDecision.execute)] := by
  rw [planStep]
  by_cases h1 : ((lookupA invalidation name).getD
      InvalidationEntry.zero).invalidated = true
  · rw [if_pos h1, if_neg (show
      ¬ reuseCond graph invalidation cache dec name from
        fun hc => by rw [hc.1] at h1; exact absurd h1 (by simp))]
  · rw [if_neg h1]
    have h1' : ((lookupA invalidation name).getD
        InvalidationEntry.zero).invalidated = false := by
      rwa [Bool.not_eq_true] at h1
    by_cases h2 : ((lookupA graph.nodes name).getD default).taskHash = ""
    · rw [if_pos h2, if_neg (show
        ¬ reuseCond graph invalidation cache dec name from
          fun hc => hc.2.1 h2)]
    · rw [if_neg h2]
      by_cases h3 : cache ((lookupA graph.nodes name).getD
          default).taskHash = false
      · rw [if_pos h3, if_neg (show
          ¬ reuseCond graph invalidation cache dec name from
            fun hc => by rw [hc.2.2.1] at h3; exact absurd h3 (by simp))]
      · rw [if_neg h3]
        have h3' : cache ((lookupA graph.nodes name).getD
            default).taskHash = true := by
          rwa [Bool.not_eq_false] at h3
        by_cases h4 : (normalizeStringSet ((lookupA graph.nodes name).getD
            default).upstream).all (fun p =>
              decide (lookupA dec p =
                some NodeExecutionDecision.reuseCache)) = true
        · rw [if_pos h4, if_pos (show
            reuseCond graph invalidation cache dec name from
              ⟨h1', h2, h3', by
                intro p hp
                have hp' : p ∈ normalizeStringSet
                    ((lookupA graph.nodes name).getD default).upstream := hp
                exact decide_eq_true_eq.mp
                  (List.all_eq_true.mp h4 p hp')⟩)]
        · rw [if_neg h4, if_neg (show
            ¬ reuseCond graph invalidation cache dec name from
              fun hc => h4 (List.all_eq_true.mpr (fun p hp =>
                decide_eq_true_eq.mpr (hc.2.2.2 p hp))))]

theorem planStep_fst (graph : GraphSnapshot)
    (invalidation : InvalidationMap) (cache : String → Bool)
    (dec : List (String × NodeExecutionDecision)) (name : String) :
    (planStep graph invalidation cache dec name).map Prod.fst =
      dec.map Prod.fst ++ [name] := by
  rw [planStep_eq]
  simp

theorem planFold_keys (graph : GraphSnapshot)
    (invalidation : InvalidationMap) (cache : String → Bool)
    (rest : List String) :
    ∀ dec : List (String × NodeExecutionDecision),
      (rest.foldl (planStep graph invalidation cache) dec).map Prod.fst =
        dec.map Prod.fst ++ rest := by
  induction rest with
  | nil => intro dec; simp
  | cons n t ih =>
    intro dec
    rw [List.foldl_cons, ih, planStep_fst, List.append_assoc,
      List.singleton_append]

theorem reuseCond_stable (graph : GraphSnapshot)
    (invalidation : InvalidationMap) (cache : String → Bool)
    (dec : List (String × NodeExecutionDecision)) (n : String)
    (d : NodeExecutionDecision) (name : String)
    (hpn : ∀ p ∈ parentsOf graph name, p ≠ n) :
    (reuseCond graph invalidation cache (dec ++ [(n, d)]) name ↔
      reuseCond graph invalidation cache dec name) := by
  have h4 : (∀ p ∈ parentsOf graph name,
      lookupA (dec ++ [(n, d)]) p =
        some NodeExecutionDecision.reuseCache) ↔
      (∀ p ∈ parentsOf graph name,
        lookupA dec p = some NodeExecutionDecision.reuseCache) := by
    constructor
    · intro h p hp
      have := h p hp
      rwa [lookupA_append_single_ne _ _ _ _ (hpn p hp)] at this
    · intro h p hp
      rw [lookupA_append_single_ne _ _ _ _ (hpn p hp)]
      exact h p hp
  rw [reuseCond, reuseCond, h4]

end SW

namespace SW

/-- The C4 invariant: every recorded decision satisfies the claim's
iff (`ReuseCache` exactly when not invalidated, hash known and cached,
and all upstream decisions `ReuseCache`). -/
def c4Inv (graph : GraphSnapshot) (invalidation : InvalidationMap)
    (cache : String → Bool)
    (dec : List (String × NodeExecutionDecision)) : Prop :=
  ∀ name d, lookupA dec name = some d →
    (d = NodeExecutionDecision.reuseCache ↔
      reuseCond graph invalidation cache dec name)

theorem c4Inv_step (graph : GraphSnapshot)
    (invalidation : InvalidationMap) (cache : String → Bool)
    (dec : List (String × NodeExecutionDecision)) (n : String)
    (hninkeys : n ∉ dec.map Prod.fst)
    (hn_ex : (lookupA graph.nodes n).isSome = true)
    (hchk : ∀ p ∈ parentsOf graph n,
      (lookupA graph.nodes p).isSome = true → p ∈ dec.map Prod.fst)
    (hpar : ∀ name ∈ dec.map Prod.fst, ∀ p ∈ parentsOf graph name,
      (lookupA graph.nodes p).isSome = true → p ∈ dec.map Prod.fst)
    (hinv : c4Inv graph invalidation cache dec) :
    c4Inv graph invalidation cache
      (planStep graph invalidation cache dec n) := by
  have hpn : ∀ nm : String,
      (∀ p ∈ parentsOf graph nm, (lookupA graph.nodes p).isSome = true →
        p ∈ dec.map Prod.fst) →
      ∀ p ∈ parentsOf graph nm, p ≠ n := by
    intro nm hnm p hp
    by_cases hex : (lookupA graph.nodes p).isSome = true
    · intro he
      exact hninkeys (he ▸ hnm p hp hex)
    · intro he
      exact hex (he ▸ hn_ex)
  intro name d hlook
  rw [planStep_eq] at hlook
  rw [planStep_eq]
  rw [lookupA_append] at hlook
  cases hm : lookupA dec name with
  | some d0 =>
    rw [hm] at hlook
    have hdd : d = d0 := (Option.some.inj hlook).symm
    subst hdd
    have hnamek : name ∈ dec.map Prod.fst :=
      (lookupA_isSome_iff_mem_keys _ _).mp (by rw [hm]; rfl)
    rw [reuseCond_stable graph invalidation cache dec n _ name
      (hpn name (hpar name hnamek))]
    exact hinv name d hm
  | none =>
    rw [hm] at hlook
    have hlook' : lookupA [(n,
        if reuseCond graph invalidation cache dec n
        then NodeExecutionDecision.reuseCache
        else NodeExecutionDecision.execute)] name = some d := hlook
    rw [lookupA_cons] at hlook'
    by_cases hne : n = name
    · subst hne
      rw [if_pos rfl] at hlook'
      have hdd : d = (if reuseCond graph invalidation cache dec n
          then NodeExecutionDecision.reuseCache
          else NodeExecutionDecision.execute) :=
        (Option.some.inj hlook').symm
      subst hdd
      rw [reuseCond_stable graph invalidation cache dec n _ n
        (hpn n hchk)]
      by_cases hc : reuseCond graph invalidation cache dec n
      · rw [if_pos hc]
        simp [hc]
      · rw [if_neg hc]
        simp [hc]
    · rw [if_neg hne] at hlook'
      exact absurd hlook' (by simp [lookupA])

theorem planFold_c4 (graph : GraphSnapshot)
    (invalidation : InvalidationMap) (cache : String → Bool) :
    ∀ (rest done : List String)
      (dec : List (String × NodeExecutionDecision)),
      dec.map Prod.fst = done →
      (done ++ rest).Nodup →
      (∀ x ∈ done ++ rest, (lookupA graph.nodes x).isSome = true) →
      (∀ name ∈ done, ∀ p ∈ parentsOf graph name,
        (lookupA graph.nodes p).isSome = true → p ∈ done) →
      prefixClosedAux graph done rest = true →
      c4Inv graph invalidation cache dec →
      c4Inv graph invalidation cache
        (rest.foldl (planStep graph invalidation cache) dec) := by
  intro rest
  induction rest with
  | nil =>
    intro done dec _ _ _ _ _ hinv
    simpa using hinv
  | cons n t ih =>
    intro done dec hkeys hnd hmem hpar hpc hinv
    rw [List.foldl_cons]
    simp only [prefixClosedAux, Bool.and_eq_true] at hpc
    obtain ⟨hchk0, hpc'⟩ := hpc
    have hchk : ∀ p ∈ parentsOf graph n,
        (lookupA graph.nodes p).isSome = true → p ∈ done := by
      intro p hp hex
      have hb := List.all_eq_true.mp hchk0 p hp
      rcases (Bool.or_eq_true _ _).mp hb with h | h
      · rw [Bool.not_eq_true'] at h
        rw [hex] at h
        cases h
      · simpa using h
    have hninkeys : n ∉ dec.map Prod.fst := by
      rw [hkeys]
      intro hc
      obtain ⟨_, _, hdisj⟩ := List.nodup_append.mp hnd
      exact hdisj hc (List.mem_cons_self n t)
    have hexists : (lookupA graph.nodes n).isSome = true :=
      hmem n (by simp)
    have hstep := c4Inv_step graph invalidation cache dec n hninkeys
      hexists (by rw [hkeys]; exact hchk) (by rw [hkeys]; exact hpar) hinv
    refine ih (done ++ [n]) (planStep graph invalidation cache dec n)
      ?_ ?_ ?_ ?_ hpc' hstep
    · rw [planStep_fst, hkeys]
    · have : done ++ n :: t = (done ++ [n]) ++ t := by
        simp [List.append_assoc]
      rw [← this]
      exact hnd
    · intro x hx
      apply hmem
      simp only [List.append_assoc, List.singleton_append] at hx
      exact hx
    · intro name hname p hp hex
      rcases List.mem_append.mp hname with h | h
      · exact List.mem_append.mpr (Or.inl (hpar name h p hp hex))
      · rcases List.mem_singleton.mp h with rfl
        exact List.mem_append.mpr (Or.inl (hchk p hp hex))

theorem completeFold_eq (names : List String)
    (dec : List (String × NodeExecutionDecision))
    (h : ∀ name ∈ names, (lookupA dec name).isSome = true) :
    names.foldl (fun (dec : List (String × NodeExecutionDecision)) name =>
      if (lookupA dec name).isSome then dec
      else dec ++ [(name, .execute)]) dec = dec := by
  induction names with
  | nil => rfl
  | cons n t ih =>
    rw [List.foldl_cons, if_pos (h n (by simp))]
    exact ih (fun name hm => h name (by simp [hm]))

end SW

namespace SW

/-- C4: `BuildIncrementalPlan` records exactly one decision per node of
the snapshot (keys are a duplicate-free permutation of the node names),
each decision is one of `Execute`/`ReuseCache` (no third state), and a
decision is `ReuseCache` iff the node is not invalidated, its task hash
is non-empty and present in the cache, and every direct upstream's
decision is `ReuseCache` (`reuseCond`).  Hypotheses: duplicate-free node
keys (Go map invariant) and a prefix-closed topological order (DAG; on a
cyclic snapshot the lexical fallback order can process a node before its
upstream and break the iff). -/
theorem c4_plan_decisions (graph : GraphSnapshot)
    (invalidation : InvalidationMap) (cache : String → Bool)
    (hkeys : (graph.nodes.map Prod.fst).Nodup)
    (hpc : planPrefixClosed graph = true) :
    List.Perm
      ((BuildIncrementalPlan (some graph) invalidation
        cache).decisions.map Prod.fst) (graph.nodes.map Prod.fst) ∧
    ((BuildIncrementalPlan (some graph) invalidation
        cache).decisions.map Prod.fst).Nodup ∧
    ∀ q ∈ (BuildIncrementalPlan (some graph) invalidation cache).decisions,
      (q.2 = NodeExecutionDecision.execute ∨
        q.2 = NodeExecutionDecision.reuseCache) ∧
      (q.2 = NodeExecutionDecision.reuseCache ↔
        reuseCond graph invalidation cache
          (BuildIncrementalPlan (some graph) invalidation cache).decisions
          q.1) := by
  by_cases hz : graph.nodes.length = 0
  · have hplan : BuildIncrementalPlan (some graph) invalidation cache =
        ⟨[], []⟩ := by
      rw [BuildIncrementalPlan, if_pos hz]
    rw [hplan]
    rw [List.length_eq_zero] at hz
    rw [hz]
    refine ⟨by simp, by simp, ?_⟩
    intro q hq
    exact absurd hq (by simp)
  · have hplan := BuildIncrementalPlan_eq graph invalidation cache hz
    have houts : ∀ n, ∀ m ∈ outgoingOf graph (namesOf graph) n,
        m ∈ namesOf graph := by
      intro n m hm
      rw [outgoingOf, mem_sortStrings, List.mem_filter] at hm
      exact hm.1
    have htopo_perm : List.Perm (topoOf graph) (namesOf graph) :=
      topoOrder_perm _ _ _ (sortStrings_nodup _ hkeys) houts
    have htopo_nodup : (topoOf graph).Nodup :=
      htopo_perm.nodup_iff.mpr (sortStrings_nodup _ hkeys)
    have htopo_mem : ∀ x ∈ topoOf graph,
        (lookupA graph.nodes x).isSome = true := by
      intro x hx
      have hxn : x ∈ graph.nodes.map Prod.fst := by
        have := htopo_perm.mem_iff.mp hx
        rwa [namesOf, mem_sortStrings] at this
      exact (lookupA_isSome_iff_mem_keys _ _).mpr hxn
    have hkeysF : ((topoOf graph).foldl
        (planStep graph invalidation cache) []).map Prod.fst =
        topoOf graph := by
      rw [planFold_keys]
      simp
    have hc4 : c4Inv graph invalidation cache
        ((topoOf graph).foldl (planStep graph invalidation cache) []) :=
      planFold_c4 graph invalidation cache (topoOf graph) [] [] rfl
        (by simpa using htopo_nodup)
        (by intro x hx; exact htopo_mem x (by simpa using hx))
        (by intro name h; exact absurd h (by simp))
        hpc
        (by intro name d h; exact absurd h (by simp [lookupA]))
    have hdec_eq : (BuildIncrementalPlan (some graph) invalidation
        cache).decisions =
        (topoOf graph).foldl (planStep graph invalidation cache) [] := by
      rw [hplan]
      exact completeFold_eq _ _ (by
        intro name hname
        rw [lookupA_isSome_iff_mem_keys, hkeysF]
        exact htopo_perm.mem_iff.mpr hname)
    rw [hdec_eq, hkeysF]
    refine ⟨htopo_perm.trans (by rw [namesOf]; exact sortLe_perm strLe _),
      htopo_nodup, ?_⟩
    intro q hq
    obtain ⟨name, d⟩ := q
    have hlook : lookupA ((topoOf graph).foldl
        (planStep graph invalidation cache) []) name = some d :=
      lookupA_eq_of_mem_of_nodup _ _ _ (by rw [hkeysF]; exact htopo_nodup)
        hq
    exact ⟨by cases d <;> simp, hc4 name d hlook⟩

/-- Two-node graph, invalidation map and cache index for the C4
witness: node a is invalidated, node b's hash is cached. -/
def c4GW : GraphSnapshot :=
  ⟨[("a", ⟨"a", "th-a", [], "ih-a", [], "cmd-a", [], []⟩),
    ("b", ⟨"b", "th-b", [], "ih-b", [], "cmd-b", [], ["a"]⟩)]⟩

def c4InvW : InvalidationMap :=
  [("a", ⟨true, [⟨.commandChanged, "", []⟩]⟩), ("b", ⟨false, []⟩)]

def c4CacheW : String → Bool := fun h => decide (h = "th-b")

theorem c4_plan_decisions_witness :
    planPrefixClosed c4GW = true ∧
    (List.Perm
      ((BuildIncrementalPlan (some c4GW) c4InvW
        c4CacheW).decisions.map Prod.fst) (c4GW.nodes.map Prod.fst) ∧
    ((BuildIncrementalPlan (some c4GW) c4InvW
        c4CacheW).decisions.map Prod.fst).Nodup ∧
    ∀ q ∈ (BuildIncrementalPlan (some c4GW) c4InvW c4CacheW).decisions,
      (q.2 = NodeExecutionDecision.execute ∨
        q.2 = NodeExecutionDecision.reuseCache) ∧
      (q.2 = NodeExecutionDecision.reuseCache ↔
        reuseCond c4GW c4InvW c4CacheW
          (BuildIncrementalPlan (some c4GW) c4InvW c4CacheW).decisions
          q.1)) :=
  ⟨by decide, c4_plan_decisions c4GW c4InvW c4CacheW (by decide)
    (by decide)⟩

end SW

namespace SW

/-! ## The dag executor (`Executor.RunSerial` / `Executor.RunParallel`).

The executor's collaborators — the task state machine (`Transition`,
`FailAndPropagate`, `GetReadyTasks`, `IsTerminal`, `IsSuccessful`), the
`TaskGraph` accessors and the `TaskRunner` interface — live outside the
analyzed sources and are modelled from the spec; the executor loops
themselves are translated from the source. -/

/-- Modelled from the spec: node lifecycle states. -/
inductive TaskState where
  | pending
  | running
  | cached
  | completed
  | failed
  | skipped
deriving DecidableEq, Repr

/-- Modelled from the spec: terminal set is
Completed, Cached, Failed, Skipped. -/
def IsTerminal (s : TaskState) : Bool :=
  match s with
  | .pending | .running => false
  | _ => true

/-- Modelled from the spec: a task counts as successfully finished in
Completed or Cached. -/
def IsSuccessful (s : TaskState) : Bool :=
  match s with
  | .completed | .cached => true
  | _ => false

/-- Modelled from the spec: `transition(state, name, from, to)` verifies
the expected from-state or returns a state-machine error. -/
def Transition (st : String → TaskState) (name : String)
    (src dst : TaskState) : Except String (String → TaskState) :=
  if st name = src then
    .ok (fun x => if x = name then dst else st x)
  else .error "invalid transition"

/-- Modelled from the spec: the executor's static graph — canonical node
list, direct upstream map and topological depth. -/
structure TaskGraph where
  nodes : List String
  parents : String → List String
  depth : String → Nat

/-- Downstream reachability (one widening pass per fuel unit). -/
def reachAux (g : TaskGraph) : Nat → List String → List String
  | 0, acc => acc
  | fuel + 1, acc =>
    let next := g.nodes.filter (fun c =>
      !acc.contains c && (g.parents c).any (fun p => acc.contains p))
    if next.isEmpty then acc else reachAux g fuel (acc ++ next)

def descendantsOf (g : TaskGraph) (n : String) : List String :=
  reachAux g g.nodes.length [n]

/-- Modelled from the spec: `fail_and_propagate` marks the task Failed
and every still-Pending downstream descendant Skipped. -/
def FailAndPropagate (g : TaskGraph) (st : String → TaskState)
    (n : String) : String → TaskState :=
  fun x =>
    if x = n then .failed
    else if (descendantsOf g n).contains x && decide (st x = .pending)
    then .skipped
    else st x

/-- Modelled from the spec: `ready` returns the Pending tasks whose
direct upstreams are all successful, in deterministic (lexicographic)
order. -/
def GetReadyTasks (g : TaskGraph) (st : String → TaskState) :
    List String :=
  sortStrings (g.nodes.filter (fun n =>
    decide (st n = .pending) &&
      (g.parents n).all (fun p => IsSuccessful (st p))))

/-- Modelled from the spec: a task result (hash, output streams, exit
code). -/
structure NodeResult where
  hash : String
  stdout : String
  stderr : String
  exitCode : Nat
deriving DecidableEq, Repr

/-- Modelled from the spec: the `TaskRunner` — a cache probe (`some`
result = cache hit), a run step, and optional `Restore` support (the Go
runner exposes `Restore` through a type assertion). All steps are
deterministic functions of the task name. -/
structure Runner where
  probe : String → Option NodeResult
  run : String → NodeResult
  restore : Option (String → NodeResult)

/-- The parts of `GraphResult` the claims speak about. -/
structure SerialResult where
  state : String → TaskState
  order : List String
  exitCodes : String → Nat

/-- The plan decision the serial loop reads for a ready task: the Go map
read `e.Plan.Decisions[next]` yields the zero value for a missing key,
which equals neither decision constant; `none` therefore covers both the
nil plan and a missing decision, and both fall through to the probe
path. -/
def planDecisionOf (plan : Option IncrementalPlan) (next : String) :
    Option NodeExecutionDecision :=
  match plan with
  | some p => lookupA p.decisions next
  | none => none

/-- `Executor.RunSerial`'s loop, one ready task per fuel unit. -/
def runSerialAux (g : TaskGraph) (runner : Runner)
    (plan : Option IncrementalPlan) :
    Nat → (String → TaskState) → List String → (String → Nat) →
      Except String SerialResult
  | 0, _, _, _ => .error "fuel exhausted"
  | fuel + 1, st, order, codes =>
    match GetReadyTasks g st with
    | [] =>
      if g.nodes.all (fun n => IsTerminal (st n)) then
        .ok ⟨st, order, codes⟩
      else .error "no ready tasks but graph not finished"
    | next :: _ =>
      match planDecisionOf plan next with
      | some NodeExecutionDecision.reuseCache =>
        match Transition st next .pending .running with
        | .error e => .error e
        | .ok st1 =>
          match runner.restore with
          | none => .error "runner does not support Restore"
          | some restore =>
            let res := restore next
            let order' := order ++ [next]
            let codes' := fun x => if x = next then res.exitCode
              else codes x
            if res.exitCode = 0 then
              match Transition st1 next .running .completed with
              | .error e => .error e
              | .ok st2 => runSerialAux g runner plan fuel st2 order' codes'
            else
              runSerialAux g runner plan fuel (FailAndPropagate g st1 next)
                order' codes'
      | some NodeExecutionDecision.execute =>
        match Transition st next .pending .running with
        | .error e => .error e
        | .ok st1 =>
          let res := runner.run next
          let order' := order ++ [next]
          let codes' := fun x => if x = next then res.exitCode else codes x
          if res.exitCode = 0 then
            match Transition st1 next .running .completed with
            | .error e => .error e
            | .ok st2 => runSerialAux g runner plan fuel st2 order' codes'
          else
            runSerialAux g runner plan fuel (FailAndPropagate g st1 next)
              order' codes'
      | none =>
        match runner.probe next with
        | some res =>
          match Transition st next .pending .cached with
          | .error e => .error e
          | .ok st1 =>
            runSerialAux g runner plan fuel st1 order
              (fun x => if x = next then res.exitCode else codes x)
        | none =>
          match Transition st next .pending .running with
          | .error e => .error e
          | .ok st1 =>
            let res := runner.run next
            let order' := order ++ [next]
            let codes' := fun x => if x = next then res.exitCode
              else codes x
            if res.exitCode = 0 then
              match Transition st1 next .running .completed with
              | .error e => .error e
              | .ok st2 => runSerialAux g runner plan fuel st2 order' codes'
            else
              runSerialAux g runner plan fuel (FailAndPropagate g st1 next)
                order' codes'

/-- `Executor.RunSerial`: every iteration drives one task to a terminal
state, so `|nodes| + 1` iterations reach the all-terminal return. -/
def RunSerial (g : TaskGraph) (runner : Runner)
    (plan : Option IncrementalPlan) : Except String SerialResult :=
  runSerialAux g runner plan (g.nodes.length + 1) (fun _ => .pending) []
    (fun _ => 0)

end SW

namespace SW

theorem Transition_ok (st : String → TaskState) (name : String)
    (src dst : TaskState) (st' : String → TaskState)
    (h : Transition st name src dst = .ok st') :
    st name = src ∧ st' = fun x => if x = name then dst else st x := by
  rw [Transition] at h
  split at h
  · exact ⟨by assumption, (Except.ok.inj h).symm⟩
  · exact absurd h (by simp)

theorem ready_mem_pending (g : TaskGraph) (st : String → TaskState)
    (n : String) (h : n ∈ GetReadyTasks g st) : st n = .pending := by
  rw [GetReadyTasks, mem_sortStrings, List.mem_filter] at h
  have := h.2
  simp only [Bool.and_eq_true, decide_eq_true_eq] at this
  exact this.1

theorem failProp_preserves (g : TaskGraph) (st : String → TaskState)
    (n x : String) (hxn : x ≠ n) (hx : st x = .completed) :
    FailAndPropagate g st n x = .completed := by
  simp only [FailAndPropagate]
  rw [if_neg hxn, hx]
  simp

/-- Once Completed, a task stays Completed in the serial loop's result. -/
theorem serial_completed_persists (g : TaskGraph) (runner : Runner)
    (plan : Option IncrementalPlan) :
    ∀ (fuel : Nat) (st : String → TaskState) (order : List String)
      (codes : String → Nat) (r : SerialResult),
      runSerialAux g runner plan fuel st order codes = .ok r →
      ∀ n, st n = .completed → r.state n = .completed := by
  intro fuel
  induction fuel with
  | zero =>
    intro st order codes r h
    simp [runSerialAux] at h
  | succ fuel ih =>
    intro st order codes r h n hn
    simp only [runSerialAux] at h
    split at h
    · split at h
      · rw [← Except.ok.inj h]
        exact hn
      · exact absurd h (by simp)
    · rename_i next rest hready
      have hpend : st next = .pending :=
        ready_mem_pending g st next (by rw [hready]; simp)
      have hne : n ≠ next := by
        intro he
        rw [he, hpend] at hn
        cases hn
      split at h
      · split at h
        · exact absurd h (by simp)
        · rename_i st1 heq1
          obtain ⟨_, hs1⟩ := Transition_ok st next .pending .running st1
            heq1
          have hst1 : st1 n = .completed := by
            rw [hs1]
            simp only [if_neg hne]
            exact hn
          split at h
          · exact absurd h (by simp)
          · split at h
            · split at h
              · exact absurd h (by simp)
              · rename_i st2 heq2
                obtain ⟨_, hs2⟩ := Transition_ok st1 next .running
                  .completed st2 heq2
                refine ih _ _ _ _ h n ?_
                rw [hs2]
                simp only [if_neg hne]
                exact hst1
            · exact ih _ _ _ _ h n (failProp_preserves g st1 next n hne
                hst1)
      · split at h
        · exact absurd h (by simp)
        · rename_i st1 heq1
          obtain ⟨_, hs1⟩ := Transition_ok st next .pending .running st1
            heq1
          have hst1 : st1 n = .completed := by
            rw [hs1]
            simp only [if_neg hne]
            exact hn
          split at h
          · split at h
            · exact absurd h (by simp)
            · rename_i st2 heq2
              obtain ⟨_, hs2⟩ := Transition_ok st1 next .running
                .completed st2 heq2
              refine ih _ _ _ _ h n ?_
              rw [hs2]
              simp only [if_neg hne]
              exact hst1
          · exact ih _ _ _ _ h n (failProp_preserves g st1 next n hne hst1)
      · split at h
        · split at h
          · exact absurd h (by simp)
          · rename_i st1 heq1
            obtain ⟨_, hs1⟩ := Transition_ok st next .pending .cached st1
              heq1
            refine ih _ _ _ _ h n ?_
            rw [hs1]
            simp only [if_neg hne]
            exact hn
        · split at h
          · exact absurd h (by simp)
          · rename_i st1 heq1
            obtain ⟨_, hs1⟩ := Transition_ok st next .pending .running st1
              heq1
            have hst1 : st1 n = .completed := by
              rw [hs1]
              simp only [if_neg hne]
              exact hn
            split at h
            · split at h
              · exact absurd h (by simp)
              · rename_i st2 heq2
                obtain ⟨_, hs2⟩ := Transition_ok st1 next .running
                  .completed st2 heq2
                refine ih _ _ _ _ h n ?_
                rw [hs2]
                simp only [if_neg hne]
                exact hst1
            · exact ih _ _ _ _ h n (failProp_preserves g st1 next n hne
                hst1)

end SW

namespace SW

/-- C5 (amended): in serial plan mode, a ready task whose plan decision
is `ReuseCache` and whose restoration exits 0 is committed
`Pending→Running` and then `Running→Completed` — not to `Cached` — so
its state in the loop, and in any successful result, is `Completed`. -/
theorem c5_plan_restore_completes (g : TaskGraph) (runner : Runner)
    (p : IncrementalPlan) (fuel : Nat) (st : String → TaskState)
    (order : List String) (codes : String → Nat) (next : String)
    (rest : List String) (f : String → NodeResult)
    (hready : GetReadyTasks g st = next :: rest)
    (hdec : lookupA p.decisions next =
      some NodeExecutionDecision.reuseCache)
    (hrest : runner.restore = some f)
    (hexit : (f next).exitCode = 0) :
    (runSerialAux g runner (some p) (fuel + 1) st order codes =
      runSerialAux g runner (some p) fuel
        (fun x => if x = next then TaskState.completed else st x)
        (order ++ [next])
        (fun x => if x = next then (f next).exitCode else codes x)) ∧
    ∀ r, runSerialAux g runner (some p) (fuel + 1) st order codes =
        Except.ok r → r.state next = TaskState.completed := by
  have hpend : st next = .pending :=
    ready_mem_pending g st next (by rw [hready]; simp)
  have hstep : runSerialAux g runner (some p) (fuel + 1) st order codes =
      runSerialAux g runner (some p) fuel
        (fun x => if x = next then TaskState.completed else st x)
        (order ++ [next])
        (fun x => if x = next then (f next).exitCode else codes x) := by
    have htr1 : Transition st next .pending .running = .ok
        (fun x => if x = next then TaskState.running else st x) := by
      rw [Transition, if_pos hpend]
    have htr2 : Transition
        (fun y => if y = next then TaskState.running else st y) next
        .running .completed = .ok
        (fun x => if x = next then TaskState.completed else
          (fun y => if y = next then TaskState.running else st y) x) := by
      rw [Transition, if_pos (by simp)]
    simp only [runSerialAux, hready, planDecisionOf, hdec, htr1, hrest]
    rw [if_pos hexit]
    simp only [htr2]
    have hst : (fun x => if x = next then TaskState.completed else
        (fun y => if y = next then TaskState.running else st y) x) =
        (fun x => if x = next then TaskState.completed else st x) := by
      funext x
      by_cases hx : x = next
      · simp [hx]
      · simp [hx]
    rw [hst]
  refine ⟨hstep, ?_⟩
  intro r hr
  rw [hstep] at hr
  exact serial_completed_persists g runner (some p) fuel _ _ _ r hr next
    (by simp)

/-- One-node graph whose plan restores the node from cache: the claim
predicts a final `Cached` state, the code commits `Completed`. -/
def c5G : TaskGraph := ⟨["A"], fun _ => [], fun _ => 0⟩

def c5Runner : Runner :=
  ⟨fun _ => none, fun _ => ⟨"h", "", "", 0⟩,
    some (fun _ => ⟨"rh", "", "", 0⟩)⟩

def c5Plan : IncrementalPlan := ⟨["A"], [("A", .reuseCache)]⟩

theorem c5_counterexample :
    (RunSerial c5G c5Runner (some c5Plan)).toOption.map
      (fun r => r.state "A") = some TaskState.completed ∧
    TaskState.completed ≠ TaskState.cached := by
  constructor
  · decide
  · decide

theorem c5_plan_restore_completes_witness :
    (runSerialAux c5G c5Runner (some c5Plan) 2 (fun _ => TaskState.pending)
        [] (fun _ => 0) =
      runSerialAux c5G c5Runner (some c5Plan) 1
        (fun x => if x = "A" then TaskState.completed
          else (fun _ => TaskState.pending) x)
        ([] ++ ["A"])
        (fun x => if x = "A" then
            ((fun _ => (⟨"rh", "", "", 0⟩ : NodeResult)) "A").exitCode
          else (fun _ => 0) x)) ∧
    ∀ r, runSerialAux c5G c5Runner (some c5Plan) 2
        (fun _ => TaskState.pending) [] (fun _ => 0) = Except.ok r →
      r.state "A" = TaskState.completed :=
  c5_plan_restore_completes c5G c5Runner c5Plan 1 (fun _ => .pending) []
    (fun _ => 0) "A" [] (fun _ => ⟨"rh", "", "", 0⟩) (by decide) (by decide)
    rfl (by decide)

end SW

namespace SW

/-! ## `buildResumePlan` (cli, `part_018`).

The planner walks the graph's topological order; collaborators — the
graph accessors (`TopologicalOrder`, sorted upstream map), the task
hasher (`computeTaskHash`), the checkpoint store and the cache — are
modelled from the spec as the parameters `order`, `upstream`, `hashOf`,
`checkpoints` and `cache`; a nil restore runner is `none`.  Each
`Restore` invocation is recorded in an explicit log so that claims about
how often restoration runs are statable. -/

/-- Modelled from the spec: a checkpoint record (`cache_keys`, first =
task hash string, and a validity flag). -/
structure Checkpoint where
  cacheKeys : List String
  valid : Bool
deriving DecidableEq

/-- The planner's state: decisions so far, tasks already restored, and
the log of `Restore` invocations. -/
structure ResumeState where
  dec : List (String × NodeExecutionDecision)
  restored : List String
  log : List String
deriving DecidableEq

/-- The upstream-restoration loop run before hashing a node: restore
each planned-reuse upstream that was not restored yet; a missing restore
runner or a failed restoration aborts planning. -/
def restoreUpstreams (restore? : Option (String → NodeResult))
    (dec : List (String × NodeExecutionDecision)) :
    List String → List String → List String →
      Except String (List String × List String)
  | restored, log, [] => .ok (restored, log)
  | restored, log, p :: ps =>
    if lookupA dec p = some NodeExecutionDecision.reuseCache ∧
        ¬ restored.contains p = true then
      match restore? with
      | none => .error "restore runner is required to build resume plan"
      | some f =>
        if (f p).exitCode = 0 then
          restoreUpstreams restore? dec (restored ++ [p]) (log ++ [p]) ps
        else .error "restoring for resume plan failed"
    else restoreUpstreams restore? dec restored log ps

/-- Checkpoint invalidation marker: no keys, empty first key, or first
key different from the computed task hash. -/
def cpInvalidated (cp : Checkpoint) (h : String) : Bool :=
  match cp.cacheKeys with
  | [] => true
  | k :: _ => if k = "" then true else decide (k ≠ h)

/-- The per-node planning loop of `buildResumePlan`. -/
def resumeAux (upstream : String → List String) (hashOf : String → String)
    (checkpoints : List (String × Checkpoint)) (cache : String → Bool)
    (restore? : Option (String → NodeResult)) :
    List String → ResumeState → Except String ResumeState
  | [], s => .ok s
  | name :: rest, s =>
    match restoreUpstreams restore? s.dec s.restored s.log
        (upstream name) with
    | .error e => .error e
    | .ok (restored1, log1) =>
      let h := hashOf name
      match lookupA checkpoints name with
      | none =>
        resumeAux upstream hashOf checkpoints cache restore? rest
          ⟨s.dec ++ [(name, .execute)], restored1, log1⟩
      | some cp =>
        if cp.valid = false then
          resumeAux upstream hashOf checkpoints cache restore? rest
            ⟨s.dec ++ [(name, .execute)], restored1, log1⟩
        else if cpInvalidated cp h then
          resumeAux upstream hashOf checkpoints cache restore? rest
            ⟨s.dec ++ [(name, .execute)], restored1, log1⟩
        else if cache h = false then
          .error "cache entry missing for checkpointed task"
        else if (upstream name).all (fun p =>
            decide (lookupA s.dec p =
              some NodeExecutionDecision.reuseCache)) then
          if restored1.contains name then
            resumeAux upstream hashOf checkpoints cache restore? rest
              ⟨s.dec ++ [(name, .reuseCache)], restored1, log1⟩
          else
            match restore? with
            | none => .error "restore runner is required to build resume plan"
            | some f =>
              if (f name).exitCode = 0 then
                resumeAux upstream hashOf checkpoints cache restore? rest
                  ⟨s.dec ++ [(name, .reuseCache)], restored1 ++ [name],
                    log1 ++ [name]⟩
              else .error "restoring for resume plan failed"
        else
          resumeAux upstream hashOf checkpoints cache restore? rest
            ⟨s.dec ++ [(name, .execute)], restored1, log1⟩

/-- The trailing loop locating the last node of the leading
all-`ReuseCache` prefix of the order (the checkpoint node). -/
def lastReusePrefix (dec : List (String × NodeExecutionDecision)) :
    List String → String → String
  | [], acc => acc
  | n :: rest, acc =>
    if lookupA dec n = some NodeExecutionDecision.reuseCache then
      lastReusePrefix dec rest n
    else acc

/-- `buildResumePlan`: either an error, or the plan (none when no
leading node is reusable) with the checkpoint node and the restore
log. -/
def buildResumePlan (order : List String) (upstream : String → List String)
    (hashOf : String → String) (checkpoints : List (String × Checkpoint))
    (cache : String → Bool) (restore? : Option (String → NodeResult)) :
    Except String (Option IncrementalPlan × String × List String) :=
  match resumeAux upstream hashOf checkpoints cache restore? order
      ⟨[], [], []⟩ with
  | .error e => .error e
  | .ok s =>
    let cpNode := lastReusePrefix s.dec order ""
    if cpNode = "" then .ok (none, "", s.log)
    else .ok (some ⟨order, s.dec⟩, cpNode, s.log)

end SW

namespace SW

theorem cpInvalidated_false_iff (cp : Checkpoint) (h : String) :
    cpInvalidated cp h = false ↔
      (cp.cacheKeys.head? = some h ∧ h ≠ "") := by
  rw [cpInvalidated]
  cases cp.cacheKeys with
  | nil => simp
  | cons k t =>
    dsimp only
    by_cases hk : k = ""
    · subst hk
      simp only [List.head?_cons, if_pos rfl]
      constructor
      · intro hc
        cases hc
      · intro hc
        exact absurd (Option.some.inj hc.1).symm hc.2
    · rw [if_neg hk]
      simp only [List.head?_cons, Option.some.injEq]
      constructor
      · intro he
        have hkh : k = h := by simpa using he
        exact ⟨hkh, fun hc => hk (hkh.trans hc)⟩
      · intro hc
        simp [hc.1]

/-- The claim's reuse rule for the resume planner: a valid checkpoint
whose first cache key equals the currently computed task hash (and is
non-empty), a still-existing cache entry, and all upstream decisions
`ReuseCache`. -/
def resumeReuseCond (upstream : String → List String)
    (hashOf : String → String)
    (checkpoints : List (String × Checkpoint)) (cache : String → Bool)
    (dec : List (String × NodeExecutionDecision)) (name : String) : Prop :=
  (∃ cp, lookupA checkpoints name = some cp ∧ cp.valid = true ∧
    cp.cacheKeys.head? = some (hashOf name) ∧ hashOf name ≠ "") ∧
  cache (hashOf name) = true ∧
  ∀ p ∈ upstream name,
    lookupA dec p = some NodeExecutionDecision.reuseCache

/-- Upstream closure of a processing order: every upstream parent of a
node is listed before it. -/
def upstreamClosedAux (upstream : String → List String) :
    List String → List String → Bool
  | _, [] => true
  | seen, n :: rest =>
    ((upstream n).all (fun p => seen.contains p)) &&
      upstreamClosedAux upstream (seen ++ [n]) rest

theorem restoreUpstreams_ok (f : String → NodeResult)
    (hf : ∀ p, (f p).exitCode = 0)
    (dec : List (String × NodeExecutionDecision)) :
    ∀ (ps restored log : List String), ∃ r l,
      restoreUpstreams (some f) dec restored log ps = .ok (r, l) := by
  intro ps
  induction ps with
  | nil =>
    intro restored log
    exact ⟨restored, log, rfl⟩
  | cons p t ih =>
    intro restored log
    rw [restoreUpstreams]
    by_cases hc : lookupA dec p = some NodeExecutionDecision.reuseCache ∧
        ¬ restored.contains p = true
    · rw [if_pos hc]
      rw [if_pos (hf p)]
      exact ih (restored ++ [p]) (log ++ [p])
    · rw [if_neg hc]
      exact ih restored log

theorem resumeCond_stable (upstream : String → List String)
    (hashOf : String → String)
    (checkpoints : List (String × Checkpoint)) (cache : String → Bool)
    (dec : List (String × NodeExecutionDecision)) (n : String)
    (d : NodeExecutionDecision) (name : String)
    (hpn : ∀ p ∈ upstream name, p ≠ n) :
    (resumeReuseCond upstream hashOf checkpoints cache (dec ++ [(n, d)])
        name ↔
      resumeReuseCond upstream hashOf checkpoints cache dec name) := by
  have h3 : (∀ p ∈ upstream name,
      lookupA (dec ++ [(n, d)]) p =
        some NodeExecutionDecision.reuseCache) ↔
      (∀ p ∈ upstream name,
        lookupA dec p = some NodeExecutionDecision.reuseCache) := by
    constructor
    · intro h p hp
      have := h p hp
      rwa [lookupA_append_single_ne _ _ _ _ (hpn p hp)] at this
    · intro h p hp
      rw [lookupA_append_single_ne _ _ _ _ (hpn p hp)]
      exact h p hp
  rw [resumeReuseCond, resumeReuseCond, h3]

/-- The C7 invariant: every recorded decision satisfies the reuse
iff. -/
def c7Inv (upstream : String → List String) (hashOf : String → String)
    (checkpoints : List (String × Checkpoint)) (cache : String → Bool)
    (dec : List (String × NodeExecutionDecision)) : Prop :=
  ∀ name d, lookupA dec name = some d →
    (d = NodeExecutionDecision.reuseCache ↔
      resumeReuseCond upstream hashOf checkpoints cache dec name)

end SW

namespace SW

theorem c7Inv_snoc (upstream : String → List String)
    (hashOf : String → String)
    (checkpoints : List (String × Checkpoint)) (cache : String → Bool)
    (dec : List (String × NodeExecutionDecision)) (n : String)
    (d : NodeExecutionDecision)
    (hninkeys : n ∉ dec.map Prod.fst)
    (hchk : ∀ p ∈ upstream n, p ∈ dec.map Prod.fst)
    (hpar : ∀ name ∈ dec.map Prod.fst, ∀ p ∈ upstream name,
      p ∈ dec.map Prod.fst)
    (hiff : d = NodeExecutionDecision.reuseCache ↔
      resumeReuseCond upstream hashOf checkpoints cache dec n)
    (hinv : c7Inv upstream hashOf checkpoints cache dec) :
    c7Inv upstream hashOf checkpoints cache (dec ++ [(n, d)]) := by
  intro name d0 hlook
  rw [lookupA_append] at hlook
  cases hm : lookupA dec name with
  | some d1 =>
    rw [hm] at hlook
    have hdd : d0 = d1 := (Option.some.inj hlook).symm
    subst hdd
    have hnamek : name ∈ dec.map Prod.fst :=
      (lookupA_isSome_iff_mem_keys _ _).mp (by rw [hm]; rfl)
    have hpn : ∀ p ∈ upstream name, p ≠ n := by
      intro p hp he
      exact hninkeys (he ▸ hpar name hnamek p hp)
    rw [resumeCond_stable upstream hashOf checkpoints cache dec n d name
      hpn]
    exact hinv name d0 hm
  | none =>
    rw [hm] at hlook
    have hlook' : lookupA [(n, d)] name = some d0 := hlook
    rw [lookupA_cons] at hlook'
    by_cases hne : n = name
    · subst hne
      rw [if_pos rfl] at hlook'
      have hdd : d0 = d := (Option.some.inj hlook').symm
      rw [hdd]
      have hpn : ∀ p ∈ upstream n, p ≠ n := by
        intro p hp he
        exact hninkeys (he ▸ hchk p hp)
      rw [resumeCond_stable upstream hashOf checkpoints cache dec n d n
        hpn]
      exact hiff
    · rw [if_neg hne] at hlook'
      exact absurd hlook' (by simp [lookupA])

theorem resumeFold_c7 (upstream : String → List String)
    (hashOf : String → String)
    (checkpoints : List (String × Checkpoint)) (cache : String → Bool)
    (f : String → NodeResult) (hf : ∀ p, (f p).exitCode = 0)
    (hcache : ∀ name, (∃ cp, lookupA checkpoints name = some cp ∧
        cp.valid = true ∧ cpInvalidated cp (hashOf name) = false) →
      cache (hashOf name) = true) :
    ∀ (rest seen : List String) (s : ResumeState),
      s.dec.map Prod.fst = seen →
      (seen ++ rest).Nodup →
      (∀ name ∈ seen, ∀ p ∈ upstream name, p ∈ seen) →
      upstreamClosedAux upstream seen rest = true →
      c7Inv upstream hashOf checkpoints cache s.dec →
      ∃ s', resumeAux upstream hashOf checkpoints cache (some f) rest s =
          .ok s' ∧
        s'.dec.map Prod.fst = seen ++ rest ∧
        c7Inv upstream hashOf checkpoints cache s'.dec := by
  intro rest
  induction rest with
  | nil =>
    intro seen s hkeys _ _ _ hinv
    exact ⟨s, rfl, by rw [hkeys, List.append_nil], hinv⟩
  | cons n t ih =>
    intro seen s hkeys hnd hpar hclosed hinv
    simp only [upstreamClosedAux, Bool.and_eq_true] at hclosed
    obtain ⟨hchk0, hclosed'⟩ := hclosed
    have hchk : ∀ p ∈ upstream n, p ∈ seen := by
      intro p hp
      have := List.all_eq_true.mp hchk0 p hp
      simpa using this
    have hninkeys : n ∉ s.dec.map Prod.fst := by
      rw [hkeys]
      intro hc
      obtain ⟨_, _, hdisj⟩ := List.nodup_append.mp hnd
      exact hdisj hc (List.mem_cons_self n t)
    have hnd' : ((seen ++ [n]) ++ t).Nodup := by
      have : seen ++ n :: t = (seen ++ [n]) ++ t := by
        simp [List.append_assoc]
      rw [← this]
      exact hnd
    have hpar' : ∀ name ∈ seen ++ [n], ∀ p ∈ upstream name,
        p ∈ seen ++ [n] := by
      intro name hname p hp
      rcases List.mem_append.mp hname with h | h
      · exact List.mem_append.mpr (Or.inl (hpar name h p hp))
      · rcases List.mem_singleton.mp h with rfl
        exact List.mem_append.mpr (Or.inl (hchk p hp))
    simp only [resumeAux]
    obtain ⟨r1, l1, hru⟩ := restoreUpstreams_ok f hf s.dec (upstream n)
      s.restored s.log
    rw [hru]
    dsimp only
    have hnext : ∀ (d : NodeExecutionDecision) (r l : List String),
        (d = NodeExecutionDecision.reuseCache ↔
          resumeReuseCond upstream hashOf checkpoints cache s.dec n) →
        ∃ s', resumeAux upstream hashOf checkpoints cache (some f) t
            ⟨s.dec ++ [(n, d)], r, l⟩ = .ok s' ∧
          s'.dec.map Prod.fst = seen ++ n :: t ∧
          c7Inv upstream hashOf checkpoints cache s'.dec := by
      intro d r l hiff
      have hkeys' : (s.dec ++ [(n, d)]).map Prod.fst = seen ++ [n] := by
        rw [List.map_append, hkeys]
        rfl
      have hinv' := c7Inv_snoc upstream hashOf checkpoints cache s.dec n d
        hninkeys (by rw [hkeys]; exact hchk) (by rw [hkeys]; exact hpar)
        hiff hinv
      obtain ⟨s', h1, h2, h3⟩ := ih (seen ++ [n])
        ⟨s.dec ++ [(n, d)], r, l⟩ hkeys' hnd' hpar' hclosed' hinv'
      refine ⟨s', h1, ?_, h3⟩
      rw [h2]
      simp [List.append_assoc]
    cases hcp : lookupA checkpoints n with
    | none =>
      refine hnext .execute r1 l1 (iff_of_false (by simp) ?_)
      intro hc
      obtain ⟨⟨cp, hcp', _⟩, _⟩ := hc
      rw [hcp] at hcp'
      cases hcp'
    | some cp =>
      dsimp only
      by_cases hv : cp.valid = false
      · rw [if_pos hv]
        refine hnext .execute r1 l1 (iff_of_false (by simp) ?_)
        intro hc
        obtain ⟨⟨cp', hcp', hv', _⟩, _⟩ := hc
        rw [hcp] at hcp'
        rw [← Option.some.inj hcp'] at hv'
        rw [hv'] at hv
        cases hv
      · rw [if_neg hv]
        have hv' : cp.valid = true := by
          rwa [Bool.not_eq_false] at hv
        by_cases hinval : cpInvalidated cp (hashOf n) = true
        · rw [if_pos hinval]
          refine hnext .execute r1 l1 (iff_of_false (by simp) ?_)
          intro hc
          obtain ⟨⟨cp', hcp', _, hh, hne⟩, _⟩ := hc
          rw [hcp] at hcp'
          rw [← Option.some.inj hcp'] at hh
          have : cpInvalidated cp (hashOf n) = false :=
            (cpInvalidated_false_iff cp (hashOf n)).mpr ⟨hh, hne⟩
          rw [this] at hinval
          cases hinval
        · rw [if_neg hinval]
          have hinval' : cpInvalidated cp (hashOf n) = false := by
            rwa [Bool.not_eq_true] at hinval
          have hcachetrue : cache (hashOf n) = true :=
            hcache n ⟨cp, hcp, hv', hinval'⟩
          rw [if_neg (by rw [hcachetrue]; simp)]
          by_cases hall : (upstream n).all (fun p =>
              decide (lookupA s.dec p =
                some NodeExecutionDecision.reuseCache)) = true
          · rw [if_pos hall]
            have hcond : resumeReuseCond upstream hashOf checkpoints cache
                s.dec n := by
              refine ⟨⟨cp, hcp, hv',
                ((cpInvalidated_false_iff cp (hashOf n)).mp hinval').1,
                ((cpInvalidated_false_iff cp (hashOf n)).mp hinval').2⟩,
                hcachetrue, ?_⟩
              intro p hp
              have := List.all_eq_true.mp hall p hp
              simpa using this
            by_cases hres : r1.contains n
            · rw [if_pos hres]
              exact hnext .reuseCache r1 l1 (iff_of_true rfl hcond)
            · rw [if_neg hres]
              rw [if_pos (hf n)]
              exact hnext .reuseCache (r1 ++ [n]) (l1 ++ [n])
                (iff_of_true rfl hcond)
          · rw [if_neg hall]
            refine hnext .execute r1 l1 (iff_of_false (by simp) ?_)
            intro hc
            obtain ⟨_, _, hup⟩ := hc
            refine hall (List.all_eq_true.mpr ?_)
            intro p hp
            simpa using hup p hp

end SW

namespace SW

/-- C7 (amended): when planning succeeds, the resume planner assigns
`ReuseCache` exactly to the nodes with a valid checkpoint whose first
cache key equals the currently computed task hash and whose cache entry
still exists and whose upstream decisions are all `ReuseCache`
(`resumeReuseCond`), and every other node `Execute`; but a checkpointed,
hash-matching node whose cache entry no longer exists makes the planning
pass fail with an error rather than being planned `Execute`. -/
theorem c7_resume_decisions (order : List String)
    (upstream : String → List String) (hashOf : String → String)
    (checkpoints : List (String × Checkpoint)) (cache : String → Bool)
    (f : String → NodeResult)
    (hf : ∀ p, (f p).exitCode = 0)
    (hnodup : order.Nodup)
    (hclosed : upstreamClosedAux upstream [] order = true) :
    ((∀ name, (∃ cp, lookupA checkpoints name = some cp ∧
        cp.valid = true ∧ cpInvalidated cp (hashOf name) = false) →
      cache (hashOf name) = true) →
      ∃ s', resumeAux upstream hashOf checkpoints cache (some f) order
          ⟨[], [], []⟩ = .ok s' ∧
        s'.dec.map Prod.fst = order ∧
        ∀ name d, lookupA s'.dec name = some d →
          (d = NodeExecutionDecision.reuseCache ↔
            resumeReuseCond upstream hashOf checkpoints cache s'.dec
              name)) ∧
    (∀ (name : String) (rest : List String) (s : ResumeState)
        (r1 l1 : List String) (cp : Checkpoint),
      restoreUpstreams (some f) s.dec s.restored s.log (upstream name) =
        .ok (r1, l1) →
      lookupA checkpoints name = some cp → cp.valid = true →
      cpInvalidated cp (hashOf name) = false →
      cache (hashOf name) = false →
      resumeAux upstream hashOf checkpoints cache (some f) (name :: rest)
          s = .error "cache entry missing for checkpointed task") := by
  constructor
  · intro hcache
    obtain ⟨s', h1, h2, h3⟩ := resumeFold_c7 upstream hashOf checkpoints
      cache f hf hcache order [] ⟨[], [], []⟩ rfl (by simpa using hnodup)
      (by intro name h; exact absurd h (by simp)) hclosed
      (by intro name d h; exact absurd h (by simp [lookupA]))
    exact ⟨s', h1, by simpa using h2, h3⟩
  · intro name rest s r1 l1 cp hru hcp hv hinval hcachef
    simp only [resumeAux]
    rw [hru]
    dsimp only
    rw [hcp]
    dsimp only
    rw [if_neg (by rw [hv]; simp), if_neg (by rw [hinval]; simp),
      if_pos hcachef]

/-- One checkpointed node whose first key matches the hash but whose
cache entry is gone: the claim predicts an `Execute` plan, the code
fails the planning pass. -/
theorem c7_counterexample :
    buildResumePlan ["A"] (fun _ => []) (fun _ => "h1")
        [("A", ⟨["h1"], true⟩)] (fun _ => false)
        (some (fun _ => ⟨"", "", "", 0⟩)) =
      .error "cache entry missing for checkpointed task" ∧
    cpInvalidated ⟨["h1"], true⟩ "h1" = false := by
  constructor
  · rfl
  · rfl

/-- Two-node chain with valid, matching, cached checkpoints for the C7
witness. -/
def c7UpW : String → List String := fun n => if n = "b" then ["a"] else []

def c7HashW : String → String := fun n => n ++ "-h"

def c7CpsW : List (String × Checkpoint) :=
  [("a", ⟨["a-h"], true⟩), ("b", ⟨["b-h"], true⟩)]

def c7CacheW : String → Bool := fun _ => true

def c7FW : String → NodeResult := fun _ => ⟨"", "", "", 0⟩

theorem c7_resume_decisions_witness :
    ((∀ name, (∃ cp, lookupA c7CpsW name = some cp ∧
        cp.valid = true ∧ cpInvalidated cp (c7HashW name) = false) →
      c7CacheW (c7HashW name) = true) →
      ∃ s', resumeAux c7UpW c7HashW c7CpsW c7CacheW (some c7FW)
          ["a", "b"] ⟨[], [], []⟩ = .ok s' ∧
        s'.dec.map Prod.fst = ["a", "b"] ∧
        ∀ name d, lookupA s'.dec name = some d →
          (d = NodeExecutionDecision.reuseCache ↔
            resumeReuseCond c7UpW c7HashW c7CpsW c7CacheW s'.dec
              name)) ∧
    (∀ (name : String) (rest : List String) (s : ResumeState)
        (r1 l1 : List String) (cp : Checkpoint),
      restoreUpstreams (some c7FW) s.dec s.restored s.log (c7UpW name) =
        .ok (r1, l1) →
      lookupA c7CpsW name = some cp → cp.valid = true →
      cpInvalidated cp (c7HashW name) = false →
      c7CacheW (c7HashW name) = false →
      resumeAux c7UpW c7HashW c7CpsW c7CacheW (some c7FW) (name :: rest)
          s = .error "cache entry missing for checkpointed task") :=
  c7_resume_decisions ["a", "b"] c7UpW c7HashW c7CpsW c7CacheW c7FW
    (fun _ => rfl) (by decide) (by decide)

end SW

namespace SW

theorem restoreUpstreams_noop (f : String → NodeResult)
    (dec : List (String × NodeExecutionDecision)) :
    ∀ (ps restored log : List String),
      (∀ p ∈ ps, lookupA dec p = some NodeExecutionDecision.reuseCache →
        restored.contains p = true) →
      restoreUpstreams (some f) dec restored log ps = .ok (restored, log) :=
  by
  intro ps
  induction ps with
  | nil =>
    intro restored log _
    rfl
  | cons p t ih =>
    intro restored log h
    rw [restoreUpstreams]
    rw [if_neg ?_]
    · exact ih restored log (fun q hq => h q (by simp [hq]))
    · intro hc
      exact hc.2 (h p (by simp) hc.1)

theorem resumeAux_error_of_restore_error (upstream : String → List String)
    (hashOf : String → String)
    (checkpoints : List (String × Checkpoint)) (cache : String → Bool)
    (restore? : Option (String → NodeResult)) (name : String)
    (rest : List String) (s : ResumeState) (e : String)
    (h : restoreUpstreams restore? s.dec s.restored s.log
        (upstream name) = .error e) :
    resumeAux upstream hashOf checkpoints cache restore? (name :: rest) s =
      .error e := by
  simp only [resumeAux]
  rw [h]

theorem restoreUpstreams_error_of_failure (f : String → NodeResult)
    (dec : List (String × NodeExecutionDecision)) (p : String)
    (ps restored log : List String)
    (hdec : lookupA dec p = some NodeExecutionDecision.reuseCache)
    (hres : restored.contains p = false)
    (hexit : (f p).exitCode ≠ 0) :
    restoreUpstreams (some f) dec restored log (p :: ps) =
      .error "restoring for resume plan failed" := by
  rw [restoreUpstreams]
  rw [if_pos ⟨hdec, by rw [hres]; simp⟩, if_neg hexit]

/-- The C8 fold invariant: the restoration log always equals the
already-planned `ReuseCache` nodes in processing order, and coincides
with the restored set. -/
theorem resumeFold_c8 (upstream : String → List String)
    (hashOf : String → String)
    (checkpoints : List (String × Checkpoint)) (cache : String → Bool)
    (f : String → NodeResult) (hf : ∀ p, (f p).exitCode = 0)
    (hcache : ∀ name, (∃ cp, lookupA checkpoints name = some cp ∧
        cp.valid = true ∧ cpInvalidated cp (hashOf name) = false) →
      cache (hashOf name) = true) :
    ∀ (rest seen : List String) (s : ResumeState),
      s.dec.map Prod.fst = seen →
      (seen ++ rest).Nodup →
      upstreamClosedAux upstream seen rest = true →
      s.restored = s.log →
      s.log = seen.filter (fun x => decide (lookupA s.dec x =
        some NodeExecutionDecision.reuseCache)) →
      ∃ s', resumeAux upstream hashOf checkpoints cache (some f) rest s =
          .ok s' ∧
        s'.dec.map Prod.fst = seen ++ rest ∧
        s'.restored = s'.log ∧
        s'.log = (seen ++ rest).filter (fun x => decide (lookupA s'.dec x =
          some NodeExecutionDecision.reuseCache)) := by
  intro rest
  induction rest with
  | nil =>
    intro seen s hkeys _ _ hrl hlog
    exact ⟨s, rfl, by rw [hkeys, List.append_nil], hrl,
      by rw [List.append_nil]; exact hlog⟩
  | cons n t ih =>
    intro seen s hkeys hnd hclosed hrl hlog
    simp only [upstreamClosedAux, Bool.and_eq_true] at hclosed
    obtain ⟨hchk0, hclosed'⟩ := hclosed
    have hchk : ∀ p ∈ upstream n, p ∈ seen := by
      intro p hp
      have := List.all_eq_true.mp hchk0 p hp
      simpa using this
    have hninkeys : n ∉ s.dec.map Prod.fst := by
      rw [hkeys]
      intro hc
      obtain ⟨_, _, hdisj⟩ := List.nodup_append.mp hnd
      exact hdisj hc (List.mem_cons_self n t)
    have hnseen : n ∉ seen := by
      rw [← hkeys]
      exact hninkeys
    have hnd' : ((seen ++ [n]) ++ t).Nodup := by
      have : seen ++ n :: t = (seen ++ [n]) ++ t := by
        simp [List.append_assoc]
      rw [← this]
      exact hnd
    have hnoop : restoreUpstreams (some f) s.dec s.restored s.log
        (upstream n) = .ok (s.restored, s.log) := by
      refine restoreUpstreams_noop f s.dec (upstream n) s.restored s.log
        ?_
      intro p hp hdecp
      have hpseen : p ∈ seen := hchk p hp
      rw [hrl, hlog]
      have : p ∈ seen.filter (fun x => decide (lookupA s.dec x =
          some NodeExecutionDecision.reuseCache)) := by
        rw [List.mem_filter]
        exact ⟨hpseen, by simp [hdecp]⟩
      simpa using this
    have hnext : ∀ (d : NodeExecutionDecision),
        ∃ s', resumeAux upstream hashOf checkpoints cache (some f) t
            ⟨s.dec ++ [(n, d)], s.restored ++
              (if d = NodeExecutionDecision.reuseCache then [n] else []),
              s.log ++
              (if d = NodeExecutionDecision.reuseCache then [n]
                else [])⟩ = .ok s' ∧
          s'.dec.map Prod.fst = seen ++ n :: t ∧
          s'.restored = s'.log ∧
          s'.log = (seen ++ n :: t).filter (fun x =>
            decide (lookupA s'.dec x =
              some NodeExecutionDecision.reuseCache)) := by
      intro d
      have hkeys' : (s.dec ++ [(n, d)]).map Prod.fst = seen ++ [n] := by
        rw [List.map_append, hkeys]
        rfl
      have hstab : ∀ x ∈ seen,
          lookupA (s.dec ++ [(n, d)]) x = lookupA s.dec x := by
        intro x hx
        exact lookupA_append_single_ne _ _ _ _ (fun he => hnseen
          (he ▸ hx))
      have hlog' : s.log ++
          (if d = NodeExecutionDecision.reuseCache then [n] else []) =
          (seen ++ [n]).filter (fun x =>
            decide (lookupA (s.dec ++ [(n, d)]) x =
              some NodeExecutionDecision.reuseCache)) := by
        rw [List.filter_append, hlog]
        congr 1
        · refine (List.filter_congr ?_).symm
          intro x hx
          rw [hstab x hx]
        · have hself : lookupA (s.dec ++ [(n, d)]) n = some d :=
            lookupA_snoc_self s.dec n d hninkeys
          by_cases hd : d = NodeExecutionDecision.reuseCache
          · rw [if_pos hd]
            subst hd
            simp [hself]
          · rw [if_neg hd]
            simp only [List.filter_cons, List.filter_nil]
            rw [hself]
            simp [hd]
      obtain ⟨s', h1, h2, h3, h4⟩ := ih (seen ++ [n])
        ⟨s.dec ++ [(n, d)], s.restored ++
          (if d = NodeExecutionDecision.reuseCache then [n] else []),
          s.log ++
          (if d = NodeExecutionDecision.reuseCache then [n] else [])⟩
        hkeys' hnd' hclosed' (by dsimp only; rw [hrl]) (by
          dsimp only
          exact hlog')
      refine ⟨s', h1, ?_, h3, ?_⟩
      · rw [h2]
        simp [List.append_assoc]
      · rw [h4]
        congr 1
        simp [List.append_assoc]
    simp only [resumeAux]
    rw [hnoop]
    dsimp only
    cases hcp : lookupA checkpoints n with
    | none =>
      have := hnext .execute
      simpa using this
    | some cp =>
      dsimp only
      by_cases hv : cp.valid = false
      · rw [if_pos hv]
        have := hnext .execute
        simpa using this
      · rw [if_neg hv]
        have hv' : cp.valid = true := by
          rwa [Bool.not_eq_false] at hv
        by_cases hinval : cpInvalidated cp (hashOf n) = true
        · rw [if_pos hinval]
          have := hnext .execute
          simpa using this
        · rw [if_neg hinval]
          have hinval' : cpInvalidated cp (hashOf n) = false := by
            rwa [Bool.not_eq_true] at hinval
          have hcachetrue : cache (hashOf n) = true :=
            hcache n ⟨cp, hcp, hv', hinval'⟩
          rw [if_neg (by rw [hcachetrue]; simp)]
          by_cases hall : (upstream n).all (fun p =>
              decide (lookupA s.dec p =
                some NodeExecutionDecision.reuseCache)) = true
          · rw [if_pos hall]
            have hres : s.restored.contains n = false := by
              rw [hrl, hlog]
              by_contra hc
              rw [Bool.not_eq_false] at hc
              have : n ∈ seen.filter (fun x =>
                  decide (lookupA s.dec x =
                    some NodeExecutionDecision.reuseCache)) := by
                simpa using hc
              exact hnseen (List.mem_filter.mp this).1
            rw [if_neg (by rw [hres]; simp), if_pos (hf n)]
            have := hnext .reuseCache
            simpa using this
          · rw [if_neg hall]
            have := hnext .execute
            simpa using this

end SW

namespace SW

/-- C8 (amended): the planner restores each planned-reuse node at most
once, in topological order — the restore log is exactly the
`ReuseCache`-planned nodes in processing order, duplicate-free and a
subsequence of the order — and any restoration failure aborts the
planning pass with an error (it does not demote the chain to `Execute`
and complete). -/
theorem c8_resume_restore_once (order : List String)
    (upstream : String → List String) (hashOf : String → String)
    (checkpoints : List (String × Checkpoint)) (cache : String → Bool)
    (f : String → NodeResult)
    (hf : ∀ p, (f p).exitCode = 0)
    (hnodup : order.Nodup)
    (hclosed : upstreamClosedAux upstream [] order = true) :
    ((∀ name, (∃ cp, lookupA checkpoints name = some cp ∧
        cp.valid = true ∧ cpInvalidated cp (hashOf name) = false) →
      cache (hashOf name) = true) →
      ∃ s', resumeAux upstream hashOf checkpoints cache (some f) order
          ⟨[], [], []⟩ = .ok s' ∧
        s'.log = order.filter (fun x => decide (lookupA s'.dec x =
          some NodeExecutionDecision.reuseCache)) ∧
        s'.log.Nodup ∧ List.Sublist s'.log order) ∧
    (∀ (f' : String → NodeResult) (name : String) (rest : List String)
        (s : ResumeState) (e : String),
      restoreUpstreams (some f') s.dec s.restored s.log
          (upstream name) = .error e →
      resumeAux upstream hashOf checkpoints cache (some f')
          (name :: rest) s = .error e) ∧
    (∀ (f' : String → NodeResult)
        (dec : List (String × NodeExecutionDecision)) (p : String)
        (ps restored log : List String),
      lookupA dec p = some NodeExecutionDecision.reuseCache →
      restored.contains p = false → (f' p).exitCode ≠ 0 →
      restoreUpstreams (some f') dec restored log (p :: ps) =
        .error "restoring for resume plan failed") := by
  refine ⟨?_, ?_, ?_⟩
  · intro hcache
    obtain ⟨s', h1, _, h3, h4⟩ := resumeFold_c8 upstream hashOf
      checkpoints cache f hf hcache order [] ⟨[], [], []⟩ rfl
      (by simpa using hnodup) hclosed rfl (by simp)
    have hlog : s'.log = order.filter (fun x => decide (lookupA s'.dec x =
        some NodeExecutionDecision.reuseCache)) := by
      rw [h4]
      simp
    refine ⟨s', h1, hlog, ?_, ?_⟩
    · rw [hlog]
      exact hnodup.filter _
    · rw [hlog]
      exact List.filter_sublist _
  · intro f' name rest s e h
    exact resumeAux_error_of_restore_error upstream hashOf checkpoints
      cache (some f') name rest s e h
  · intro f' dec p ps restored log hdec hres hexit
    exact restoreUpstreams_error_of_failure f' dec p ps restored log hdec
      hres hexit

/-- Single planned-reuse node whose restoration exits non-zero: the
claim predicts a completed plan with the chain demoted to `Execute`, the
code aborts the planning pass. -/
theorem c8_counterexample :
    buildResumePlan ["A"] (fun _ => []) (fun _ => "h1")
        [("A", ⟨["h1"], true⟩)] (fun _ => true)
        (some (fun _ => ⟨"", "", "", 1⟩)) =
      .error "restoring for resume plan failed" ∧
    cpInvalidated ⟨["h1"], true⟩ "h1" = false := by
  constructor
  · rfl
  · rfl

theorem c8_resume_restore_once_witness :
    ((∀ name, (∃ cp, lookupA c7CpsW name = some cp ∧
        cp.valid = true ∧ cpInvalidated cp (c7HashW name) = false) →
      c7CacheW (c7HashW name) = true) →
      ∃ s', resumeAux c7UpW c7HashW c7CpsW c7CacheW (some c7FW)
          ["a", "b"] ⟨[], [], []⟩ = .ok s' ∧
        s'.log = ["a", "b"].filter (fun x => decide (lookupA s'.dec x =
          some NodeExecutionDecision.reuseCache)) ∧
        s'.log.Nodup ∧ List.Sublist s'.log ["a", "b"]) ∧
    (∀ (f' : String → NodeResult) (name : String) (rest : List String)
        (s : ResumeState) (e : String),
      restoreUpstreams (some f') s.dec s.restored s.log
          (c7UpW name) = .error e →
      resumeAux c7UpW c7HashW c7CpsW c7CacheW (some f')
          (name :: rest) s = .error e) ∧
    (∀ (f' : String → NodeResult)
        (dec : List (String × NodeExecutionDecision)) (p : String)
        (ps restored log : List String),
      lookupA dec p = some NodeExecutionDecision.reuseCache →
      restored.contains p = false → (f' p).exitCode ≠ 0 →
      restoreUpstreams (some f') dec restored log (p :: ps) =
        .error "restoring for resume plan failed") :=
  c8_resume_restore_once ["a", "b"] c7UpW c7HashW c7CpsW c7CacheW c7FW
    (fun _ => rfl) (by decide) (by decide)

end SW

namespace SW

/-! ## `executeGraph`'s resume gate (cli, `part_018`).

The gate validates the `--previous-run-id` and the previous run's graph
hash before the executor is invoked; the run store (`state.Store` /
`LoadRun`) is modelled from the spec as a partial map from run ids to
run records. -/

/-- Exit codes (mirrored in `internal/cli/sw/main_test.go`). -/
def ExitSuccess : Nat := 0

def ExitValidationError : Nat := 1

/-- Modelled from the spec: the previous run's record as the gate reads
it (`graph_hash`, `retry_count`). -/
structure RunRecord where
  graphHash : String
  retryCount : Nat
deriving DecidableEq

/-- Modelled from the spec: Go `strings.TrimSpace` (leading and
trailing whitespace removed). -/
def trimSpace (s : String) : String :=
  ⟨((s.data.dropWhile Char.isWhitespace).reverse.dropWhile
    Char.isWhitespace).reverse⟩

/-- The resume gate of `executeGraph`: empty previous-run id, missing
run record, or a graph-hash mismatch is a validation error; on a match
the run is linked to the previous run with an incremented retry
count. -/
def resumeGate (isResume : Bool) (previousRunID : String)
    (loadRun : String → Option RunRecord) (graphHash : String) :
    Except Nat (Option String × Nat) :=
  if isResume then
    if trimSpace previousRunID = "" then .error ExitValidationError
    else
      match loadRun previousRunID with
      | none => .error ExitValidationError
      | some prev =>
        if prev.graphHash ≠ graphHash then .error ExitValidationError
        else .ok (some previousRunID, prev.retryCount + 1)
  else .ok (none, 0)

/-- The observable outcome of `executeGraph` as far as the gate is
concerned: the exit code, whether the executor ran at all, and the run
linkage recorded by `StartRun`. -/
structure ExecOutcome where
  exitCode : Nat
  ranTasks : Bool
  previousRunID : Option String
  retryCount : Nat
deriving DecidableEq

/-- `executeGraph` around the gate: a gate error returns its exit code
before any task executes; otherwise execution proceeds with the gate's
run linkage recorded. -/
def executeGraphGate (isResume : Bool) (previousRunID : String)
    (loadRun : String → Option RunRecord) (graphHash : String) :
    ExecOutcome :=
  match resumeGate isResume previousRunID loadRun graphHash with
  | .error code => ⟨code, false, none, 0⟩
  | .ok (pid, rc) => ⟨ExitSuccess, true, pid, rc⟩

/-- C9: on resume, a previous-run graph hash different from the current
graph hash is rejected with `ExitValidationError` before any task runs
(never silently accepted), and on a hash match the new run records
`previous_run_id` = the resumed run and `retry_count` = previous retry
count + 1. -/
theorem c9_resume_hash_gate (previousRunID : String)
    (loadRun : String → Option RunRecord) (graphHash : String)
    (prev : RunRecord)
    (hid : trimSpace previousRunID ≠ "")
    (hload : loadRun previousRunID = some prev) :
    (prev.graphHash ≠ graphHash →
      executeGraphGate true previousRunID loadRun graphHash =
        ⟨ExitValidationError, false, none, 0⟩) ∧
    (prev.graphHash = graphHash →
      executeGraphGate true previousRunID loadRun graphHash =
        ⟨ExitSuccess, true, some previousRunID, prev.retryCount + 1⟩) := by
  constructor
  · intro hne
    rw [executeGraphGate, resumeGate, if_pos rfl, if_neg hid, hload]
    dsimp only
    rw [if_pos hne]
  · intro heq
    rw [executeGraphGate, resumeGate, if_pos rfl, if_neg hid, hload]
    dsimp only
    rw [if_neg (by rw [heq]; simp)]

theorem c9_resume_hash_gate_witness :
    (trimSpace "run-1" ≠ "") ∧
    ((("gh-old" : String) ≠ "gh-new" →
      executeGraphGate true "run-1"
          (fun id => if id = "run-1" then
            some (⟨"gh-old", 2⟩ : RunRecord) else none) "gh-new" =
        ⟨ExitValidationError, false, none, 0⟩) ∧
    (("gh-old" : String) = "gh-new" →
      executeGraphGate true "run-1"
          (fun id => if id = "run-1" then
            some (⟨"gh-old", 2⟩ : RunRecord) else none) "gh-new" =
        ⟨ExitSuccess, true, some "run-1", 2 + 1⟩)) :=
  ⟨by decide,
    c9_resume_hash_gate "run-1"
      (fun id => if id = "run-1" then some ⟨"gh-old", 2⟩ else none)
      "gh-new" ⟨"gh-old", 2⟩ (by decide) (by decide)⟩

end SW

namespace SW

/-! ## `Executor.RunParallel` (`part_013`).

The coordinator is deterministic; the only scheduling freedom is which
in-flight task's completion is received first.  The model makes that
freedom explicit: a schedule `σ` picks (by index) which in-flight task
completes whenever the coordinator blocks on the completion channel,
and the worker-pool size `k` bounds the in-flight set.  Dispatch is
greedy (the source's inner loop dispatches as long as a worker is free),
depth stages never overlap, and within a stage names are taken in the
sorted order of `byDepthOf`. -/

/-- The result a worker computes for a dispatched item (`Restore` for a
planned-reuse item — a missing `Restore` support produces the source's
synthetic exit-1 result — and `Run` otherwise). -/
def completionResult (runner : Runner) (name : String) (reuse : Bool) :
    NodeResult :=
  if reuse then
    match runner.restore with
    | some f => f name
    | none => ⟨"", "", "runner does not support Restore", 1⟩
  else runner.run name

/-- Committing one completed task: record its exit code and either mark
it Completed (exit 0) or fail and propagate. -/
def commitOne (g : TaskGraph) (runner : Runner)
    (sc : (String → TaskState) × (String → Nat)) (w : String × Bool) :
    (String → TaskState) × (String → Nat) :=
  let res := completionResult runner w.1 w.2
  (if res.exitCode = 0 then
      (fun x => if x = w.1 then TaskState.completed else sc.1 x)
    else FailAndPropagate g sc.1 w.1,
   fun x => if x = w.1 then res.exitCode else sc.2 x)

/-- Receiving one completion: the schedule index picks the in-flight
item; its state must still be Running. -/
def completeStep (g : TaskGraph) (runner : Runner)
    (inFlight : List (String × Bool)) (st : String → TaskState)
    (codes : String → Nat) (i : Nat) :
    Except String
      ((String → TaskState) × (String → Nat) × List (String × Bool)) :=
  match inFlight[i % inFlight.length]? with
  | none => .error "no in-flight task"
  | some w =>
    if st w.1 ≠ .running then
      .error "completion but state is not running"
    else
      let q := commitOne g runner (st, codes) w
      .ok (q.1, q.2, inFlight.eraseIdx (i % inFlight.length))

/-- The coordinator loop: dispatch while a worker is free, otherwise
receive one completion; pop the next depth stage when the current one
has fully drained. -/
def runParAux (g : TaskGraph) (runner : Runner)
    (plan : Option IncrementalPlan) (k : Nat) (σ : Nat → Nat) :
    Nat → List (List String) → List String → List (String × Bool) →
      (String → TaskState) → List String → (String → Nat) → Nat →
      Except String SerialResult
  | 0, _, _, _, _, _, _, _ => .error "fuel exhausted"
  | fuel + 1, depths, remaining, inFlight, st, order, codes, ctr =>
    match remaining with
    | name :: rest =>
      if inFlight.length < k then
        if IsTerminal (st name) then
          runParAux g runner plan k σ fuel depths rest inFlight st order
            codes ctr
        else if st name ≠ .pending then
          .error "unexpected non-pending state"
        else if ¬ ((g.parents name).all
            (fun p => IsSuccessful (st p)) = true) then
          .error "pending but dependencies are not successful"
        else
          match plan with
          | some p =>
            runParAux g runner plan k σ fuel depths rest
              (inFlight ++ [(name, decide (lookupA p.decisions name =
                some NodeExecutionDecision.reuseCache))])
              (fun x => if x = name then TaskState.running else st x)
              (order ++ [name]) codes ctr
          | none =>
            match runner.probe name with
            | some res =>
              runParAux g runner plan k σ fuel depths rest inFlight
                (fun x => if x = name then TaskState.cached else st x)
                order
                (fun x => if x = name then res.exitCode else codes x) ctr
            | none =>
              runParAux g runner plan k σ fuel depths rest
                (inFlight ++ [(name, false)])
                (fun x => if x = name then TaskState.running else st x)
                (order ++ [name]) codes ctr
      else
        match completeStep g runner inFlight st codes (σ ctr) with
        | .error e => .error e
        | .ok (st', codes', inF') =>
          runParAux g runner plan k σ fuel depths remaining inF' st'
            order codes' (ctr + 1)
    | [] =>
      match inFlight with
      | [] =>
        match depths with
        | [] => .ok ⟨st, order, codes⟩
        | d :: ds =>
          runParAux g runner plan k σ fuel ds d [] st order codes ctr
      | _ :: _ =>
        match completeStep g runner inFlight st codes (σ ctr) with
        | .error e => .error e
        | .ok (st', codes', inF') =>
          runParAux g runner plan k σ fuel depths [] inF' st' order
            codes' (ctr + 1)

/-- The maximal topological depth. -/
def maxDepthOf (g : TaskGraph) : Nat :=
  g.nodes.foldl (fun m n => max m (g.depth n)) 0

/-- The depth stages: per depth, the lexically sorted node names. -/
def byDepthOf (g : TaskGraph) : List (List String) :=
  (List.range (maxDepthOf g + 1)).map (fun d =>
    sortStrings (g.nodes.filter (fun n => decide (g.depth n = d))))

/-- Enough fuel for every stage pop, every per-name dispatch and every
completion. -/
def parFuel (g : TaskGraph) : Nat :=
  1 + ((byDepthOf g).map (fun l => 1 + 2 * l.length)).sum

/-- `Executor.RunParallel`. -/
def RunParallel (g : TaskGraph) (runner : Runner)
    (plan : Option IncrementalPlan) (k : Nat) (σ : Nat → Nat) :
    Except String SerialResult :=
  if k = 0 then .error "concurrency must be > 0"
  else
    runParAux g runner plan k σ (parFuel g) (byDepthOf g) [] []
      (fun _ => .pending) [] (fun _ => 0) 0

end SW

namespace SW

/-- In plan mode the parallel coordinator never consults the cache
probe: its outcome is invariant under the runner's probe component. -/
theorem runParAux_probe_irrelevant (g : TaskGraph)
    (pr1 pr2 : String → Option NodeResult) (run : String → NodeResult)
    (rst : Option (String → NodeResult)) (p : IncrementalPlan) (k : Nat)
    (σ : Nat → Nat) :
    ∀ (fuel : Nat) (depths : List (List String)) (remaining : List String)
      (inFlight : List (String × Bool)) (st : String → TaskState)
      (order : List String) (codes : String → Nat) (ctr : Nat),
      runParAux g ⟨pr1, run, rst⟩ (some p) k σ fuel depths remaining
          inFlight st order codes ctr =
        runParAux g ⟨pr2, run, rst⟩ (some p) k σ fuel depths remaining
          inFlight st order codes ctr := by
  intro fuel
  induction fuel with
  | zero => intro depths remaining inFlight st order codes ctr; rfl
  | succ fuel ih =>
    intro depths remaining inFlight st order codes ctr
    simp only [runParAux]
    have hcsame : completeStep g ⟨pr1, run, rst⟩ inFlight st codes
        (σ ctr) = completeStep g ⟨pr2, run, rst⟩ inFlight st codes
        (σ ctr) := rfl
    cases remaining with
    | cons name rest =>
      dsimp only
      by_cases hk : inFlight.length < k
      · rw [if_pos hk, if_pos hk]
        by_cases ht : IsTerminal (st name) = true
        · rw [if_pos ht, if_pos ht]
          exact ih depths rest inFlight st order codes ctr
        · rw [if_neg ht, if_neg ht]
          by_cases hp : st name ≠ .pending
          · rw [if_pos hp, if_pos hp]
          · rw [if_neg hp, if_neg hp]
            by_cases hd : ¬ ((g.parents name).all
                (fun q => IsSuccessful (st q)) = true)
            · rw [if_pos hd, if_pos hd]
            · rw [if_neg hd, if_neg hd]
              exact ih depths rest _ _ _ codes ctr
      · rw [if_neg hk, if_neg hk, hcsame]
        cases completeStep g ⟨pr2, run, rst⟩ inFlight st codes (σ ctr)
          with
        | error e => rfl
        | ok q =>
          obtain ⟨st', codes', inF'⟩ := q
          exact ih depths (name :: rest) inF' st' order codes' (ctr + 1)
    | nil =>
      dsimp only
      cases inFlight with
      | nil =>
        cases depths with
        | nil => rfl
        | cons d ds => exact ih ds d [] st order codes ctr
      | cons w ws =>
        rw [hcsame]
        cases completeStep g ⟨pr2, run, rst⟩ (w :: ws) st codes (σ ctr)
          with
        | error e => rfl
        | ok q =>
          obtain ⟨st', codes', inF'⟩ := q
          exact ih depths [] inF' st' order codes' (ctr + 1)

end SW

namespace SW

/-- C10 (amended): when a non-nil plan has no decision for a ready task,
the serial executor falls back to probe behaviour (commit
`Pending→Cached` on a hit without recording an execution, run the task
on a miss), but the parallel executor does not: it schedules the task as
non-reuse work and never consults the probe (its outcome is invariant
under the probe component). -/
theorem c10_missing_decision (g : TaskGraph) (runner : Runner)
    (p : IncrementalPlan) (fuel : Nat) (st : String → TaskState)
    (order : List String) (codes : String → Nat) (next : String)
    (rest : List String)
    (hready : GetReadyTasks g st = next :: rest)
    (hdec : lookupA p.decisions next = none) :
    (∀ res, runner.probe next = some res →
      runSerialAux g runner (some p) (fuel + 1) st order codes =
        runSerialAux g runner (some p) fuel
          (fun x => if x = next then TaskState.cached else st x) order
          (fun x => if x = next then res.exitCode else codes x)) ∧
    (runner.probe next = none → (runner.run next).exitCode = 0 →
      runSerialAux g runner (some p) (fuel + 1) st order codes =
        runSerialAux g runner (some p) fuel
          (fun x => if x = next then TaskState.completed else st x)
          (order ++ [next])
          (fun x => if x = next then (runner.run next).exitCode
            else codes x)) ∧
    (∀ (pr1 pr2 : String → Option NodeResult)
        (run : String → NodeResult)
        (rst : Option (String → NodeResult)) (k : Nat) (σ : Nat → Nat)
        (fuel2 : Nat) (depths : List (List String))
        (remaining : List String) (inFlight : List (String × Bool))
        (st2 : String → TaskState) (order2 : List String)
        (codes2 : String → Nat) (ctr : Nat),
      runParAux g ⟨pr1, run, rst⟩ (some p) k σ fuel2 depths remaining
          inFlight st2 order2 codes2 ctr =
        runParAux g ⟨pr2, run, rst⟩ (some p) k σ fuel2 depths remaining
          inFlight st2 order2 codes2 ctr) := by
  have hpend : st next = .pending :=
    ready_mem_pending g st next (by rw [hready]; simp)
  refine ⟨?_, ?_, ?_⟩
  · intro res hprobe
    have htr1 : Transition st next .pending .cached = .ok
        (fun x => if x = next then TaskState.cached else st x) := by
      rw [Transition, if_pos hpend]
    simp only [runSerialAux, hready, planDecisionOf, hdec, hprobe, htr1]
  · intro hprobe hexit
    have htr1 : Transition st next .pending .running = .ok
        (fun x => if x = next then TaskState.running else st x) := by
      rw [Transition, if_pos hpend]
    have htr2 : Transition
        (fun y => if y = next then TaskState.running else st y) next
        .running .completed = .ok
        (fun x => if x = next then TaskState.completed else
          (fun y => if y = next then TaskState.running else st y) x) := by
      rw [Transition, if_pos (by simp)]
    simp only [runSerialAux, hready, planDecisionOf, hdec, hprobe, htr1]
    rw [if_pos hexit]
    simp only [htr2]
    have hst : (fun x => if x = next then TaskState.completed else
        (fun y => if y = next then TaskState.running else st y) x) =
        (fun x => if x = next then TaskState.completed else st x) := by
      funext x
      by_cases hx : x = next
      · simp [hx]
      · simp [hx]
    rw [hst]
  · intro pr1 pr2 run rst k σ fuel2 depths remaining inFlight st2 order2
      codes2 ctr
    exact runParAux_probe_irrelevant g pr1 pr2 run rst p k σ fuel2 depths
      remaining inFlight st2 order2 codes2 ctr

/-- One-node graph with a plan that has no decision for the node and a
probe that would hit: the parallel executor runs the task to Completed
and records it in the execution order, while the serial executor's
fallback commits it to Cached without an execution record. -/
def c10G : TaskGraph := ⟨["A"], fun _ => [], fun _ => 0⟩

def c10Runner : Runner :=
  ⟨fun _ => some ⟨"ph", "", "", 0⟩, fun _ => ⟨"rh", "", "", 0⟩,
    some (fun _ => ⟨"sh", "", "", 0⟩)⟩

def c10Plan : IncrementalPlan := ⟨["A"], []⟩

theorem c10_counterexample :
    (RunParallel c10G c10Runner (some c10Plan) 2 (fun _ => 0)).toOption.map
        (fun r => (r.state "A", r.order)) =
      some (TaskState.completed, ["A"]) ∧
    (RunSerial c10G c10Runner (some c10Plan)).toOption.map
        (fun r => (r.state "A", r.order)) =
      some (TaskState.cached, []) ∧
    TaskState.completed ≠ TaskState.cached := by
  refine ⟨by decide, by decide, by decide⟩

theorem c10_missing_decision_witness :
    (∀ res, c10Runner.probe "A" = some res →
      runSerialAux c10G c10Runner (some c10Plan) 2
          (fun _ => TaskState.pending) [] (fun _ => 0) =
        runSerialAux c10G c10Runner (some c10Plan) 1
          (fun x => if x = "A" then TaskState.cached
            else (fun _ => TaskState.pending) x) []
          (fun x => if x = "A" then res.exitCode else (fun _ => 0) x)) ∧
    (c10Runner.probe "A" = none →
      (c10Runner.run "A").exitCode = 0 →
      runSerialAux c10G c10Runner (some c10Plan) 2
          (fun _ => TaskState.pending) [] (fun _ => 0) =
        runSerialAux c10G c10Runner (some c10Plan) 1
          (fun x => if x = "A" then TaskState.completed
            else (fun _ => TaskState.pending) x)
          ([] ++ ["A"])
          (fun x => if x = "A" then (c10Runner.run "A").exitCode
            else (fun _ => 0) x)) ∧
    (∀ (pr1 pr2 : String → Option NodeResult)
        (run : String → NodeResult)
        (rst : Option (String → NodeResult)) (k : Nat) (σ : Nat → Nat)
        (fuel2 : Nat) (depths : List (List String))
        (remaining : List String) (inFlight : List (String × Bool))
        (st2 : String → TaskState) (order2 : List String)
        (codes2 : String → Nat) (ctr : Nat),
      runParAux c10G ⟨pr1, run, rst⟩ (some c10Plan) k σ fuel2 depths
          remaining inFlight st2 order2 codes2 ctr =
        runParAux c10G ⟨pr2, run, rst⟩ (some c10Plan) k σ fuel2 depths
          remaining inFlight st2 order2 codes2 ctr) :=
  c10_missing_decision c10G c10Runner c10Plan 1 (fun _ => .pending) []
    (fun _ => 0) "A" [] (by decide) (by decide)

end SW

namespace SW

/-! ## C6: schedule- and concurrency-independence of `RunParallel`.

The proof relates every `(k, σ)` run to a canonical sequential
elaboration of the same depth stages (`stageCanon` / `depthsCanon`):
dispatch decisions only read states that pending commits cannot touch
(same-depth tasks are never each other's descendants when every edge
increases depth), and commits of distinct same-depth tasks commute. -/

/-- Canonical elaboration of one depth stage: process the stage's names
left to right, committing each dispatched task immediately. -/
def stageCanon (g : TaskGraph) (runner : Runner)
    (plan : Option IncrementalPlan) :
    List String → (String → TaskState) → List String → (String → Nat) →
      Except String ((String → TaskState) × List String × (String → Nat))
  | [], st, order, codes => .ok (st, order, codes)
  | name :: rest, st, order, codes =>
    if IsTerminal (st name) then
      stageCanon g runner plan rest st order codes
    else if st name ≠ .pending then
      .error "unexpected non-pending state"
    else if ¬ ((g.parents name).all
        (fun p => IsSuccessful (st p)) = true) then
      .error "pending but dependencies are not successful"
    else
      match plan with
      | some p =>
        let q := commitOne g runner
          ((fun x => if x = name then TaskState.running else st x), codes)
          (name, decide (lookupA p.decisions name =
            some NodeExecutionDecision.reuseCache))
        stageCanon g runner plan rest q.1 (order ++ [name]) q.2
      | none =>
        match runner.probe name with
        | some res =>
          stageCanon g runner plan rest
            (fun x => if x = name then TaskState.cached else st x) order
            (fun x => if x = name then res.exitCode else codes x)
        | none =>
          let q := commitOne g runner
            ((fun x => if x = name then TaskState.running else st x),
              codes) (name, false)
          stageCanon g runner plan rest q.1 (order ++ [name]) q.2

/-- Canonical elaboration of the remaining depth stages. -/
def depthsCanon (g : TaskGraph) (runner : Runner)
    (plan : Option IncrementalPlan) :
    List (List String) → (String → TaskState) → List String →
      (String → Nat) → Except String SerialResult
  | [], st, order, codes => .ok ⟨st, order, codes⟩
  | l :: ls, st, order, codes =>
    match stageCanon g runner plan l st order codes with
    | .error e => .error e
    | .ok (st', order', codes') =>
      depthsCanon g runner plan ls st' order' codes'

/-- Committing a list of in-flight items in list order. -/
def foldCommits (g : TaskGraph) (runner : Runner) :
    List (String × Bool) → (String → TaskState) → (String → Nat) →
      (String → TaskState) × (String → Nat)
  | [], st, codes => (st, codes)
  | w :: t, st, codes =>
    let q := commitOne g runner (st, codes) w
    foldCommits g runner t q.1 q.2

/-- The canonical value of a coordinator configuration: commit what is
in flight, finish the current stage canonically, then the remaining
stages. -/
def canonCont (g : TaskGraph) (runner : Runner)
    (plan : Option IncrementalPlan) (depths : List (List String))
    (remaining : List String) (inFlight : List (String × Bool))
    (st : String → TaskState) (order : List String)
    (codes : String → Nat) : Except String SerialResult :=
  match stageCanon g runner plan remaining
      (foldCommits g runner inFlight st codes).1 order
      (foldCommits g runner inFlight st codes).2 with
  | .error e => .error e
  | .ok (st', order', codes') =>
    depthsCanon g runner plan depths st' order' codes'

/-- Step budget of a configuration: one per stage pop, two per
unprocessed stage name, one per in-flight completion, one to finish. -/
def parCost (depths : List (List String)) (remaining : List String)
    (inFlight : List (String × Bool)) : Nat :=
  1 + (depths.map (fun l => 1 + 2 * l.length)).sum +
    2 * remaining.length + inFlight.length

theorem all_congr_mem (l : List α) (f f' : α → Bool)
    (h : ∀ x ∈ l, f x = f' x) : l.all f = l.all f' := by
  induction l with
  | nil => rfl
  | cons a t ih =>
    have ha := h a (List.mem_cons_self a t)
    have ht := ih (fun x hx => h x (List.mem_cons_of_mem a hx))
    simp only [List.all_cons, ha, ht]

theorem nodup_not_mem_eraseIdx (l : List α) :
    ∀ (i : Nat) (w : α), l.Nodup → l[i]? = some w → w ∉ l.eraseIdx i := by
  induction l with
  | nil =>
    intro i w _ hw
    simp at hw
  | cons a t ih =>
    intro i w hnd hw
    cases i with
    | zero =>
      simp only [List.getElem?_cons_zero, Option.some.injEq] at hw
      subst hw
      rw [List.eraseIdx_cons_zero]
      exact (List.nodup_cons.mp hnd).1
    | succ j =>
      simp only [List.getElem?_cons_succ] at hw
      rw [List.eraseIdx_cons_succ]
      intro hm
      rcases List.mem_cons.mp hm with h | h
      · subst h
        exact (List.nodup_cons.mp hnd).1
          (List.getElem?_mem hw)
      · exact ih j w (List.nodup_cons.mp hnd).2 hw h

/-- Every proper descendant lies strictly deeper when every edge
increases depth. -/
theorem reachAux_depth (g : TaskGraph)
    (hdepth : ∀ c ∈ g.nodes, ∀ q ∈ g.parents c, g.depth q < g.depth c)
    (n : String) :
    ∀ (fuel : Nat) (acc : List String),
      (∀ y ∈ acc, y = n ∨ g.depth n < g.depth y) →
      ∀ y ∈ reachAux g fuel acc, y = n ∨ g.depth n < g.depth y := by
  intro fuel
  induction fuel with
  | zero =>
    intro acc hacc y hy
    exact hacc y hy
  | succ fuel ih =>
    intro acc hacc y hy
    rw [reachAux] at hy
    split at hy
    · exact hacc y hy
    · refine ih _ ?_ y hy
      intro z hz
      rcases List.mem_append.mp hz with h | h
      · exact hacc z h
      · rw [List.mem_filter] at h
        obtain ⟨hzn, hcond⟩ := h
        simp only [Bool.and_eq_true, List.any_eq_true] at hcond
        obtain ⟨_, q, hq, hqacc⟩ := hcond
        have hqmem : q ∈ acc := by simpa using hqacc
        have hqc : g.depth q < g.depth z := hdepth z hzn q hq
        rcases hacc q hqmem with h' | h'
        · right
          rw [← h']
          exact hqc
        · right
          exact h'.trans hqc

theorem desc_depth (g : TaskGraph)
    (hdepth : ∀ c ∈ g.nodes, ∀ q ∈ g.parents c, g.depth q < g.depth c)
    (n y : String) (hy : y ∈ descendantsOf g n) :
    y = n ∨ g.depth n < g.depth y := by
  refine reachAux_depth g hdepth n g.nodes.length [n] ?_ y hy
  intro z hz
  rcases List.mem_singleton.mp hz with rfl
  exact Or.inl rfl

theorem not_mem_desc_of_depth_le (g : TaskGraph)
    (hdepth : ∀ c ∈ g.nodes, ∀ q ∈ g.parents c, g.depth q < g.depth c)
    (n x : String) (hne : x ≠ n) (hd : g.depth x ≤ g.depth n) :
    x ∉ descendantsOf g n := by
  intro hm
  rcases desc_depth g hdepth n x hm with h | h
  · exact hne h
  · omega

end SW

namespace SW

theorem contains_eq_false_of_not_mem (l : List String) (x : String)
    (h : x ∉ l) : l.contains x = false := by
  by_contra hc
  rw [Bool.not_eq_false] at hc
  exact h (by simpa using hc)

theorem failProp_read (g : TaskGraph) (st : String → TaskState)
    (n x : String) (h1 : x ≠ n) (h2 : x ∉ descendantsOf g n) :
    FailAndPropagate g st n x = st x := by
  simp only [FailAndPropagate]
  rw [if_neg h1, contains_eq_false_of_not_mem _ _ h2]
  simp

theorem commitOne_read (g : TaskGraph) (runner : Runner)
    (st : String → TaskState) (codes : String → Nat)
    (w : String × Bool) (x : String) (h1 : x ≠ w.1)
    (h2 : x ∉ descendantsOf g w.1) :
    (commitOne g runner (st, codes) w).1 x = st x := by
  simp only [commitOne]
  split
  · simp [if_neg h1]
  · exact failProp_read g st w.1 x h1 h2

theorem commitOne_read_codes (g : TaskGraph) (runner : Runner)
    (st : String → TaskState) (codes : String → Nat)
    (w : String × Bool) (x : String) (h1 : x ≠ w.1) :
    (commitOne g runner (st, codes) w).2 x = codes x := by
  simp only [commitOne]
  rw [if_neg h1]

theorem failProp_update (g : TaskGraph) (st : String → TaskState)
    (n x : String) (v : TaskState) (h1 : x ≠ n)
    (h2 : x ∉ descendantsOf g n) :
    FailAndPropagate g (fun y => if y = x then v else st y) n =
      fun y => if y = x then v else FailAndPropagate g st n y := by
  funext y
  by_cases hyx : y = x
  · subst hyx
    rw [failProp_read g _ n y h1 h2]
    simp
  · simp only [FailAndPropagate, if_neg hyx]

theorem commitOne_update (g : TaskGraph) (runner : Runner)
    (st : String → TaskState) (codes : String → Nat)
    (w : String × Bool) (x : String) (v : TaskState) (c : Nat)
    (h1 : x ≠ w.1) (h2 : x ∉ descendantsOf g w.1) :
    commitOne g runner ((fun y => if y = x then v else st y),
      (fun y => if y = x then c else codes y)) w =
    ((fun y => if y = x then v
        else (commitOne g runner (st, codes) w).1 y),
     (fun y => if y = x then c
        else (commitOne g runner (st, codes) w).2 y)) := by
  simp only [commitOne]
  split
  · refine Prod.ext ?_ ?_
    · funext y
      dsimp only
      by_cases hyw : y = w.1
      · rw [if_pos hyw, if_neg (hyw ▸ (fun he => h1 he.symm)), if_pos hyw]
      · rw [if_neg hyw]
        by_cases hyx : y = x
        · rw [if_pos hyx, if_pos hyx]
        · rw [if_neg hyx, if_neg hyx, if_neg hyw]
    · funext y
      dsimp only
      by_cases hyw : y = w.1
      · rw [if_pos hyw, if_neg (hyw ▸ (fun he => h1 he.symm)), if_pos hyw]
      · rw [if_neg hyw]
        by_cases hyx : y = x
        · rw [if_pos hyx, if_pos hyx]
        · rw [if_neg hyx, if_neg hyx, if_neg hyw]
  · refine Prod.ext ?_ ?_
    · dsimp only
      rw [failProp_update g st w.1 x v h1 h2]
    · funext y
      dsimp only
      by_cases hyw : y = w.1
      · rw [if_pos hyw, if_neg (hyw ▸ (fun he => h1 he.symm)), if_pos hyw]
      · rw [if_neg hyw]
        by_cases hyx : y = x
        · rw [if_pos hyx, if_pos hyx]
        · rw [if_neg hyx, if_neg hyx, if_neg hyw]

theorem failProp_comm (g : TaskGraph) (st : String → TaskState)
    (a b : String) (hab : a ≠ b) (hda : b ∉ descendantsOf g a)
    (hdb : a ∉ descendantsOf g b) :
    FailAndPropagate g (FailAndPropagate g st a) b =
      FailAndPropagate g (FailAndPropagate g st b) a := by
  funext y
  have hba : ¬ b = a := fun he => hab he.symm
  have hcda : (descendantsOf g a).contains b = false :=
    contains_eq_false_of_not_mem _ _ hda
  have hcdb : (descendantsOf g b).contains a = false :=
    contains_eq_false_of_not_mem _ _ hdb
  by_cases hyb : y = b
  · subst hyb
    simp [FailAndPropagate, hba, hcda]
  · by_cases hya : y = a
    · subst hya
      simp [FailAndPropagate, hab, hcdb]
    · simp only [FailAndPropagate, if_neg hyb, if_neg hya]
      by_cases pa : y ∈ descendantsOf g a
      · by_cases pb : y ∈ descendantsOf g b
        · by_cases sp : st y = TaskState.pending
          · simp [pa, pb, sp]
          · simp [pa, pb, sp]
        · simp [pa, pb]
      · by_cases pb : y ∈ descendantsOf g b
        · simp [pa, pb]
        · simp [pa, pb]

theorem commitOne_eq (g : TaskGraph) (runner : Runner)
    (sc : (String → TaskState) × (String → Nat)) (w : String × Bool) :
    commitOne g runner sc w =
      ((if (completionResult runner w.1 w.2).exitCode = 0 then
          (fun x => if x = w.1 then TaskState.completed else sc.1 x)
        else FailAndPropagate g sc.1 w.1),
       fun x => if x = w.1 then
         (completionResult runner w.1 w.2).exitCode else sc.2 x) := rfl

theorem commitOne_comm (g : TaskGraph) (runner : Runner)
    (st : String → TaskState) (codes : String → Nat)
    (a b : String × Bool) (hab : a.1 ≠ b.1)
    (hda : b.1 ∉ descendantsOf g a.1)
    (hdb : a.1 ∉ descendantsOf g b.1) :
    commitOne g runner (commitOne g runner (st, codes) a) b =
      commitOne g runner (commitOne g runner (st, codes) b) a := by
  by_cases hea : (completionResult runner a.1 a.2).exitCode = 0
  · have hca : commitOne g runner (st, codes) a =
        ((fun y => if y = a.1 then TaskState.completed else st y),
         (fun y => if y = a.1 then
            (completionResult runner a.1 a.2).exitCode else codes y)) := by
      rw [commitOne_eq, if_pos hea]
    rw [hca, commitOne_update g runner st codes b a.1 _ _ hab hdb,
      commitOne_eq g runner (commitOne g runner (st, codes) b) a,
      if_pos hea]
  · have hca : commitOne g runner (st, codes) a =
        (FailAndPropagate g st a.1,
         (fun y => if y = a.1 then
            (completionResult runner a.1 a.2).exitCode else codes y)) := by
      rw [commitOne_eq, if_neg hea]
    by_cases heb : (completionResult runner b.1 b.2).exitCode = 0
    · have hcb : commitOne g runner (st, codes) b =
          ((fun y => if y = b.1 then TaskState.completed else st y),
           (fun y => if y = b.1 then
              (completionResult runner b.1 b.2).exitCode
              else codes y)) := by
        rw [commitOne_eq, if_pos heb]
      rw [hcb,
        commitOne_update g runner st codes a b.1 _ _
          (fun he => hab he.symm) hda,
        commitOne_eq g runner (commitOne g runner (st, codes) a) b,
        if_pos heb]
    · have hcb : commitOne g runner (st, codes) b =
          (FailAndPropagate g st b.1,
           (fun y => if y = b.1 then
              (completionResult runner b.1 b.2).exitCode
              else codes y)) := by
        rw [commitOne_eq, if_neg heb]
      rw [hca, hcb, commitOne_eq, commitOne_eq, if_neg heb, if_neg hea]
      refine Prod.ext ?_ ?_
      · dsimp only
        exact failProp_comm g st a.1 b.1 hab hda hdb
      · dsimp only
        funext y
        by_cases hyb : y = b.1
        · rw [if_pos hyb, if_neg (hyb ▸ (fun he => hab he.symm)),
            if_pos hyb]
        · rw [if_neg hyb]
          by_cases hya : y = a.1
          · rw [if_pos hya, if_pos hya]
          · rw [if_neg hya, if_neg hya, if_neg hyb]

end SW

namespace SW

theorem foldCommits_append (g : TaskGraph) (runner : Runner)
    (l : List (String × Bool)) (w : String × Bool) :
    ∀ (st : String → TaskState) (codes : String → Nat),
      foldCommits g runner (l ++ [w]) st codes =
        commitOne g runner (foldCommits g runner l st codes) w := by
  induction l with
  | nil =>
    intro st codes
    rfl
  | cons a t ih =>
    intro st codes
    rw [List.cons_append, foldCommits, foldCommits]
    exact ih _ _

theorem foldCommits_update (g : TaskGraph) (runner : Runner)
    (l : List (String × Bool)) :
    ∀ (st : String → TaskState) (codes : String → Nat) (x : String)
      (v : TaskState) (c : Nat),
      (∀ w ∈ l, x ≠ w.1 ∧ x ∉ descendantsOf g w.1) →
      foldCommits g runner l (fun y => if y = x then v else st y)
          (fun y => if y = x then c else codes y) =
        ((fun y => if y = x then v
            else (foldCommits g runner l st codes).1 y),
         (fun y => if y = x then c
            else (foldCommits g runner l st codes).2 y)) := by
  induction l with
  | nil =>
    intro st codes x v c _
    rfl
  | cons a t ih =>
    intro st codes x v c h
    rw [foldCommits, foldCommits]
    obtain ⟨h1, h2⟩ := h a (by simp)
    rw [commitOne_update g runner st codes a x v c h1 h2]
    exact ih _ _ x v c (fun w hw => h w (by simp [hw]))

theorem foldCommits_erase (g : TaskGraph) (runner : Runner)
    (l : List (String × Bool)) :
    ∀ (i : Nat) (w : String × Bool) (st : String → TaskState)
      (codes : String → Nat),
      l[i]? = some w →
      (l.map Prod.fst).Nodup →
      (∀ a ∈ l, ∀ b ∈ l, a.1 ≠ b.1 → b.1 ∉ descendantsOf g a.1) →
      foldCommits g runner (l.eraseIdx i)
          (commitOne g runner (st, codes) w).1
          (commitOne g runner (st, codes) w).2 =
        foldCommits g runner l st codes := by
  induction l with
  | nil =>
    intro i w st codes hw
    simp at hw
  | cons a t ih =>
    intro i w st codes hw hnd hdd
    cases i with
    | zero =>
      simp only [List.getElem?_cons_zero, Option.some.injEq] at hw
      subst hw
      rw [List.eraseIdx_cons_zero, foldCommits]
    | succ j =>
      simp only [List.getElem?_cons_succ] at hw
      rw [List.eraseIdx_cons_succ, foldCommits, foldCommits]
      have hwt : w ∈ t := List.getElem?_mem hw
      have hawne : a.1 ≠ w.1 := by
        intro he
        rw [List.map_cons, List.nodup_cons] at hnd
        exact hnd.1 (he ▸ List.mem_map_of_mem Prod.fst hwt)
      have hcomm : commitOne g runner (commitOne g runner (st, codes) w)
          a = commitOne g runner (commitOne g runner (st, codes) a) w :=
        commitOne_comm g runner st codes w a (fun he => hawne he.symm)
          (hdd w (by simp [hwt]) a (by simp) (fun he => hawne he.symm))
          (hdd a (by simp) w (by simp [hwt]) hawne)
      have hstep : foldCommits g runner (t.eraseIdx j)
          (commitOne g runner (commitOne g runner (st, codes) w) a).1
          (commitOne g runner (commitOne g runner (st, codes) w) a).2 =
          foldCommits g runner (t.eraseIdx j)
            (commitOne g runner (commitOne g runner (st, codes) a) w).1
            (commitOne g runner (commitOne g runner (st, codes) a) w).2 :=
        by rw [hcomm]
      calc foldCommits g runner (t.eraseIdx j)
            (commitOne g runner
              ((commitOne g runner (st, codes) w).1,
               (commitOne g runner (st, codes) w).2) a).1
            (commitOne g runner
              ((commitOne g runner (st, codes) w).1,
               (commitOne g runner (st, codes) w).2) a).2 =
          foldCommits g runner (t.eraseIdx j)
            (commitOne g runner (commitOne g runner (st, codes) a) w).1
            (commitOne g runner (commitOne g runner (st, codes) a) w).2 :=
            by
              rw [← hstep]
        _ = foldCommits g runner t
            (commitOne g runner (st, codes) a).1
            (commitOne g runner (st, codes) a).2 := by
              have := ih j w (commitOne g runner (st, codes) a).1
                (commitOne g runner (st, codes) a).2 hw
                (by rw [List.map_cons, List.nodup_cons] at hnd; exact hnd.2)
                (fun x hx y hy => hdd x (by simp [hx]) y (by simp [hy]))
              simpa using this

theorem foldCommits_read (g : TaskGraph) (runner : Runner)
    (l : List (String × Bool)) :
    ∀ (st : String → TaskState) (codes : String → Nat) (x : String),
      (∀ w ∈ l, x ≠ w.1 ∧ x ∉ descendantsOf g w.1) →
      (foldCommits g runner l st codes).1 x = st x := by
  induction l with
  | nil =>
    intro st codes x _
    rfl
  | cons a t ih =>
    intro st codes x h
    rw [foldCommits]
    obtain ⟨h1, h2⟩ := h a (by simp)
    rw [ih _ _ x (fun w hw => h w (by simp [hw]))]
    exact commitOne_read g runner st codes a x h1 h2

end SW

namespace SW

theorem commitOne_update_state (g : TaskGraph) (runner : Runner)
    (st : String → TaskState) (codes : String → Nat)
    (w : String × Bool) (x : String) (v : TaskState)
    (h1 : x ≠ w.1) (h2 : x ∉ descendantsOf g w.1) :
    commitOne g runner ((fun y => if y = x then v else st y), codes) w =
    ((fun y => if y = x then v
        else (commitOne g runner (st, codes) w).1 y),
     (commitOne g runner (st, codes) w).2) := by
  have hcodes : (fun y => if y = x then codes x else codes y) = codes :=
    by
    funext y
    by_cases hyx : y = x
    · rw [if_pos hyx, hyx]
    · rw [if_neg hyx]
  have h' := commitOne_update g runner st codes w x v (codes x) h1 h2
  rw [hcodes] at h'
  rw [h']
  refine Prod.ext rfl ?_
  dsimp only
  funext y
  by_cases hyx : y = x
  · rw [if_pos hyx, hyx]
    exact (commitOne_read_codes g runner st codes w x h1).symm
  · rw [if_neg hyx]

theorem foldCommits_update_state (g : TaskGraph) (runner : Runner)
    (l : List (String × Bool)) :
    ∀ (st : String → TaskState) (codes : String → Nat) (x : String)
      (v : TaskState),
      (∀ w ∈ l, x ≠ w.1 ∧ x ∉ descendantsOf g w.1) →
      foldCommits g runner l (fun y => if y = x then v else st y) codes =
        ((fun y => if y = x then v
            else (foldCommits g runner l st codes).1 y),
         (foldCommits g runner l st codes).2) := by
  induction l with
  | nil =>
    intro st codes x v _
    rfl
  | cons a t ih =>
    intro st codes x v h
    rw [foldCommits, foldCommits]
    obtain ⟨h1, h2⟩ := h a (by simp)
    rw [commitOne_update_state g runner st codes a x v h1 h2]
    exact ih _ _ x v (fun w hw => h w (by simp [hw]))

theorem fst_ne_of_mem_eraseIdx (l : List (String × Bool)) (i : Nat)
    (w w' : String × Bool) (hnd : (l.map Prod.fst).Nodup)
    (hw : l[i]? = some w) (hw' : w' ∈ l.eraseIdx i) : w'.1 ≠ w.1 := by
  intro he
  have hlnd : l.Nodup := hnd.of_map
  have hmem : w' ∈ l := (l.eraseIdx_sublist i).subset hw'
  have hww : w' = w :=
    List.inj_on_of_nodup_map hnd hmem (List.getElem?_mem hw) he
  rw [hww] at hw'
  exact nodup_not_mem_eraseIdx l i w hlnd hw hw'

theorem completion_case (g : TaskGraph) (runner : Runner)
    (plan : Option IncrementalPlan)
    (hdepth : ∀ c ∈ g.nodes, ∀ q ∈ g.parents c, g.depth q < g.depth c)
    (depths : List (List String)) (remaining : List String)
    (inFlight : List (String × Bool)) (st : String → TaskState)
    (order : List String) (codes : String → Nat) (i : Nat) (d : Nat)
    (hne : inFlight ≠ [])
    (hinF : ∀ w ∈ inFlight, g.depth w.1 = d ∧ w.1 ∈ g.nodes)
    (hnd : (inFlight.map Prod.fst).Nodup)
    (hrun : ∀ w ∈ inFlight, st w.1 = .running) :
    ∃ w, inFlight[i % inFlight.length]? = some w ∧
      completeStep g runner inFlight st codes i =
        .ok ((commitOne g runner (st, codes) w).1,
          (commitOne g runner (st, codes) w).2,
          inFlight.eraseIdx (i % inFlight.length)) ∧
      canonCont g runner plan depths remaining
          (inFlight.eraseIdx (i % inFlight.length))
          (commitOne g runner (st, codes) w).1 order
          (commitOne g runner (st, codes) w).2 =
        canonCont g runner plan depths remaining inFlight st order codes ∧
      (∀ w' ∈ inFlight.eraseIdx (i % inFlight.length),
        (commitOne g runner (st, codes) w).1 w'.1 = .running) := by
  have hm : i % inFlight.length < inFlight.length :=
    Nat.mod_lt _ (List.length_pos.mpr hne)
  refine ⟨inFlight[i % inFlight.length], List.getElem?_eq_getElem hm,
    ?_, ?_, ?_⟩
  · rw [completeStep, List.getElem?_eq_getElem hm]
    dsimp only
    rw [if_neg (fun hc => hc (hrun _ (List.getElem_mem hm)))]
  · rw [canonCont, canonCont]
    rw [foldCommits_erase g runner inFlight (i % inFlight.length)
      inFlight[i % inFlight.length] st codes
      (List.getElem?_eq_getElem hm) hnd ?_]
    intro a ha b hb hab
    exact not_mem_desc_of_depth_le g hdepth a.1 b.1 (fun he => hab
      he.symm) (by rw [(hinF a ha).1, (hinF b hb).1])
  · intro w' hw'
    have hne' : w'.1 ≠ inFlight[i % inFlight.length].1 :=
      fst_ne_of_mem_eraseIdx inFlight (i % inFlight.length) _ w' hnd
        (List.getElem?_eq_getElem hm) hw'
    have hmem' : w' ∈ inFlight :=
      (inFlight.eraseIdx_sublist (i % inFlight.length)).subset hw'
    rw [commitOne_read g runner st codes _ w'.1 hne' ?_]
    · exact hrun w' hmem'
    · exact not_mem_desc_of_depth_le g hdepth _ w'.1 hne'
        (by rw [(hinF w' hmem').1,
          (hinF _ (List.getElem_mem hm)).1])

end SW

namespace SW

theorem runParAux_eq_canon (g : TaskGraph) (runner : Runner)
    (plan : Option IncrementalPlan) (k : Nat) (σ : Nat → Nat)
    (hk : 0 < k)
    (hdepth : ∀ c ∈ g.nodes, ∀ q ∈ g.parents c, g.depth q < g.depth c) :
    ∀ (fuel : Nat) (depths : List (List String))
      (remaining : List String) (inFlight : List (String × Bool))
      (st : String → TaskState) (order : List String)
      (codes : String → Nat) (ctr : Nat) (d : Nat),
      parCost depths remaining inFlight ≤ fuel →
      (∀ x ∈ remaining, g.depth x = d ∧ x ∈ g.nodes) →
      (∀ w ∈ inFlight, g.depth w.1 = d ∧ w.1 ∈ g.nodes) →
      (remaining ++ inFlight.map Prod.fst).Nodup →
      (∀ w ∈ inFlight, st w.1 = .running) →
      (∀ l ∈ depths, l.Nodup ∧ ∃ dv, ∀ x ∈ l,
        g.depth x = dv ∧ x ∈ g.nodes) →
      runParAux g runner plan k σ fuel depths remaining inFlight st order
          codes ctr =
        canonCont g runner plan depths remaining inFlight st order
          codes := by
  intro fuel
  induction fuel with
  | zero =>
    intro depths remaining inFlight st order codes ctr d hcost _ _ _ _ _
    rw [parCost] at hcost
    omega
  | succ fuel ih =>
    intro depths remaining inFlight st order codes ctr d hcost hrem hinF
      hnd hrun hdepths
    simp only [runParAux]
    cases remaining with
    | nil =>
      dsimp only
      cases inFlight with
      | nil =>
        dsimp only
        cases depths with
        | nil => rfl
        | cons l ls =>
          have hR : canonCont g runner plan (l :: ls) [] [] st order
              codes = canonCont g runner plan ls l [] st order codes := by
            rw [canonCont, canonCont]
            simp only [stageCanon, foldCommits, depthsCanon]
          rw [hR]
          obtain ⟨hlnd, dv, hdv⟩ := hdepths l (by simp)
          refine ih ls l [] st order codes ctr dv ?_ hdv (by simp) ?_
            (by simp) (fun l' hl' => hdepths l' (by simp [hl']))
          · rw [parCost] at hcost ⊢
            simp only [List.map_cons, List.sum_cons, List.length_nil,
              List.map_nil, List.length_cons] at hcost ⊢
            omega
          · simpa using hlnd
      | cons w ws =>
        have hne : (w :: ws) ≠ ([] : List (String × Bool)) := by simp
        obtain ⟨w0, hw0, hcs, hcanon, hrun'⟩ := completion_case g runner
          plan hdepth depths [] (w :: ws) st order codes (σ ctr) d hne
          hinF (by simpa using hnd) hrun
        rw [hcs]
        dsimp only
        rw [← hcanon]
        have hpos : 0 < (w :: ws).length := by simp
        have hm : σ ctr % (w :: ws).length < (w :: ws).length :=
          Nat.mod_lt _ hpos
        have hlen : ((w :: ws).eraseIdx
            (σ ctr % (w :: ws).length)).length = (w :: ws).length - 1 :=
          by
          rw [List.length_eraseIdx, if_pos hm]
        refine ih depths [] _ _ order _ (ctr + 1) d ?_ (by simp) ?_ ?_
          hrun' hdepths
        · rw [parCost] at hcost ⊢
          omega
        · intro w' hw'
          exact hinF w'
            (((w :: ws).eraseIdx_sublist _).subset hw')
        · simp only [List.nil_append] at hnd ⊢
          refine List.Nodup.sublist ?_ hnd
          exact List.Sublist.map Prod.fst ((w :: ws).eraseIdx_sublist _)
    | cons name rest =>
      dsimp only
      by_cases hkf : inFlight.length < k
      · rw [if_pos hkf]
        have hname := hrem name (by simp)
        have hninf : ∀ w ∈ inFlight,
            name ≠ w.1 ∧ name ∉ descendantsOf g w.1 := by
          intro w hw
          have hne : name ≠ w.1 := by
            intro he
            have hmm : name ∈ inFlight.map Prod.fst :=
              he ▸ List.mem_map_of_mem Prod.fst hw
            have hnodup := hnd
            rw [List.cons_append, List.nodup_cons] at hnodup
            exact hnodup.1 (List.mem_append.mpr (Or.inr hmm))
          exact ⟨hne, not_mem_desc_of_depth_le g hdepth w.1 name hne
            (by rw [hname.1, (hinF w hw).1])⟩
        have hstabname :
            (foldCommits g runner inFlight st codes).1 name = st name :=
          foldCommits_read g runner inFlight st codes name hninf
        have hstabpar : ∀ q ∈ g.parents name,
            (foldCommits g runner inFlight st codes).1 q = st q := by
          intro q hq
          refine foldCommits_read g runner inFlight st codes q ?_
          intro w hw
          have hdq : g.depth q < d := by
            have := hdepth name hname.2 q hq
            rw [hname.1] at this
            exact this
          have hne : q ≠ w.1 := by
            intro he
            rw [he, (hinF w hw).1] at hdq
            omega
          exact ⟨hne, not_mem_desc_of_depth_le g hdepth w.1 q hne
            (by rw [(hinF w hw).1]; omega)⟩
        have hall : (g.parents name).all (fun p =>
            IsSuccessful ((foldCommits g runner inFlight st codes).1 p))
            = (g.parents name).all (fun p => IsSuccessful (st p)) :=
          all_congr_mem _ _ _ (fun q hq => by rw [hstabpar q hq])
        have hndrest : (rest ++ inFlight.map Prod.fst).Nodup := by
          have hnodup := hnd
          rw [List.cons_append, List.nodup_cons] at hnodup
          exact hnodup.2
        by_cases ht : IsTerminal (st name) = true
        · rw [if_pos ht]
          have hR : canonCont g runner plan depths (name :: rest)
              inFlight st order codes =
              canonCont g runner plan depths rest inFlight st order
                codes := by
            rw [canonCont, canonCont]
            simp only [stageCanon]
            rw [hstabname, if_pos ht]
          rw [hR]
          refine ih depths rest inFlight st order codes ctr d ?_
            (fun x hx => hrem x (by simp [hx])) hinF hndrest hrun hdepths
          rw [parCost] at hcost ⊢
          simp only [List.length_cons] at hcost ⊢
          omega
        · rw [if_neg ht]
          by_cases hp : st name = TaskState.pending
          · rw [if_neg (fun hc => hc hp)]
            by_cases hdeps : (g.parents name).all
                (fun p => IsSuccessful (st p)) = true
            · rw [if_neg (fun hc => hc hdeps)]
              have hcost2 : ∀ b : Bool, parCost depths rest
                  (inFlight ++ [(name, b)]) ≤ fuel := by
                intro b
                rw [parCost] at hcost ⊢
                simp only [List.length_cons, List.length_append,
                  List.length_nil] at hcost ⊢
                omega
              have hinF2 : ∀ b : Bool, ∀ w ∈ inFlight ++ [(name, b)],
                  g.depth w.1 = d ∧ w.1 ∈ g.nodes := by
                intro b w hw
                rcases List.mem_append.mp hw with h | h
                · exact hinF w h
                · rcases List.mem_singleton.mp h with rfl
                  exact hname
              have hnd2 : ∀ b : Bool,
                  (rest ++ (inFlight ++ [(name, b)]).map
                    Prod.fst).Nodup := by
                intro b
                simp only [List.map_append, List.map_cons, List.map_nil]
                refine (List.Perm.trans
                  ((List.perm_append_singleton _ _).append_left rest)
                  List.perm_middle).nodup_iff.mpr ?_
                exact hnd
              have hrun2 : ∀ b : Bool, ∀ w ∈ inFlight ++ [(name, b)],
                  (fun x => if x = name then TaskState.running else st x)
                    w.1 = .running := by
                intro b w hw
                rcases List.mem_append.mp hw with h | h
                · show (if w.1 = name then TaskState.running else st w.1)
                    = .running
                  rw [if_neg (fun he => (hninf w h).1 he.symm)]
                  exact hrun w h
                · rcases List.mem_singleton.mp h with rfl
                  simp
              cases plan with
              | some p =>
                dsimp only
                have hR : canonCont g runner (some p) depths
                    (name :: rest) inFlight st order codes =
                    canonCont g runner (some p) depths rest
                      (inFlight ++ [(name,
                        decide (lookupA p.decisions name =
                          some NodeExecutionDecision.reuseCache))])
                      (fun x => if x = name then TaskState.running
                        else st x)
                      (order ++ [name]) codes := by
                  rw [canonCont, canonCont, foldCommits_append,
                    foldCommits_update_state g runner inFlight st codes
                      name TaskState.running hninf]
                  simp only [stageCanon]
                  rw [hstabname, if_neg ht, if_neg (fun hc => hc hp),
                    hall, if_neg (fun hc => hc hdeps)]
                rw [hR]
                exact ih depths rest _ _ (order ++ [name]) codes ctr d
                  (hcost2 _) (fun x hx => hrem x (by simp [hx]))
                  (hinF2 _) (hnd2 _) (hrun2 _) hdepths
              | none =>
                dsimp only
                cases hpr : runner.probe name with
                | some res =>
                  dsimp only
                  have hR : canonCont g runner none depths
                      (name :: rest) inFlight st order codes =
                      canonCont g runner none depths rest inFlight
                        (fun x => if x = name then TaskState.cached
                          else st x) order
                        (fun x => if x = name then res.exitCode
                          else codes x) := by
                    rw [canonCont, canonCont,
                      foldCommits_update g runner inFlight st codes name
                        TaskState.cached res.exitCode hninf]
                    simp only [stageCanon]
                    rw [hstabname, if_neg ht, if_neg (fun hc => hc hp),
                      hall, if_neg (fun hc => hc hdeps), hpr]
                  rw [hR]
                  refine ih depths rest inFlight _ order _ ctr d ?_
                    (fun x hx => hrem x (by simp [hx])) hinF hndrest ?_
                    hdepths
                  · rw [parCost] at hcost ⊢
                    simp only [List.length_cons] at hcost ⊢
                    omega
                  · intro w hw
                    show (if w.1 = name then TaskState.cached
                      else st w.1) = .running
                    rw [if_neg (fun he => (hninf w hw).1 he.symm)]
                    exact hrun w hw
                | none =>
                  dsimp only
                  have hR : canonCont g runner none depths
                      (name :: rest) inFlight st order codes =
                      canonCont g runner none depths rest
                        (inFlight ++ [(name, false)])
                        (fun x => if x = name then TaskState.running
                          else st x)
                        (order ++ [name]) codes := by
                    rw [canonCont, canonCont, foldCommits_append,
                      foldCommits_update_state g runner inFlight st codes
                        name TaskState.running hninf]
                    simp only [stageCanon]
                    rw [hstabname, if_neg ht, if_neg (fun hc => hc hp),
                      hall, if_neg (fun hc => hc hdeps), hpr]
                  rw [hR]
                  exact ih depths rest _ _ (order ++ [name]) codes ctr d
                    (hcost2 _) (fun x hx => hrem x (by simp [hx]))
                    (hinF2 _) (hnd2 _) (hrun2 _) hdepths
            · rw [if_pos hdeps]
              have hR : canonCont g runner plan depths (name :: rest)
                  inFlight st order codes = .error
                    "pending but dependencies are not successful" := by
                rw [canonCont]
                simp only [stageCanon]
                rw [hstabname, if_neg ht, if_neg (fun hc => hc hp),
                  hall, if_pos hdeps]
              rw [hR]
          · rw [if_pos hp]
            have hR : canonCont g runner plan depths (name :: rest)
                inFlight st order codes = .error
                  "unexpected non-pending state" := by
              rw [canonCont]
              simp only [stageCanon]
              rw [hstabname, if_neg ht, if_pos hp]
            rw [hR]
      · rw [if_neg hkf]
        have hne : inFlight ≠ [] := by
          intro he
          rw [he] at hkf
          exact hkf (by simpa using hk)
        obtain ⟨w0, hw0, hcs, hcanon, hrun'⟩ := completion_case g runner
          plan hdepth depths (name :: rest) inFlight st order codes
          (σ ctr) d hne hinF (List.nodup_append.mp hnd).2.1 hrun
        rw [hcs]
        dsimp only
        rw [← hcanon]
        have hpos : 0 < inFlight.length := List.length_pos.mpr hne
        have hm : σ ctr % inFlight.length < inFlight.length :=
          Nat.mod_lt _ hpos
        have hlen : (inFlight.eraseIdx
            (σ ctr % inFlight.length)).length = inFlight.length - 1 :=
          by
          rw [List.length_eraseIdx, if_pos hm]
        refine ih depths (name :: rest) _ _ order _ (ctr + 1) d ?_ hrem
          ?_ ?_ hrun' hdepths
        · rw [parCost] at hcost ⊢
          omega
        · intro w' hw'
          exact hinF w' ((inFlight.eraseIdx_sublist _).subset hw')
        · refine List.Nodup.sublist ?_ hnd
          exact List.Sublist.append_left
            (List.Sublist.map Prod.fst (inFlight.eraseIdx_sublist _)) _

end SW

namespace SW

theorem byDepthOf_wf (g : TaskGraph) (hnd : g.nodes.Nodup) :
    ∀ l ∈ byDepthOf g, l.Nodup ∧ ∃ dv, ∀ x ∈ l,
      g.depth x = dv ∧ x ∈ g.nodes := by
  intro l hl
  rw [byDepthOf] at hl
  obtain ⟨dd, _, hleq⟩ := List.mem_map.mp hl
  refine ⟨?_, dd, ?_⟩
  · rw [← hleq]
    exact sortStrings_nodup _ (hnd.filter _)
  · intro x hx
    rw [← hleq, mem_sortStrings, List.mem_filter] at hx
    exact ⟨of_decide_eq_true hx.2, hx.1⟩

theorem RunParallel_eq_canon (g : TaskGraph) (runner : Runner)
    (plan : Option IncrementalPlan) (k : Nat) (σ : Nat → Nat)
    (hk : 0 < k) (hnd : g.nodes.Nodup)
    (hdepth : ∀ c ∈ g.nodes, ∀ q ∈ g.parents c, g.depth q < g.depth c) :
    RunParallel g runner plan k σ =
      depthsCanon g runner plan (byDepthOf g) (fun _ => .pending) []
        (fun _ => 0) := by
  have hc : parCost (byDepthOf g) [] [] ≤ parFuel g := by
    rw [parCost, parFuel]
    simp
  rw [RunParallel, if_neg (Nat.pos_iff_ne_zero.mp hk)]
  rw [runParAux_eq_canon g runner plan k σ hk hdepth (parFuel g)
    (byDepthOf g) [] [] (fun _ => .pending) [] (fun _ => 0) 0 0 hc
    (by simp) (by simp) (by simp) (by simp) (byDepthOf_wf g hnd)]
  rfl

/-- A two-node chain used to instantiate the parallel-determinism
theorem. -/
def c6G : TaskGraph :=
  ⟨["a", "b"], fun x => if x = "b" then ["a"] else [],
    fun x => if x = "b" then 1 else 0⟩

def c6Runner : Runner := ⟨fun _ => none, fun n => ⟨n, "", "", 0⟩, none⟩

/-- **C6.** On a graph whose edges strictly increase topological depth
and whose node list is duplicate-free, `RunParallel` equals the
canonical sequential elaboration of the depth stages (`byDepthOf`:
depths in increasing order, lexicographic within each depth) for every
worker count `k ≥ 1` and every completion schedule `σ`; consequently any
two worker counts and schedules produce byte-identical results —
identical state map, identical recorded execution order, identical exit
codes. -/
theorem c6_parallel_determinism (g : TaskGraph) (runner : Runner)
    (plan : Option IncrementalPlan) (j k : Nat) (σ1 σ2 : Nat → Nat)
    (hj : 0 < j) (hk : 0 < k) (hnd : g.nodes.Nodup)
    (hdepth : ∀ c ∈ g.nodes, ∀ q ∈ g.parents c, g.depth q < g.depth c) :
    RunParallel g runner plan j σ1 =
      depthsCanon g runner plan (byDepthOf g) (fun _ => .pending) []
        (fun _ => 0) ∧
    RunParallel g runner plan j σ1 = RunParallel g runner plan k σ2 := by
  refine ⟨RunParallel_eq_canon g runner plan j σ1 hj hnd hdepth, ?_⟩
  rw [RunParallel_eq_canon g runner plan j σ1 hj hnd hdepth,
    RunParallel_eq_canon g runner plan k σ2 hk hnd hdepth]

theorem c6_parallel_determinism_witness :
    ((0 : Nat) < 1 ∧ (0 : Nat) < 2 ∧ c6G.nodes.Nodup ∧
      (∀ c ∈ c6G.nodes, ∀ q ∈ c6G.parents c,
        c6G.depth q < c6G.depth c)) ∧
    (RunParallel c6G c6Runner none 1 (fun _ => 0) =
      depthsCanon c6G c6Runner none (byDepthOf c6G)
        (fun _ => .pending) [] (fun _ => 0) ∧
    RunParallel c6G c6Runner none 1 (fun _ => 0) =
      RunParallel c6G c6Runner none 2 (fun n => n % 2)) :=
  ⟨⟨by decide, by decide, by decide, by decide⟩,
    c6_parallel_determinism c6G c6Runner none 1 2 (fun _ => 0)
      (fun n => n % 2) (by decide) (by decide) (by decide) (by decide)⟩

end SW
